import Mathlib

/-!
Verification of the AASX/OPC package model (part registry, relationship graph,
canonical path resolution, content-type resolution, and the archive codec).

JavaScript strings are modelled as `List Char`; JavaScript `Map`s (insertion
ordered, update-in-place) as association lists.  The external zip and XML
codecs (`fflate`, `xml-sax-ts`) are abstracted at their boundary: an archive
is the decoded entry table, and an XML byte payload is the parsed document
node.  All data-model and facade logic is translated from the source.
-/

set_option maxHeartbeats 1000000

namespace Aasx

/-- JavaScript strings, modelled as lists of characters. -/
abbrev JStr := List Char

/-- Convert a Lean string literal to the model string type. -/
def str (s : String) : JStr := s.toList

/-- `String.prototype.toLowerCase` (ASCII range, which is all the code relies on). -/
def toLowerJS (s : JStr) : JStr := s.map Char.toLower

/-- Does the string start with `'/'`? -/
def startsWithSlash : JStr → Bool
  | c :: _ => c = '/'
  | [] => false

/-- `path.startsWith('/') ? path : '/' + path`. -/
def ensureLeadingSlash (path : JStr) : JStr :=
  if startsWithSlash path then path else '/' :: path

/-- `path.startsWith('/') ? path.slice(1) : path`. -/
def trimLeadingSlash (path : JStr) : JStr :=
  match path with
  | '/' :: rest => rest
  | other => other

/-- `path.length > 1 && path.endsWith('/') ? path.slice(0, -1) : path`. -/
def trimTrailingSlash (path : JStr) : JStr :=
  if path.length > 1 ∧ path.getLast? = some '/' then path.dropLast else path

/-- `String.prototype.lastIndexOf` for a single character (`none` models `-1`). -/
def lastIndexOf (c : Char) : JStr → Option Nat
  | [] => none
  | x :: xs =>
    match lastIndexOf c xs with
    | some i => some (i + 1)
    | none => if x = c then some 0 else none

/-- `String.prototype.split` on a single separator character. -/
def splitChar (c : Char) : JStr → List JStr
  | [] => [[]]
  | x :: xs =>
    match splitChar c xs with
    | r :: rs => if x = c then [] :: r :: rs else (x :: r) :: rs
    | [] => [[]]

/-- `Array.prototype.join('/')`. -/
def joinSlash : List JStr → JStr
  | [] => []
  | [s] => s
  | s :: t :: rest => s ++ '/' :: joinSlash (t :: rest)

/-- Lexical `.`/`..` normalization over `/`-separated segments (`normalizePath`). -/
def normalizePath (input : JStr) : JStr :=
  let segments := splitChar '/' input
  let stack := segments.foldl
    (fun st seg =>
      if seg = [] ∨ seg = str "." then st
      else if seg = str ".." then st.dropLast
      else st ++ [seg]) []
  '/' :: joinSlash stack

/-- Canonical lookup key: leading slash, lexical normalization, lower-cased. -/
def normalizePathForMap (path : JStr) : JStr :=
  if path = [] then []
  else toLowerJS (normalizePath (ensureLeadingSlash path))

/-- `pathFromUri`: a model URI is already its pathname string. -/
def pathFromUri (uri : JStr) : JStr := uri

/-- `normalizeURI` applied to a (non-null) URI's pathname. -/
def normalizeURI (uri : JStr) : JStr :=
  let value := pathFromUri uri
  normalizePathForMap (if startsWithSlash value then value else '/' :: value)

/-- `dirName`: everything before the last slash (`/` for indexes `≤ 0`). -/
def dirName (path : JStr) : JStr :=
  let normalized := trimTrailingSlash path
  match lastIndexOf '/' normalized with
  | none => str "/"
  | some i => if i = 0 then str "/" else normalized.take i

/-- `baseName`: everything after the last slash. -/
def baseName (path : JStr) : JStr :=
  let normalized := trimTrailingSlash path
  match lastIndexOf '/' normalized with
  | none => normalized
  | some i => normalized.drop (i + 1)

/-- `extName`: the final `.`-suffix of the basename, empty for indexes `≤ 0`. -/
def extName (path : JStr) : JStr :=
  let base := baseName path
  match lastIndexOf '.' base with
  | none => []
  | some i => if i = 0 then [] else base.drop i

/-- `String.prototype.replace('.', '')`: drop the first `.` occurrence. -/
def removeFirstDot : JStr → JStr
  | [] => []
  | c :: rest => if c = '.' then rest else c :: removeFirstDot rest

/-- Strip `suffix` from the end of `s` when present (a `/X$/` regex replace). -/
def stripSuffixJS (s suffix : JStr) : JStr :=
  if suffix.isSuffixOf s then s.take (s.length - suffix.length) else s

/-- `getSourcePathFromRelsPath`: recover a source path from a `.rels` document path. -/
def getSourcePathFromRelsPath (relsPath : JStr) : JStr :=
  let clean := trimLeadingSlash relsPath
  if clean = str "_rels/.rels" then []
  else
    let dir0 := stripSuffixJS (dirName clean) (str "/_rels")
    let dir := if dir0 = str "_rels" then [] else dir0
    let base := stripSuffixJS (baseName clean) (str ".rels")
    if dir = [] ∨ dir = str "." then ensureLeadingSlash base
    else ensureLeadingSlash (dir ++ '/' :: base)

/-- `getRelsPath`: the relationship-document path for a source path. -/
def getRelsPath (sourcePath : JStr) : JStr :=
  let normalized := normalizePathForMap sourcePath
  if normalized = [] then str "/_rels/.rels"
  else
    let dir := dirName normalized
    let base := baseName normalized
    if dir = [] ∨ dir = str "/" then str "/_rels/" ++ base ++ str ".rels"
    else dir ++ str "/_rels/" ++ base ++ str ".rels"

/-- `resolveRelativeURI`: absolute targets pass through, relative ones resolve
against the source's directory. -/
def resolveRelativeURI (sourcePath target : JStr) : JStr :=
  let normalizedTarget := target.map (fun c => if c = '\\' then '/' else c)
  if startsWithSlash normalizedTarget then normalizedTarget
  else
    let sourceDirectory :=
      if sourcePath = [] then str "/"
      else (let d := dirName sourcePath; if d = [] then str "/" else d)
    normalizePath (sourceDirectory ++ '/' :: normalizedTarget)

/-- Fuel-driven hexadecimal digit expansion (the fuel only needs to cover the
digit count, and `n + 1` always does). -/
def toHexCharsAux : Nat → Nat → JStr
  | 0, _ => []
  | fuel + 1, n =>
    if n < 16 then [Nat.digitChar n]
    else toHexCharsAux fuel (n / 16) ++ [Nat.digitChar (n % 16)]

/-- `n.toString(16)`: lowercase hexadecimal digits, most significant first. -/
def toHexChars (n : Nat) : JStr := toHexCharsAux (n + 1) n

/-- `String.prototype.padStart(width, '0')`. -/
def padStartZero (l : JStr) (width : Nat) : JStr :=
  List.replicate (width - l.length) '0' ++ l

/-- The relationship id minted for counter value `n`: `R` + 8 zero-padded hex digits. -/
def relIdFor (n : Nat) : JStr := 'R' :: padStartZero (toHexChars n) 8

/-! ### JavaScript `Map` / plain-object model: insertion-ordered association lists -/

/-- `Map.prototype.get` (keys are unique, so first match is the entry). -/
def mapGet : List (JStr × α) → JStr → Option α
  | [], _ => none
  | p :: rest, k => if p.1 = k then some p.2 else mapGet rest k

/-- `Map.prototype.has`. -/
def mapHas (m : List (JStr × α)) (k : JStr) : Bool :=
  (mapGet m k).isSome

/-- `Map.prototype.set`: update in place when the key exists, else append. -/
def mapSet : List (JStr × α) → JStr → α → List (JStr × α)
  | [], k, v => [(k, v)]
  | p :: rest, k, v => if p.1 = k then (k, v) :: rest else p :: mapSet rest k v

/-- `Map.prototype.delete` (keys are unique, so dropping matches is removal). -/
def mapDelete : List (JStr × α) → JStr → List (JStr × α)
  | [], _ => []
  | p :: rest, k => if p.1 = k then mapDelete rest k else p :: mapDelete rest k

/-! ### Data model -/

/-- The fixed origin relationship type URI. -/
def RelationTypeAasxOrigin : JStr := str "http://admin-shell.io/aasx/relationships/aasx-origin"

/-- The fixed spec relationship type URI. -/
def RelationTypeAasxSpec : JStr := str "http://admin-shell.io/aasx/relationships/aas-spec"

/-- The fixed supplementary relationship type URI. -/
def RelationTypeAasxSupplementary : JStr := str "http://admin-shell.io/aasx/relationships/aas-suppl"

/-- The fixed thumbnail relationship type URI. -/
def RelationTypeThumbnail : JStr :=
  str "http://schemas.openxmlformats.org/package/2006/relationships/metadata/thumbnail"

def ErrNoOriginPart : JStr := str "no origin part found"

def ErrPartNotFound : JStr := str "part not found"

def ErrInvalidFormat : JStr := str "invalid package format"

/-- The fixed archive member name of the content-types document. -/
def contentTypePath : JStr := str "[Content_Types].xml"

/-- A `Relationship` record. -/
structure Rel where
  id : JStr
  relType : JStr
  target : JStr
  targetMode : JStr
deriving DecidableEq, Repr

/-- One parsed XML element of depth one (the documents this codec reads and
writes only ever use attribute-bearing childless children). -/
structure XmlElem where
  name : JStr
  attributes : List (JStr × JStr)
deriving DecidableEq, Repr

/-- A child of an XML root node: text or an element. -/
inductive XmlChild where
  | text (s : JStr)
  | elem (e : XmlElem)
deriving DecidableEq, Repr

/-- A parsed XML document (root name, root attributes, children). -/
structure XmlDoc where
  name : JStr
  attributes : List (JStr × JStr)
  children : List XmlChild
deriving DecidableEq, Repr

/-- The byte payload of an archive entry, abstracted at the external-codec
boundary: raw bytes, bytes that decode and parse to an XML document (what
`encodeUtf8 ∘ serializeXml` produces), or bytes whose XML parse fails. -/
inductive FileData where
  | raw (bytes : List Nat)
  | xmlDoc (doc : XmlDoc)
  | badXml
deriving DecidableEq, Repr

/-- A package part: display URI (its pathname), content type, owned bytes. -/
structure Part where
  uri : JStr
  contentType : JStr
  content : FileData
deriving DecidableEq, Repr

/-- `PackageBase` state: part registry, relationship buckets, origin key,
monotonic relationship-id counter (path/sink/readWrite are I/O-only). -/
structure Pkg where
  parts : List (JStr × Part)
  relationships : List (JStr × List Rel)
  originURI : JStr
  nextRelID : Nat
deriving DecidableEq, Repr

/-- A freshly constructed `PackageBase` (before `initializeNewPackage`). -/
def emptyBase : Pkg :=
  { parts := [], relationships := [], originURI := [], nextRelID := 1 }

/-- `addRelationshipWithID`: append an edge to the normalized source's bucket,
preserving the given id. -/
def Pkg.addRelationshipWithID (st : Pkg) (sourcePath targetPath relType id : JStr) : Pkg :=
  let normalizedSource := normalizePathForMap sourcePath
  let existing := (mapGet st.relationships normalizedSource).getD []
  let updated := mapSet st.relationships normalizedSource
    (existing ++ [{ id := id, relType := relType, target := targetPath,
                    targetMode := str "Internal" }])
  { st with relationships := updated }

/-- `addRelationship`: allocate the next id, bump the counter, append the edge. -/
def Pkg.addRelationship (st : Pkg) (sourcePath targetPath relType : JStr) : JStr × Pkg :=
  let id := relIdFor st.nextRelID
  let st := { st with nextRelID := st.nextRelID + 1 }
  (id, st.addRelationshipWithID sourcePath targetPath relType id)

/-- `removeRelationship`: filter the matching (target, type) edges out of the
source bucket (setting the bucket even when it was absent). -/
def Pkg.removeRelationship (st : Pkg) (sourcePath targetPath relType : JStr) : Pkg :=
  let normalizedSource := normalizePathForMap sourcePath
  let normalizedTarget := normalizePathForMap targetPath
  let old := (mapGet st.relationships normalizedSource).getD []
  let updated := mapSet st.relationships normalizedSource
    (old.filter (fun rel =>
      ¬(normalizePathForMap rel.target = normalizedTarget ∧ rel.relType = relType)))
  { st with relationships := updated }

/-- `removeAllRelationshipsWithSourceOrTarget`: delete the bucket keyed by the
path, then drop every edge targeting it, discarding buckets that become empty. -/
def Pkg.removeAllRelationshipsWithSourceOrTarget (st : Pkg) (uriPath : JStr) : Pkg :=
  let normalizedPath := normalizePathForMap uriPath
  let m := mapDelete st.relationships normalizedPath
  let m := m.map (fun b => (b.1, b.2.filter (fun rel => normalizePathForMap rel.target ≠ normalizedPath)))
  { st with relationships := m.filter (fun b => ¬ b.2 = []) }

/-- `hasRelationship`. -/
def Pkg.hasRelationship (st : Pkg) (sourcePath targetPath relType : JStr) : Bool :=
  let normalizedSource := normalizePathForMap sourcePath
  let normalizedTarget := normalizePathForMap targetPath
  ((mapGet st.relationships normalizedSource).getD []).any
    (fun rel => rel.relType = relType ∧ normalizePathForMap rel.target = normalizedTarget)

/-- `getRelationshipsByType`. -/
def Pkg.getRelationshipsByType (st : Pkg) (sourcePath relType : JStr) : List Rel :=
  let normalizedSource := normalizePathForMap sourcePath
  ((mapGet st.relationships normalizedSource).getD []).filter (fun rel => rel.relType = relType)

/-! ### Package facade: read operations -/

/-- `Specs()`: parts reachable from the origin via spec edges; a dangling
target is silently skipped (`if (part) result.push(part)`). -/
def Pkg.Specs (st : Pkg) : List Part :=
  (st.getRelationshipsByType st.originURI RelationTypeAasxSpec).filterMap
    (fun rel => mapGet st.parts (normalizePathForMap rel.target))

/-- `IsSpec(part)`. -/
def Pkg.IsSpec (st : Pkg) (part : Part) : Bool :=
  st.hasRelationship st.originURI (pathFromUri part.uri) RelationTypeAasxSpec

/-- The supplementary-collection loop: the first dangling target throws. -/
def collectSupplementaries (st : Pkg) : List Rel → Except JStr (List Part)
  | [] => .ok []
  | rel :: rest =>
    match mapGet st.parts (normalizePathForMap rel.target) with
    | none => .error (str "supplementary part " ++ rel.target ++ str " not found")
    | some part => (collectSupplementaries st rest).map (fun parts => part :: parts)

/-- `SupplementariesFor(spec)`. -/
def Pkg.SupplementariesFor (st : Pkg) (spec : Part) : Except JStr (List Part) :=
  collectSupplementaries st
    (st.getRelationshipsByType (pathFromUri spec.uri) RelationTypeAasxSupplementary)

/-- The pair-collection loop of `SupplementaryRelationships()`. -/
def collectPairs (st : Pkg) : List Part → Except JStr (List (Part × Part))
  | [] => .ok []
  | spec :: rest => do
    let supplementaries ← st.SupplementariesFor spec
    let others ← collectPairs st rest
    .ok (supplementaries.map (fun s => (spec, s)) ++ others)

/-- `SupplementaryRelationships()`: all (spec, supplementary) pairs. -/
def Pkg.SupplementaryRelationships (st : Pkg) : Except JStr (List (Part × Part)) :=
  collectPairs st st.Specs

/-- `FindPart(uri)`. -/
def Pkg.FindPart (st : Pkg) (uri : JStr) : Option Part :=
  mapGet st.parts (normalizeURI uri)

/-- `Thumbnail()`: the first root thumbnail edge's part; a declared-but-missing
part is an integrity error; no edge yields an empty result. -/
def Pkg.Thumbnail (st : Pkg) : Except JStr (Option Part) :=
  match st.getRelationshipsByType [] RelationTypeThumbnail with
  | [] => .ok none
  | rel :: _ =>
    match mapGet st.parts (normalizePathForMap rel.target) with
    | none => .error (str "thumbnail relationship exists but part not found: " ++ rel.target)
    | some part => .ok (some part)

/-! ### Package facade: write operations -/

/-- `PutPart`: replace content type and bytes in place under the unchanged key
when the canonical path exists, else insert; returns the stored part. -/
def Pkg.PutPart (st : Pkg) (uri contentType : JStr) (content : List Nat) : Part × Pkg :=
  let normalized := normalizeURI uri
  match mapGet st.parts normalized with
  | some part =>
    let part := { part with contentType := contentType, content := FileData.raw content }
    (part, { st with parts := mapSet st.parts normalized part })
  | none =>
    let part : Part := { uri := uri, contentType := contentType, content := FileData.raw content }
    (part, { st with parts := mapSet st.parts normalized part })

/-- `DeletePart`: remove the registry entry, then the strict relationship cleanup. -/
def Pkg.DeletePart (st : Pkg) (part : Part) : Pkg :=
  let normalized := normalizeURI part.uri
  let st := { st with parts := mapDelete st.parts normalized }
  st.removeAllRelationshipsWithSourceOrTarget (pathFromUri part.uri)

/-- `MakeSpec`: add the origin→part spec edge unless it already exists. -/
def Pkg.MakeSpec (st : Pkg) (part : Part) : Pkg :=
  if st.hasRelationship st.originURI (pathFromUri part.uri) RelationTypeAasxSpec then st
  else (st.addRelationship st.originURI (pathFromUri part.uri) RelationTypeAasxSpec).2

/-- `UnmakeSpec`: requires the spec edge (contract failure otherwise), removes
it, and clears the part's own outgoing bucket. -/
def Pkg.UnmakeSpec (st : Pkg) (part : Part) : Except JStr Pkg :=
  if st.hasRelationship st.originURI (pathFromUri part.uri) RelationTypeAasxSpec then
    let st := st.removeRelationship st.originURI (pathFromUri part.uri) RelationTypeAasxSpec
    .ok { st with relationships := mapDelete st.relationships (normalizeURI part.uri) }
  else .error (str "precondition violation: The part fulfills the spec property.")

/-- `RelateSupplementaryToSpec`: requires `spec` to be a spec; adding an
already-present (spec, supplementary) edge is a no-op. -/
def Pkg.RelateSupplementaryToSpec (st : Pkg) (supplementary spec : Part) : Except JStr Pkg :=
  if st.hasRelationship st.originURI (pathFromUri spec.uri) RelationTypeAasxSpec then
    if st.hasRelationship (pathFromUri spec.uri) (pathFromUri supplementary.uri)
        RelationTypeAasxSupplementary then
      .ok st
    else
      .ok (st.addRelationship (pathFromUri spec.uri) (pathFromUri supplementary.uri)
        RelationTypeAasxSupplementary).2
  else .error (str "precondition violation: The part fulfills the spec property.")

/-- `SetThumbnail`: remove every existing root thumbnail edge, then add one. -/
def Pkg.SetThumbnail (st : Pkg) (part : Part) : Pkg :=
  let rels := st.getRelationshipsByType [] RelationTypeThumbnail
  let st := rels.foldl (fun s rel => s.removeRelationship [] rel.target RelationTypeThumbnail) st
  (st.addRelationship [] (pathFromUri part.uri) RelationTypeThumbnail).2

/-- `UnsetThumbnail`: remove every existing root thumbnail edge. -/
def Pkg.UnsetThumbnail (st : Pkg) : Pkg :=
  let rels := st.getRelationshipsByType [] RelationTypeThumbnail
  rels.foldl (fun s rel => s.removeRelationship [] rel.target RelationTypeThumbnail) st

/-- ASCII bytes of a Lean string (the origin part's fixed payload). -/
def utf8 (s : String) : List Nat := s.toList.map Char.toNat

/-- The origin part's display path. -/
def originPath : JStr := str "/aasx/aasx-origin"

/-- `initializeNewPackage` applied to a fresh `PackageBase` (`Create`). -/
def freshPkg : Pkg :=
  let origin : Part :=
    { uri := originPath, contentType := str "text/plain",
      content := FileData.raw (utf8 "Intentionally empty.") }
  let st := emptyBase
  let st := { st with parts := mapSet st.parts (normalizeURI originPath) origin,
                      originURI := normalizeURI originPath }
  (st.addRelationship [] (pathFromUri originPath) RelationTypeAasxOrigin).2

/-! ### Container codec -/

def OpcRelationshipNamespace : JStr :=
  str "http://schemas.openxmlformats.org/package/2006/relationships"

def OpcContentTypesNamespace : JStr :=
  str "http://schemas.openxmlformats.org/package/2006/content-types"

/-- Ordinal string comparison (the comparator used when sorting entries). -/
def jstrLe : JStr → JStr → Bool
  | [], _ => true
  | _ :: _, [] => false
  | a :: as, b :: bs =>
    if a.toNat < b.toNat then true
    else if b.toNat < a.toNat then false
    else jstrLe as bs

/-- `String.prototype.includes` for a pattern string. -/
def containsSeq (pat : JStr) : JStr → Bool
  | [] => pat.isEmpty
  | c :: rest => pat.isPrefixOf (c :: rest) || containsSeq pat rest

/-- Attribute lookup on a parsed element. -/
def attrGet (attributes : List (JStr × JStr)) (k : JStr) : Option JStr :=
  mapGet attributes k

/-- `buildRelationshipsXml` (the external serializer is abstracted away, so the
result is the document node itself). -/
def buildRelationshipsXml (relationships : List Rel) : XmlDoc :=
  { name := str "Relationships",
    attributes := [(str "xmlns", OpcRelationshipNamespace)],
    children := relationships.map (fun rel =>
      XmlChild.elem
        { name := str "Relationship",
          attributes :=
            [(str "Id", rel.id), (str "Type", rel.relType), (str "Target", rel.target)] ++
            (if rel.targetMode ≠ [] ∧ rel.targetMode ≠ str "Internal" then
              [(str "TargetMode", rel.targetMode)]
            else []) }) }

/-- Stable insertion into a sorted list: the new element goes after every
element it does not strictly precede. -/
def insertLe (le : α → α → Bool) (x : α) : List α → List α
  | [] => [x]
  | y :: ys => if le y x then y :: insertLe le x ys else x :: y :: ys

/-- `Array.prototype.sort` with a comparator (a stable comparison sort). -/
def sortJS (le : α → α → Bool) (l : List α) : List α :=
  l.foldl (fun acc x => insertLe le x acc) []

/-- The lower-cased dot-stripped extension a part is grouped under. -/
def extOf (part : Part) : JStr :=
  toLowerJS (removeFirstDot (extName (pathFromUri part.uri)))

/-- One step of the extension-grouping loop of `buildContentTypesXml`:
`existing && existing !== ct` demotes to an override, `!existing` (absent or
the empty string) stores the default. -/
def contentTypeStep (acc : List (JStr × JStr) × List (JStr × JStr)) (part : Part) :
    List (JStr × JStr) × List (JStr × JStr) :=
  let extMap := acc.1
  let overrides := acc.2
  let path := pathFromUri part.uri
  let ext := extOf part
  if ext = [] then (extMap, mapSet overrides path part.contentType)
  else
    match mapGet extMap ext with
    | some existing =>
      if existing ≠ [] ∧ existing ≠ part.contentType then
        (extMap, mapSet overrides path part.contentType)
      else if existing = [] then (mapSet extMap ext part.contentType, overrides)
      else (extMap, overrides)
    | none => (mapSet extMap ext part.contentType, overrides)

/-- The full extension-grouping pass over the part registry. -/
def groupContentTypes (parts : List (JStr × Part)) :
    List (JStr × JStr) × List (JStr × JStr) :=
  parts.foldl (fun acc p => contentTypeStep acc p.2) ([], [])

/-- A `Default(Extension, ContentType)` child. -/
def mkDefaultElem (d : JStr × JStr) : XmlChild :=
  .elem { name := str "Default",
          attributes := [(str "Extension", d.1), (str "ContentType", d.2)] }

/-- An `Override(PartName, ContentType)` child. -/
def mkOverrideElem (o : JStr × JStr) : XmlChild :=
  .elem { name := str "Override",
          attributes := [(str "PartName", o.1), (str "ContentType", o.2)] }

/-- The fixed first default: `rels` → the relationships content type. -/
def relsDefaultPair : JStr × JStr :=
  (str "rels", str "application/vnd.openxmlformats-package.relationships+xml")

/-- `buildContentTypesXml`: fixed `rels` default, collected defaults sorted by
extension, then overrides sorted by part name. -/
def buildContentTypesXml (parts : List (JStr × Part)) : XmlDoc :=
  let grouped := groupContentTypes parts
  let defaults := relsDefaultPair :: sortJS (fun l r => jstrLe l.1 r.1) grouped.1
  let overrideEntries := sortJS (fun l r => jstrLe l.1 r.1) grouped.2
  { name := str "Types",
    attributes := [(str "xmlns", OpcContentTypesNamespace)],
    children := defaults.map mkDefaultElem ++ overrideEntries.map mkOverrideElem }

/-- `parseRelationshipsXml`: `Relationship` children with truthy `Id`, `Type`
and `Target`; `TargetMode` defaults to `Internal` only when absent. -/
def parseRelationshipsXml (doc : XmlDoc) : List Rel :=
  if doc.name ≠ str "Relationships" then []
  else
    doc.children.filterMap (fun child =>
      match child with
      | .text _ => none
      | .elem e =>
        if e.name ≠ str "Relationship" then none
        else
          match attrGet e.attributes (str "Id"), attrGet e.attributes (str "Type"),
              attrGet e.attributes (str "Target") with
          | some id, some relType, some target =>
            if id = [] ∨ relType = [] ∨ target = [] then none
            else
              some { id := id, relType := relType, target := target,
                     targetMode := (attrGet e.attributes (str "TargetMode")).getD (str "Internal") }
          | _, _, _ => none)

/-- The default/override tables read from a content-types document. -/
structure CtParsed where
  defaults : List (JStr × JStr)
  overrides : List (JStr × JStr)
deriving DecidableEq, Repr

/-- `parseContentTypesXml`: collect `Default`/`Override` children with truthy
attribute pairs. -/
def parseContentTypesXml (doc : XmlDoc) : CtParsed :=
  if doc.name ≠ str "Types" then ⟨[], []⟩
  else
    doc.children.foldl (fun acc child =>
      match child with
      | .text _ => acc
      | .elem e =>
        if e.name = str "Default" then
          match attrGet e.attributes (str "Extension"), attrGet e.attributes (str "ContentType") with
          | some ext, some ct =>
            if ext ≠ [] ∧ ct ≠ [] then ⟨acc.defaults ++ [(ext, ct)], acc.overrides⟩ else acc
          | _, _ => acc
        else if e.name = str "Override" then
          match attrGet e.attributes (str "PartName"), attrGet e.attributes (str "ContentType") with
          | some pn, some ct =>
            if pn ≠ [] ∧ ct ≠ [] then ⟨acc.defaults, acc.overrides ++ [(pn, ct)]⟩ else acc
          | _, _ => acc
        else acc) ⟨[], []⟩

/-- The result of `zipSync` / the input of `unzipSync`, abstracted at the
external-codec boundary: either undecodable bytes or the decoded entry table. -/
inductive ZipBytes where
  | invalid (bytes : List Nat)
  | archive (entries : List (JStr × FileData))
deriving DecidableEq, Repr

/-- `zipSync` (store-level, deterministic). -/
def zipSync (files : List (JStr × FileData)) : ZipBytes := .archive files

/-- `unzipSync`: fails exactly on undecodable bytes. -/
def unzipSync : ZipBytes → Option (List (JStr × FileData))
  | .invalid _ => none
  | .archive entries => some entries

/-- `writeToBytes`: content-types document, one `.rels` document per non-empty
bucket, then raw part bytes (plain-object assignment semantics). -/
def Pkg.writeToBytes (st : Pkg) : ZipBytes :=
  let files : List (JStr × FileData) := []
  let files := mapSet files contentTypePath (.xmlDoc (buildContentTypesXml st.parts))
  let files := st.relationships.foldl
    (fun fs b =>
      if b.2 = [] then fs
      else mapSet fs (trimLeadingSlash (getRelsPath b.1)) (.xmlDoc (buildRelationshipsXml b.2)))
    files
  let files := st.parts.foldl
    (fun fs p => mapSet fs (trimLeadingSlash (pathFromUri p.2.uri)) p.2.content) files
  zipSync files

/-- `Flush`: encode the current state (writing to a configured sink is I/O). -/
def Pkg.Flush (st : Pkg) : ZipBytes := st.writeToBytes

/-- Decoding an entry's bytes into an XML document (may fail). -/
def parseXmlData : FileData → Except JStr XmlDoc
  | .xmlDoc doc => .ok doc
  | .raw _ => .error (str "unexpected XML content")
  | .badXml => .error (str "malformed XML")

/-- The content-types tables of `openFromBytes`: `(defaultTypes, contentTypesMap)`. -/
def loadContentTypes (entries : List (JStr × FileData)) :
    Except JStr (List (JStr × JStr) × List (JStr × JStr)) :=
  match mapGet entries contentTypePath with
  | none => .ok ([], [])
  | some data => do
    let parsed := parseContentTypesXml (← parseXmlData data)
    let defaultTypes := parsed.defaults.foldl (fun m d => mapSet m (toLowerJS d.1) d.2) []
    let contentTypesMap := parsed.overrides.foldl (fun m o => mapSet m (normalizePathForMap o.1) o.2) []
    .ok (defaultTypes, contentTypesMap)

/-- Register one relationship document's edges, tracking the origin edge. -/
def applyRelsDoc (sourcePath : JStr) (rels : List Rel) (st : Pkg) : Pkg :=
  rels.foldl
    (fun s rel =>
      let targetPath := resolveRelativeURI sourcePath rel.target
      let s := s.addRelationshipWithID sourcePath targetPath rel.relType rel.id
      if rel.relType = RelationTypeAasxOrigin ∧ sourcePath = [] then
        { s with originURI := normalizePathForMap targetPath }
      else s)
    st

/-- The relationship-document loop of `openFromBytes`. -/
def processRelFiles (st : Pkg) : List (JStr × FileData) → Except JStr Pkg
  | [] => .ok st
  | (name, data) :: rest =>
    if containsSeq (str "_rels/") name && (str ".rels").isSuffixOf name then do
      let doc ← parseXmlData data
      processRelFiles (applyRelsDoc (getSourcePathFromRelsPath name) (parseRelationshipsXml doc) st) rest
    else processRelFiles st rest

/-- Register one remaining entry as a part, resolving its content type as
override, extension default, or the binary fallback. -/
def registerPart (defaultTypes contentTypesMap : List (JStr × JStr))
    (st : Pkg) (name : JStr) (data : FileData) : Pkg :=
  if name = contentTypePath ∨ containsSeq (str "_rels/") name = true ∨ name.getLast? = some '/' then
    st
  else
    let partPath := ensureLeadingSlash name
    let normalized := normalizePathForMap partPath
    let ct0 := (mapGet contentTypesMap normalized).getD []
    let contentType :=
      if ct0 = [] then
        let ext := toLowerJS (removeFirstDot (extName name))
        (mapGet defaultTypes ext).getD (str "application/octet-stream")
      else ct0
    let updated := mapSet st.parts normalized
      { uri := partPath, contentType := contentType, content := data }
    { st with parts := updated }

/-- The body of `openFromBytes`'s `try` block, after `unzipSync`. -/
def openFromBytesCore (entries : List (JStr × FileData)) : Except JStr Pkg := do
  let tables ← loadContentTypes entries
  let st ← processRelFiles emptyBase entries
  if st.originURI = [] then .error ErrNoOriginPart
  else .ok (entries.foldl (fun s e => registerPart tables.1 tables.2 s e.1 e.2) st)

/-- `openFromBytes`: unzip failures and parse errors are wrapped as
invalid-format; the missing-origin error is re-thrown unchanged. -/
def openFromBytes (bytes : ZipBytes) : Except JStr Pkg :=
  match unzipSync bytes with
  | none => .error (ErrInvalidFormat ++ str ": invalid zip data")
  | some entries =>
    match openFromBytesCore entries with
    | .ok pkg => .ok pkg
    | .error e =>
      if e = ErrNoOriginPart then .error e
      else .error (ErrInvalidFormat ++ str ": " ++ e)

/-! ### Well-formedness predicates and concrete example states -/

/-- Registry keys agree with their parts' canonical paths (true of every state
the facade can construct). -/
def WellKeyed (st : Pkg) : Prop := ∀ b ∈ st.parts, b.1 = normalizeURI b.2.uri

instance (st : Pkg) : Decidable (WellKeyed st) := by
  unfold WellKeyed
  infer_instance

/-- A spec part placed in a fresh package. -/
def exSpecPut : Part × Pkg :=
  freshPkg.PutPart (str "/aasx/spec.aas.xml") (str "application/xml") [60]

/-- A supplementary part placed next. -/
def exSupplPut : Part × Pkg :=
  exSpecPut.2.PutPart (str "/aasx/doc.pdf") (str "application/pdf") [1]

/-- A thumbnail part placed next. -/
def exThumbPut : Part × Pkg :=
  exSupplPut.2.PutPart (str "/aasx/thumb.png") (str "image/png") [9]

/-- The three-part package with the spec marked. -/
def exPkgSpec : Pkg := exThumbPut.2.MakeSpec exSpecPut.1

/-- The three-part package with spec, supplementary relation and thumbnail. -/
def exPkgFull : Pkg :=
  match exPkgSpec.RelateSupplementaryToSpec exSupplPut.1 exSpecPut.1 with
  | .ok st => st.SetThumbnail exThumbPut.1
  | .error _ => exPkgSpec

/-- A part that is never registered. -/
def missingSpecPart : Part :=
  { uri := str "/missing.xml", contentType := str "application/xml", content := .raw [] }

/-- A dangling origin→spec edge: the target was never registered. -/
def cexDanglingSpec : Pkg := freshPkg.MakeSpec missingSpecPart

/-- A dangling spec→supplementary edge. -/
def cexDanglingSuppl : Pkg :=
  match (exSpecPut.2.MakeSpec exSpecPut.1).RelateSupplementaryToSpec
      { uri := str "/nosuch.pdf", contentType := str "application/pdf", content := .raw [] }
      exSpecPut.1 with
  | .ok st => st
  | .error _ => freshPkg

/-- A dangling root thumbnail edge. -/
def cexDanglingThumb : Pkg :=
  freshPkg.SetThumbnail { uri := str "/nothumb.png", contentType := str "image/png", content := .raw [] }

/-- A spec part stored with an empty content type. -/
def cexEmptyCtPut : Part × Pkg := freshPkg.PutPart (str "/a.xml") [] [5]

/-- The package holding that part, marked as a spec. -/
def cexEmptyCt : Pkg := cexEmptyCtPut.2.MakeSpec cexEmptyCtPut.1

/-- First part of the content-type grouping counterexample: empty content type. -/
def cexCtPartA : Part := { uri := str "/a.x", contentType := [], content := .raw [] }

/-- Second part: same extension, nonempty differing content type. -/
def cexCtPartB : Part := { uri := str "/b.x", contentType := str "T", content := .raw [] }

/-- The registry for the content-type grouping counterexample. -/
def cexCtParts : List (JStr × Part) := [(str "/a.x", cexCtPartA), (str "/b.x", cexCtPartB)]

/-- Hexadecimal digit value of the characters `Nat.digitChar` emits. -/
def hexVal (c : Char) : Nat :=
  if c.toNat ≤ 57 then c.toNat - 48 else c.toNat - 87

/-- Decode a big-endian hexadecimal digit string. -/
def decodeHex (l : JStr) : Nat :=
  l.foldl (fun a c => a * 16 + hexVal c) 0

/-- A minimal archive that opens successfully: a root relationship document
declaring the origin, plus the origin part. -/
def exArchive : List (JStr × FileData) :=
  [(str "_rels/.rels", .xmlDoc (buildRelationshipsXml
      [{ id := str "Rx", relType := RelationTypeAasxOrigin,
         target := str "/aasx/aasx-origin", targetMode := str "Internal" }])),
   (str "aasx/aasx-origin", .raw [])]

/-- The package obtained by opening `exArchive`. -/
def exOpenedPkg : Pkg := ((openFromBytes (.archive exArchive)).toOption).getD emptyBase

/-- The extensional content of the claim on `buildContentTypesXml`, for a
registry `parts`: (i) each non-empty extension's default is the content type
of the first part seen with that extension; (ii) the empty extension has no
default; (iii) overrides are keyed only by registered part paths; (iv) a part
with no extension is always an override, and a part whose extension's first
part carries a different content type is demoted to an override while the
default is left alone (equal content types produce no override); (v) the
document is the fixed `rels` default, then the defaults sorted by extension,
then the overrides sorted by part path. -/
def ContentTypesGroupingSpec (parts : List (JStr × Part)) : Prop :=
  (∀ e : JStr, e ≠ [] →
    mapGet (groupContentTypes parts).1 e =
      (parts.find? (fun b => extOf b.2 = e)).map (fun b => b.2.contentType)) ∧
  mapGet (groupContentTypes parts).1 [] = none ∧
  (∀ path, mapGet (groupContentTypes parts).2 path ≠ none →
    path ∈ parts.map (fun b => b.2.uri)) ∧
  (∀ b ∈ parts,
    (extOf b.2 = [] → mapGet (groupContentTypes parts).2 b.2.uri = some b.2.contentType) ∧
    (extOf b.2 ≠ [] → ∀ q, parts.find? (fun x => extOf x.2 = extOf b.2) = some q →
      (q.2.contentType = b.2.contentType →
        mapGet (groupContentTypes parts).2 b.2.uri = none) ∧
      (q.2.contentType ≠ b.2.contentType →
        mapGet (groupContentTypes parts).2 b.2.uri = some b.2.contentType))) ∧
  (∃ ds os : List (JStr × JStr),
    (buildContentTypesXml parts).children =
      mkDefaultElem relsDefaultPair :: (ds.map mkDefaultElem ++ os.map mkOverrideElem) ∧
    ds.Perm (groupContentTypes parts).1 ∧ os.Perm (groupContentTypes parts).2 ∧
    ds.Pairwise (fun a b => jstrLe a.1 b.1 = true) ∧
    os.Pairwise (fun a b => jstrLe a.1 b.1 = true))

/-- Example registry for the content-type grouping: a defaulting part, a
demoted part sharing its extension, and an extensionless part. -/
def exCtParts : List (JStr × Part) :=
  [(str "/a.xml", { uri := str "/a.xml", contentType := str "application/xml", content := .raw [] }),
   (str "/b.xml", { uri := str "/B.xml", contentType := str "application/pdf", content := .raw [] }),
   (str "/c", { uri := str "/c", contentType := str "text/plain", content := .raw [] })]

/-! ### Round-trip call sequences -/

/-- One facade call of the round-trip claim, naming parts by URI. -/
inductive Op where
  | putPart (uri contentType : JStr) (content : List Nat)
  | makeSpec (uri : JStr)
  | relateSupplementaryToSpec (supplUri specUri : JStr)
  | setThumbnail (uri : JStr)
deriving DecidableEq, Repr

/-- Apply one call. Part-typed arguments are looked up in the registry (the
JavaScript caller's handle is the registry's own object); a call naming an
unregistered part, or one whose contract check throws, leaves the state
unchanged. -/
def applyOp (st : Pkg) : Op → Pkg
  | .putPart uri ct content => (st.PutPart uri ct content).2
  | .makeSpec uri =>
    match st.FindPart uri with
    | some part => st.MakeSpec part
    | none => st
  | .relateSupplementaryToSpec supplUri specUri =>
    match st.FindPart supplUri, st.FindPart specUri with
    | some suppl, some spec =>
      match st.RelateSupplementaryToSpec suppl spec with
      | .ok st' => st'
      | .error _ => st
    | _, _ => st
  | .setThumbnail uri =>
    match st.FindPart uri with
    | some part => st.SetThumbnail part
    | none => st

/-- Apply a call sequence from the left. -/
def applyOps (st : Pkg) (ops : List Op) : Pkg := ops.foldl applyOp st

/-- The hypotheses of the amended round-trip claim, per call: a stored path
must start with `/`, not end with `/`, not start with `//`, contain neither a
backslash nor a `_rels/` segment (in raw, lower-cased or canonical form), not
be the reserved content-types member, not canonicalize to the bare root, and
carry a non-empty content type; the other calls must name registered parts. -/
def validOp (st : Pkg) : Op → Prop
  | .putPart uri ct _ =>
    startsWithSlash uri = true ∧
    startsWithSlash (trimLeadingSlash uri) = false ∧
    uri.getLast? ≠ some '/' ∧
    ct ≠ [] ∧
    containsSeq (str "_rels/") (toLowerJS uri) = false ∧
    containsSeq (str "_rels/") (normalizeURI uri) = false ∧
    trimLeadingSlash uri ≠ contentTypePath ∧
    normalizeURI uri ≠ str "/" ∧
    ¬ '\\' ∈ uri
  | .makeSpec uri => (st.FindPart uri).isSome = true
  | .relateSupplementaryToSpec supplUri specUri =>
    (st.FindPart supplUri).isSome = true ∧ (st.FindPart specUri).isSome = true
  | .setThumbnail uri => (st.FindPart uri).isSome = true

instance (st : Pkg) (op : Op) : Decidable (validOp st op) := by
  cases op <;> simp only [validOp] <;> infer_instance

/-- Validity of a call sequence, each call checked in its own state. -/
def validOps : Pkg → List Op → Prop
  | _, [] => True
  | st, op :: rest => validOp st op ∧ validOps (applyOp st op) rest

instance validOpsDecidable : (st : Pkg) → (ops : List Op) → Decidable (validOps st ops)
  | _, [] => .isTrue trivial
  | st, op :: rest =>
    haveI : Decidable (validOps (applyOp st op) rest) := validOpsDecidable _ _
    inferInstanceAs (Decidable (validOp st op ∧ validOps (applyOp st op) rest))

/-- A path segment as produced by lexical normalization. -/
def IsSegStr (seg : JStr) : Prop :=
  seg ≠ [] ∧ seg ≠ str "." ∧ seg ≠ str ".." ∧ ¬ '/' ∈ seg

/-- A canonical non-root path: a leading slash followed by at least one
normalized segment. -/
def CanonicalNE (s : JStr) : Prop :=
  ∃ segs : List JStr, segs ≠ [] ∧ (∀ g ∈ segs, IsSegStr g) ∧ s = '/' :: joinSlash segs

/-- The invariant maintained by valid call sequences on a fresh package. -/
structure Inv (st : Pkg) : Prop where
  origin : st.originURI = str "/aasx/aasx-origin"
  parts_wf : ∀ b ∈ st.parts,
    b.1 = normalizeURI b.2.uri ∧
    startsWithSlash b.2.uri = true ∧
    startsWithSlash (trimLeadingSlash b.2.uri) = false ∧
    b.2.uri.getLast? ≠ some '/' ∧
    containsSeq (str "_rels/") (toLowerJS b.2.uri) = false ∧
    containsSeq (str "_rels/") b.1 = false ∧
    trimLeadingSlash b.2.uri ≠ contentTypePath ∧
    b.1 ≠ str "/" ∧
    ¬ '\\' ∈ b.2.uri ∧
    b.2.contentType ≠ []
  parts_nodup : (st.parts.map Prod.fst).Nodup
  rels_wf : ∀ bu ∈ st.relationships,
    (bu.1 = [] ∨ (CanonicalNE bu.1 ∧ toLowerJS bu.1 = bu.1 ∧
      containsSeq (str "_rels/") bu.1 = false)) ∧
    bu.2 ≠ [] ∧
    ∀ r ∈ bu.2,
      r.targetMode = str "Internal" ∧ r.id ≠ [] ∧ r.relType ≠ [] ∧
      startsWithSlash r.target = true ∧ ¬ '\\' ∈ r.target ∧
      mapGet st.parts (normalizePathForMap r.target) ≠ none
  rels_nodup : (st.relationships.map Prod.fst).Nodup
  root_bucket : ∀ rels, mapGet st.relationships [] = some rels →
    ∃ r0 thumbs, rels = r0 :: thumbs ∧ r0.relType = RelationTypeAasxOrigin ∧
      normalizePathForMap r0.target = str "/aasx/aasx-origin" ∧
      ∀ r ∈ thumbs, r.relType = RelationTypeThumbnail
  root_exists : mapGet st.relationships [] ≠ none

/-- The op sequence of the round-trip witness. -/
def exOps : List Op :=
  [.putPart (str "/aasx/spec.aas.xml") (str "application/xml") [60],
   .makeSpec (str "/aasx/spec.aas.xml"),
   .putPart (str "/aasx/doc.pdf") (str "application/pdf") [1, 2, 3],
   .relateSupplementaryToSpec (str "/aasx/doc.pdf") (str "/aasx/spec.aas.xml"),
   .putPart (str "/aasx/thumb.png") (str "image/png") [9],
   .setThumbnail (str "/aasx/thumb.png")]

/-- The facts the round-trip proof carries per relationship bucket: a root or
canonical lower-cased key outside `_rels/`, a non-empty edge list of internal
absolute backslash-free edges, and the root bucket's origin-then-thumbnails
shape. -/
def BucketOk (bu : JStr × List Rel) : Prop :=
  (bu.1 = [] ∨ (CanonicalNE bu.1 ∧ toLowerJS bu.1 = bu.1 ∧
    containsSeq (str "_rels/") bu.1 = false)) ∧
  bu.2 ≠ [] ∧
  (∀ r ∈ bu.2, r.id ≠ [] ∧ r.relType ≠ [] ∧ startsWithSlash r.target = true ∧
    ¬ '\\' ∈ r.target ∧ r.targetMode = str "Internal") ∧
  (bu.1 = [] → ∃ r0 thumbs, bu.2 = r0 :: thumbs ∧ r0.relType = RelationTypeAasxOrigin ∧
    normalizePathForMap r0.target = str "/aasx/aasx-origin" ∧
    ∀ r ∈ thumbs, r.relType = RelationTypeThumbnail)

/-- The default-type table `openFromBytes` builds from a written content-types
document (the parse keeps every entry when all content types are non-empty). -/
def writtenDefaultTypes (parts : List (JStr × Part)) : List (JStr × JStr) :=
  (relsDefaultPair :: sortJS (fun l r : JStr × JStr => jstrLe l.1 r.1)
      (groupContentTypes parts).1).foldl
    (fun m d => mapSet m (toLowerJS d.1) d.2) []

/-- The override table `openFromBytes` builds from a written content-types
document. -/
def writtenOverrides (parts : List (JStr × Part)) : List (JStr × JStr) :=
  (sortJS (fun l r : JStr × JStr => jstrLe l.1 r.1) (groupContentTypes parts).2).foldl
    (fun m o => mapSet m (normalizePathForMap o.1) o.2) []

-- END-DEFS

/-! ### Character lemmas -/

theorem toNat_ofNat_valid {n : Nat} (h : n.isValidChar) : (Char.ofNat n).toNat = n := by
  simp only [Char.ofNat, h, dif_pos, Char.ofNatAux, Char.toNat, UInt32.toNat]
  rfl

theorem charToNat_inj {a b : Char} (h : a.toNat = b.toNat) : a = b := by
  apply Char.ext
  exact UInt32.toNat.inj h

theorem toLower_not_upper {c : Char} (h : ¬(65 ≤ c.toNat ∧ c.toNat ≤ 90)) : c.toLower = c := by
  simp only [Char.toLower]
  rw [if_neg]
  omega

theorem toNat_toLower_upper {c : Char} (h : 65 ≤ c.toNat ∧ c.toNat ≤ 90) :
    c.toLower.toNat = c.toNat + 32 := by
  simp only [Char.toLower]
  rw [if_pos (by omega)]
  exact toNat_ofNat_valid (Or.inl (by omega))

theorem toLower_toLower (c : Char) : c.toLower.toLower = c.toLower := by
  by_cases h : 65 ≤ c.toNat ∧ c.toNat ≤ 90
  · have h2 := toNat_toLower_upper h
    exact toLower_not_upper (by omega)
  · rw [toLower_not_upper h, toLower_not_upper h]

/-- Characters outside the lower-case letter range have a unique
`toLower`-preimage, namely themselves. -/
theorem toLower_fix {d : Char} (hd : ¬(97 ≤ d.toNat ∧ d.toNat ≤ 122)) (c : Char)
    (h : c.toLower = d) : c = d := by
  by_cases hu : 65 ≤ c.toNat ∧ c.toNat ≤ 90
  · exfalso
    have h2 := toNat_toLower_upper hu
    rw [h] at h2
    omega
  · rw [← h, toLower_not_upper hu]

theorem toLower_slash {c : Char} (h : c.toLower = '/') : c = '/' :=
  toLower_fix (by decide) c h

theorem toLowerJS_append (a b : JStr) : toLowerJS (a ++ b) = toLowerJS a ++ toLowerJS b :=
  List.map_append _ a b

theorem toLowerJS_idem (s : JStr) : toLowerJS (toLowerJS s) = toLowerJS s := by
  simp only [toLowerJS, List.map_map]
  exact List.map_congr_left (fun c _ => toLower_toLower c)

/-! ### Association-list lemmas -/

theorem mapGet_set_self (m : List (JStr × α)) (k : JStr) (v : α) :
    mapGet (mapSet m k v) k = some v := by
  induction m with
  | nil => simp [mapSet, mapGet]
  | cons p rest ih =>
    by_cases h : p.1 = k
    · simp [mapSet, mapGet, h]
    · simp [mapSet, mapGet, h, ih]

theorem mapGet_set_ne (m : List (JStr × α)) (k k' : JStr) (v : α) (h : k' ≠ k) :
    mapGet (mapSet m k v) k' = mapGet m k' := by
  induction m with
  | nil => simp [mapSet, mapGet, Ne.symm h]
  | cons p rest ih =>
    simp only [mapSet]
    by_cases hp : p.1 = k
    · rw [if_pos hp]
      simp [mapGet, Ne.symm h, hp]
    · rw [if_neg hp]
      by_cases hp' : p.1 = k' <;> simp [mapGet, hp', ih]

theorem mapGet_eq_some_mem {m : List (JStr × α)} {k : JStr} {v : α}
    (h : mapGet m k = some v) : (k, v) ∈ m := by
  induction m with
  | nil => simp [mapGet] at h
  | cons p rest ih =>
    by_cases hp : p.1 = k
    · simp [mapGet, hp] at h
      exact List.mem_cons.mpr (Or.inl (by cases p; simp_all))
    · simp [mapGet, hp] at h
      exact List.mem_cons_of_mem _ (ih h)

theorem mapGet_append (m₁ m₂ : List (JStr × α)) (k : JStr) :
    mapGet (m₁ ++ m₂) k = ((mapGet m₁ k).orElse fun _ => mapGet m₂ k) := by
  induction m₁ with
  | nil => simp [mapGet]
  | cons p rest ih =>
    by_cases hp : p.1 = k
    · simp [mapGet, hp]
    · simp [mapGet, hp, ih]

theorem mapHas_false_set (m : List (JStr × α)) (k : JStr) (v : α)
    (h : mapHas m k = false) : mapSet m k v = m ++ [(k, v)] := by
  induction m with
  | nil => simp [mapSet]
  | cons p rest ih =>
    by_cases hp : p.1 = k
    · simp [mapHas, mapGet, hp] at h
    · simp [mapHas, mapGet, hp] at h
      simp [mapSet, hp, ih (by simp [mapHas, h])]

theorem mapGet_delete (m : List (JStr × α)) (k k' : JStr) :
    mapGet (mapDelete m k) k' = if k' = k then none else mapGet m k' := by
  induction m with
  | nil => simp [mapDelete, mapGet]
  | cons p rest ih =>
    simp only [mapDelete]
    by_cases hp : p.1 = k
    · rw [if_pos hp, ih]
      by_cases hk : k' = k
      · simp [hk]
      · have hpk' : ¬ p.1 = k' := fun he => hk (by rw [← he, hp])
        simp [hk, mapGet, hpk']
    · rw [if_neg hp]
      by_cases hpk' : p.1 = k'
      · have hk : ¬ k' = k := fun he => hp (by rw [hpk', he])
        simp [mapGet, hpk', hk]
      · simp [mapGet, hpk', ih]

/-! ### Relationship-graph helper lemmas -/

theorem mem_mapDelete {m : List (JStr × α)} {k : JStr} {b : JStr × α}
    (h : b ∈ mapDelete m k) : b ∈ m ∧ b.1 ≠ k := by
  induction m with
  | nil => simp [mapDelete] at h
  | cons p rest ih =>
    simp only [mapDelete] at h
    by_cases hp : p.1 = k
    · rw [if_pos hp] at h
      exact ⟨List.mem_cons_of_mem _ (ih h).1, (ih h).2⟩
    · rw [if_neg hp] at h
      rcases List.mem_cons.mp h with he | hm
      · exact ⟨List.mem_cons.mpr (Or.inl he), he ▸ hp⟩
      · exact ⟨List.mem_cons_of_mem _ (ih hm).1, (ih hm).2⟩

theorem mapDelete_of_get_none {m : List (JStr × α)} {k : JStr}
    (h : mapGet m k = none) : mapDelete m k = m := by
  induction m with
  | nil => rfl
  | cons p rest ih =>
    simp only [mapGet] at h
    by_cases hp : p.1 = k
    · simp [hp] at h
    · rw [if_neg hp] at h
      simp [mapDelete, hp, ih h]

/-- Every bucket surviving `removeAllRelationshipsWithSourceOrTarget` has a
different key, is non-empty, and references the removed path in no edge. -/
theorem mem_removeAll {st : Pkg} {p : JStr} {b : JStr × List Rel}
    (h : b ∈ (st.removeAllRelationshipsWithSourceOrTarget p).relationships) :
    b.1 ≠ normalizePathForMap p ∧ b.2 ≠ [] ∧
      ∀ r ∈ b.2, normalizePathForMap r.target ≠ normalizePathForMap p := by
  simp only [Pkg.removeAllRelationshipsWithSourceOrTarget] at h
  have hmem := List.mem_filter.mp h
  rcases List.mem_map.mp hmem.1 with ⟨b₀, hb₀, hmap⟩
  have hdel := mem_mapDelete hb₀
  refine ⟨?_, ?_, ?_⟩
  · rw [← hmap]
    exact hdel.2
  · have := hmem.2
    simpa using this
  · intro r hr
    rw [← hmap] at hr
    have := List.mem_filter.mp hr
    simpa using this.2

/-- `DeletePart` does not touch the part registry beyond removing the key. -/
theorem DeletePart_parts (st : Pkg) (part : Part) :
    (st.DeletePart part).parts = mapDelete st.parts (normalizeURI part.uri) := rfl

/-- C6 helper: `MakeSpec` on an existing spec edge is the identity. -/
theorem MakeSpec_of_hasRelationship {st : Pkg} {part : Part}
    (h : st.hasRelationship st.originURI (pathFromUri part.uri) RelationTypeAasxSpec = true) :
    st.MakeSpec part = st := by
  simp [Pkg.MakeSpec, h]

/-- C6 helper: relating an already-related pair returns the state unchanged. -/
theorem Relate_of_related {st : Pkg} {supplementary spec : Part}
    (hs : st.hasRelationship st.originURI (pathFromUri spec.uri) RelationTypeAasxSpec = true)
    (hr : st.hasRelationship (pathFromUri spec.uri) (pathFromUri supplementary.uri)
      RelationTypeAasxSupplementary = true) :
    st.RelateSupplementaryToSpec supplementary spec = .ok st := by
  simp [Pkg.RelateSupplementaryToSpec, hs, hr]

/-- C6: `MakeSpec` on an already-spec part and `RelateSupplementaryToSpec` on
an already-related pair leave the relationship graph (indeed the whole
package state) unchanged: no duplicate edge is added, both are idempotent. -/
theorem makeSpec_relate_idempotent :
    (∀ (st : Pkg) (part : Part),
      st.hasRelationship st.originURI (pathFromUri part.uri) RelationTypeAasxSpec = true →
        st.MakeSpec part = st) ∧
    (∀ (st : Pkg) (supplementary spec : Part),
      st.hasRelationship st.originURI (pathFromUri spec.uri) RelationTypeAasxSpec = true →
        st.hasRelationship (pathFromUri spec.uri) (pathFromUri supplementary.uri)
          RelationTypeAasxSupplementary = true →
        st.RelateSupplementaryToSpec supplementary spec = .ok st) :=
  ⟨fun _ _ h => MakeSpec_of_hasRelationship h,
   fun _ _ _ hs hr => Relate_of_related hs hr⟩

/-- C6 witness: concrete already-spec part and already-related pair. -/
theorem makeSpec_relate_idempotent_witness :
    exPkgFull.MakeSpec exSpecPut.1 = exPkgFull ∧
      exPkgFull.RelateSupplementaryToSpec exSupplPut.1 exSpecPut.1 = .ok exPkgFull :=
  ⟨makeSpec_relate_idempotent.1 exPkgFull exSpecPut.1 (by decide),
   makeSpec_relate_idempotent.2 exPkgFull exSupplPut.1 exSpecPut.1 (by decide) (by decide)⟩

theorem collectSupplementaries_nextRelID (st : Pkg) (n : Nat) : ∀ l : List Rel,
    collectSupplementaries { st with nextRelID := n } l = collectSupplementaries st l := by
  intro l
  induction l with
  | nil => rfl
  | cons rel rest ih =>
    simp only [collectSupplementaries]
    cases mapGet st.parts (normalizePathForMap rel.target) with
    | none => rfl
    | some part => rw [ih]

theorem collectPairs_nextRelID (st : Pkg) (n : Nat) : ∀ l : List Part,
    collectPairs { st with nextRelID := n } l = collectPairs st l := by
  intro l
  induction l with
  | nil => rfl
  | cons spec rest ih =>
    simp only [collectPairs]
    have hs : Pkg.SupplementariesFor { st with nextRelID := n } spec =
        Pkg.SupplementariesFor st spec :=
      collectSupplementaries_nextRelID st n
        (st.getRelationshipsByType (pathFromUri spec.uri) RelationTypeAasxSupplementary)
    rw [hs, ih]

theorem suppl_nextRelID (st : Pkg) (n : Nat) :
    ({ st with nextRelID := n } : Pkg).SupplementaryRelationships =
      st.SupplementaryRelationships :=
  collectPairs_nextRelID st n st.Specs

theorem thumb_nextRelID (st : Pkg) (n : Nat) :
    ({ st with nextRelID := n } : Pkg).Thumbnail = st.Thumbnail := by
  simp only [Pkg.Thumbnail]
  have h1 : ({ st with nextRelID := n } : Pkg).getRelationshipsByType []
      RelationTypeThumbnail = st.getRelationshipsByType [] RelationTypeThumbnail := rfl
  rw [h1]

/-- C10: `DeletePart` of an unregistered part is total, leaves the registry
unchanged, and still performs the strict relationship cleanup: no surviving
bucket is keyed by the canonical path and no surviving edge targets it. -/
theorem deletePart_absent (st : Pkg) (part : Part)
    (h : mapGet st.parts (normalizeURI part.uri) = none) :
    (st.DeletePart part).parts = st.parts ∧
      ∀ b ∈ (st.DeletePart part).relationships,
        b.1 ≠ normalizePathForMap (pathFromUri part.uri) ∧
          ∀ r ∈ b.2, normalizePathForMap r.target ≠ normalizePathForMap (pathFromUri part.uri) := by
  constructor
  · rw [DeletePart_parts, mapDelete_of_get_none h]
  · intro b hb
    have hr := @mem_removeAll { st with parts := mapDelete st.parts (normalizeURI part.uri) }
      (pathFromUri part.uri) b hb
    exact ⟨hr.1, hr.2.2⟩

/-- C10 witness: deleting a part absent from a fresh package. -/
theorem deletePart_absent_witness :
    (freshPkg.DeletePart missingSpecPart).parts = freshPkg.parts ∧
      ∀ b ∈ (freshPkg.DeletePart missingSpecPart).relationships,
        b.1 ≠ normalizePathForMap (pathFromUri missingSpecPart.uri) ∧
          ∀ r ∈ b.2, normalizePathForMap r.target ≠ normalizePathForMap (pathFromUri missingSpecPart.uri) :=
  deletePart_absent freshPkg missingSpecPart (by decide)

/-! ### Facade traversal decomposition lemmas -/

/-- Each collected supplementary comes from an edge whose target resolves. -/
theorem collectSupplementaries_mem {st : Pkg} {rels : List Rel} {parts : List Part}
    (h : collectSupplementaries st rels = .ok parts) :
    ∀ q ∈ parts, ∃ rel ∈ rels, mapGet st.parts (normalizePathForMap rel.target) = some q := by
  induction rels generalizing parts with
  | nil =>
    simp only [collectSupplementaries] at h
    cases h
    simp
  | cons rel rest ih =>
    simp only [collectSupplementaries] at h
    cases hget : mapGet st.parts (normalizePathForMap rel.target) with
    | none => rw [hget] at h; cases h
    | some part =>
      rw [hget] at h
      cases hrec : collectSupplementaries st rest with
      | error e => rw [hrec] at h; cases h
      | ok ps =>
        rw [hrec] at h
        simp only [Except.map] at h
        cases h
        intro q hq
        rcases List.mem_cons.mp hq with he | hm
        · exact ⟨rel, List.mem_cons_self rel rest, he ▸ hget⟩
        · rcases ih hrec q hm with ⟨r, hr, hgr⟩
          exact ⟨r, List.mem_cons_of_mem _ hr, hgr⟩

/-- Each collected (spec, supplementary) pair has its spec among the traversed
specs and its supplementary in the registry. -/
theorem collectPairs_mem {st : Pkg} {specs : List Part} {pairs : List (Part × Part)}
    (h : collectPairs st specs = .ok pairs) :
    ∀ pr ∈ pairs, pr.1 ∈ specs ∧ ∃ k, mapGet st.parts k = some pr.2 := by
  induction specs generalizing pairs with
  | nil =>
    simp only [collectPairs] at h
    cases h
    simp
  | cons spec rest ih =>
    simp only [collectPairs, bind, Except.bind] at h
    cases hs : st.SupplementariesFor spec with
    | error e => rw [hs] at h; cases h
    | ok supps =>
      rw [hs] at h
      cases hrec : collectPairs st rest with
      | error e => rw [hrec] at h; cases h
      | ok others =>
        rw [hrec] at h
        cases h
        intro pr hpr
        rcases List.mem_append.mp hpr with hm | hm
        · rcases List.mem_map.mp hm with ⟨q, hq, he⟩
          have hsm := collectSupplementaries_mem hs q hq
          rcases hsm with ⟨rel, _, hget⟩
          refine ⟨?_, ?_⟩
          · rw [← he]
            exact List.mem_cons_self spec rest
          · exact ⟨normalizePathForMap rel.target, by rw [← he]; exact hget⟩
        · rcases ih hrec pr hm with ⟨h1, h2⟩
          exact ⟨List.mem_cons_of_mem _ h1, h2⟩

/-- Each spec returned by `Specs` is a resolved registry entry. -/
theorem Specs_mem {st : Pkg} {q : Part} (h : q ∈ st.Specs) :
    ∃ rel ∈ st.getRelationshipsByType st.originURI RelationTypeAasxSpec,
      mapGet st.parts (normalizePathForMap rel.target) = some q := by
  simp only [Pkg.Specs] at h
  rcases List.mem_filterMap.mp h with ⟨rel, hrel, hget⟩
  exact ⟨rel, hrel, hget⟩

/-- Any part found in the registry after `DeletePart p` has a canonical path
different from `p`'s. -/
theorem lookup_after_delete {st : Pkg} {p : Part} (hwk : WellKeyed st) {k : JStr} {q : Part}
    (h : mapGet (st.DeletePart p).parts k = some q) :
    normalizeURI q.uri ≠ normalizeURI p.uri := by
  have hmem := mapGet_eq_some_mem h
  rw [DeletePart_parts] at hmem
  have hd := mem_mapDelete hmem
  have hk : k = normalizeURI q.uri := hwk (k, q) hd.1
  rw [← hk]
  exact hd.2

/-- C2: after `DeletePart` of a spec part with at least one supplementary,
`Specs` excludes it and `SupplementaryRelationships` (when it returns) contains
no pair mentioning it, comparing by canonical path. -/
theorem deletePart_strictCleanup (st : Pkg) (p : Part) (hwk : WellKeyed st)
    (hspec : st.IsSpec p = true)
    (hsupp : st.getRelationshipsByType (pathFromUri p.uri) RelationTypeAasxSupplementary ≠ []) :
    (∀ q ∈ (st.DeletePart p).Specs, normalizeURI q.uri ≠ normalizeURI p.uri) ∧
      (∀ pairs, (st.DeletePart p).SupplementaryRelationships = .ok pairs →
        ∀ pr ∈ pairs, normalizeURI pr.1.uri ≠ normalizeURI p.uri ∧
          normalizeURI pr.2.uri ≠ normalizeURI p.uri) := by
  have hq : ∀ q ∈ (st.DeletePart p).Specs, normalizeURI q.uri ≠ normalizeURI p.uri := by
    intro q hqmem
    rcases Specs_mem hqmem with ⟨rel, _, hget⟩
    exact lookup_after_delete hwk hget
  refine ⟨hq, ?_⟩
  intro pairs hpairs pr hpr
  have hdec := collectPairs_mem hpairs pr hpr
  refine ⟨hq pr.1 hdec.1, ?_⟩
  rcases hdec.2 with ⟨k, hk⟩
  exact lookup_after_delete hwk hk

/-- C2 witness: deleting the concrete spec (which has one supplementary). -/
theorem deletePart_strictCleanup_witness :
    (∀ q ∈ (exPkgFull.DeletePart exSpecPut.1).Specs,
      normalizeURI q.uri ≠ normalizeURI exSpecPut.1.uri) ∧
      (∀ pairs, (exPkgFull.DeletePart exSpecPut.1).SupplementaryRelationships = .ok pairs →
        ∀ pr ∈ pairs, normalizeURI pr.1.uri ≠ normalizeURI exSpecPut.1.uri ∧
          normalizeURI pr.2.uri ≠ normalizeURI exSpecPut.1.uri) :=
  deletePart_strictCleanup exPkgFull exSpecPut.1 (by decide) (by decide) (by decide)

/-! ### C3: integrity on facade traversal -/

/-- C3 counterexample: a package whose origin bucket holds exactly one spec
edge, whose target resolves to no part — yet `Specs` (a total function, unable
to surface any error) silently ignores the edge and returns the empty list. -/
theorem specs_ignores_dangling_cex :
    (cexDanglingSpec.getRelationshipsByType cexDanglingSpec.originURI
      RelationTypeAasxSpec).length = 1 ∧
    (∀ rel ∈ cexDanglingSpec.getRelationshipsByType cexDanglingSpec.originURI
      RelationTypeAasxSpec,
      mapGet cexDanglingSpec.parts (normalizePathForMap rel.target) = none) ∧
    cexDanglingSpec.Specs = [] := by
  decide

/-- A dangling target anywhere in the traversed list makes the supplementary
collection fail. -/
theorem collectSupplementaries_error {st : Pkg} {rels : List Rel}
    (h : ∃ rel ∈ rels, mapGet st.parts (normalizePathForMap rel.target) = none) :
    ∃ e, collectSupplementaries st rels = .error e := by
  induction rels with
  | nil => simp at h
  | cons rel rest ih =>
    simp only [collectSupplementaries]
    cases hget : mapGet st.parts (normalizePathForMap rel.target) with
    | none => exact ⟨_, rfl⟩
    | some part =>
      have hrest : ∃ r ∈ rest, mapGet st.parts (normalizePathForMap r.target) = none := by
        rcases h with ⟨r, hr, hnone⟩
        rcases List.mem_cons.mp hr with he | hm
        · rw [he] at hnone
          rw [hnone] at hget
          cases hget
        · exact ⟨r, hm, hnone⟩
      rcases ih hrest with ⟨e, he⟩
      exact ⟨e, by rw [he]; rfl⟩

/-- C3 amended: `SupplementariesFor` and `Thumbnail` surface an integrity
error whenever a traversed relationship's target does not resolve, while
`Specs` — by construction total — returns exactly the resolvable targets,
silently skipping dangling spec edges. -/
theorem facade_integrity_amended :
    (∀ (st : Pkg) (spec : Part),
      (∃ rel ∈ st.getRelationshipsByType (pathFromUri spec.uri) RelationTypeAasxSupplementary,
        mapGet st.parts (normalizePathForMap rel.target) = none) →
      ∃ e, st.SupplementariesFor spec = .error e) ∧
    (∀ (st : Pkg) (rel : Rel) (rest : List Rel),
      st.getRelationshipsByType [] RelationTypeThumbnail = rel :: rest →
      mapGet st.parts (normalizePathForMap rel.target) = none →
      ∃ e, st.Thumbnail = .error e) ∧
    (∀ (st : Pkg) (q : Part), q ∈ st.Specs →
      ∃ rel ∈ st.getRelationshipsByType st.originURI RelationTypeAasxSpec,
        mapGet st.parts (normalizePathForMap rel.target) = some q) := by
  refine ⟨?_, ?_, ?_⟩
  · intro st spec h
    exact collectSupplementaries_error h
  · intro st rel rest hbucket hget
    have herr : st.Thumbnail =
        .error (str "thumbnail relationship exists but part not found: " ++ rel.target) := by
      simp only [Pkg.Thumbnail, hbucket, hget]
    exact ⟨_, herr⟩
  · intro st q h
    exact Specs_mem h

/-- C3 amended witness: concrete dangling supplementary and thumbnail edges
produce errors; a concrete resolvable spec edge backs a `Specs` element. -/
theorem facade_integrity_amended_witness :
    (∃ e, cexDanglingSuppl.SupplementariesFor exSpecPut.1 = .error e) ∧
    (∃ e, cexDanglingThumb.Thumbnail = .error e) ∧
    (∃ rel ∈ exPkgFull.getRelationshipsByType exPkgFull.originURI RelationTypeAasxSpec,
      mapGet exPkgFull.parts (normalizePathForMap rel.target) = some exSpecPut.1) :=
  ⟨facade_integrity_amended.1 cexDanglingSuppl exSpecPut.1 (by decide),
   facade_integrity_amended.2.1 cexDanglingThumb
     { id := str "R00000002", relType := RelationTypeThumbnail,
       target := str "/nothumb.png", targetMode := str "Internal" } [] (by decide) (by decide),
   facade_integrity_amended.2.2 exPkgFull exSpecPut.1 (by decide)⟩

/-! ### C4: format rejection -/

/-- C4: undecodable bytes fail with the invalid-format error; a well-formed
archive in which the relationship scan finds no root origin edge — the empty
archive in particular — fails with the distinct missing-origin error. -/
theorem openFromBytes_formatRejection :
    (∀ bs : List Nat,
      openFromBytes (.invalid bs) = .error (ErrInvalidFormat ++ str ": invalid zip data")) ∧
    openFromBytes (.archive []) = .error ErrNoOriginPart ∧
    (∀ entries tables st,
      loadContentTypes entries = .ok tables →
      processRelFiles emptyBase entries = .ok st →
      st.originURI = [] →
      openFromBytes (.archive entries) = .error ErrNoOriginPart) ∧
    (ErrInvalidFormat ++ str ": invalid zip data") ≠ ErrNoOriginPart := by
  refine ⟨fun bs => rfl, rfl, ?_, by decide⟩
  intro entries tables st h1 h2 h3
  simp only [openFromBytes, unzipSync, openFromBytesCore, bind, Except.bind, h1, h2, h3,
    if_pos rfl]
  rfl

/-- C4 witness: the empty archive instantiates the missing-origin branch. -/
theorem openFromBytes_formatRejection_witness :
    openFromBytes (.archive []) = .error ErrNoOriginPart :=
  openFromBytes_formatRejection.2.2.1 [] ([], []) emptyBase rfl rfl rfl

/-! ### C5: at-most-one thumbnail -/

theorem removeRelationship_nextRelID (st : Pkg) (s t ty : JStr) :
    (st.removeRelationship s t ty).nextRelID = st.nextRelID := rfl

/-- Removing a (target, type) pair from the root bucket filters the
type-restricted view of that bucket. -/
theorem getRelationshipsByType_remove_root (st : Pkg) (t ty : JStr) :
    (st.removeRelationship [] t ty).getRelationshipsByType [] ty =
      (st.getRelationshipsByType [] ty).filter
        (fun r => ¬ normalizePathForMap r.target = normalizePathForMap t) := by
  simp only [Pkg.removeRelationship, Pkg.getRelationshipsByType, mapGet_set_self, Option.getD_some]
  simp only [List.filter_filter]
  apply List.filter_congr
  intro r _
  by_cases hty : r.relType = ty <;>
    by_cases ht : normalizePathForMap r.target = normalizePathForMap t <;>
      simp [hty, ht]

/-- After removing every snapshot target, no thumbnail edge survives in the
root bucket, and the id counter is untouched. -/
theorem removeThumb_fold (rels : List Rel) (st : Pkg)
    (hcov : ∀ r ∈ st.getRelationshipsByType [] RelationTypeThumbnail,
      ∃ rel ∈ rels, normalizePathForMap rel.target = normalizePathForMap r.target) :
    (rels.foldl (fun s rel => s.removeRelationship [] rel.target RelationTypeThumbnail) st).getRelationshipsByType
        [] RelationTypeThumbnail = [] ∧
      (rels.foldl (fun s rel => s.removeRelationship [] rel.target RelationTypeThumbnail) st).nextRelID
        = st.nextRelID := by
  induction rels generalizing st with
  | nil =>
    refine ⟨?_, rfl⟩
    cases hbt : st.getRelationshipsByType [] RelationTypeThumbnail with
    | nil => exact hbt
    | cons r rest =>
      rcases hcov r (by rw [hbt]; exact List.mem_cons_self r rest) with ⟨rel, hrel, _⟩
      simp at hrel
  | cons rel rest ih =>
    simp only [List.foldl_cons]
    have hcov' : ∀ r ∈ (st.removeRelationship [] rel.target RelationTypeThumbnail).getRelationshipsByType
        [] RelationTypeThumbnail,
        ∃ w ∈ rest, normalizePathForMap w.target = normalizePathForMap r.target := by
      intro r hr
      rw [getRelationshipsByType_remove_root] at hr
      have hf := List.mem_filter.mp hr
      have hne : ¬ normalizePathForMap r.target = normalizePathForMap rel.target := by
        simpa using hf.2
      rcases hcov r hf.1 with ⟨w, hw, heq⟩
      rcases List.mem_cons.mp hw with he | hm
      · exact absurd (by rw [← he]; exact heq.symm) hne
      · exact ⟨w, hm, heq⟩
    have ih' := ih (st.removeRelationship [] rel.target RelationTypeThumbnail) hcov'
    exact ⟨ih'.1, by rw [ih'.2, removeRelationship_nextRelID]⟩

/-- `SetThumbnail` leaves exactly one root thumbnail edge: the one it adds. -/
theorem setThumbnail_bucket (st : Pkg) (part : Part) :
    (st.SetThumbnail part).getRelationshipsByType [] RelationTypeThumbnail =
      [{ id := relIdFor st.nextRelID, relType := RelationTypeThumbnail,
         target := pathFromUri part.uri, targetMode := str "Internal" }] := by
  have hfold := removeThumb_fold (st.getRelationshipsByType [] RelationTypeThumbnail) st
    (fun r hr => ⟨r, hr, rfl⟩)
  simp only [Pkg.SetThumbnail, Pkg.addRelationship, Pkg.addRelationshipWithID,
    Pkg.getRelationshipsByType, mapGet_set_self, Option.getD_some] at hfold ⊢
  rw [List.filter_append, hfold.1, hfold.2]
  simp [RelationTypeThumbnail]

/-- C5: after any non-empty sequence of `SetThumbnail` calls, exactly one root
thumbnail edge exists, targeting the part given to the most recent call. -/
theorem setThumbnail_lastWins (st : Pkg) (ps : List Part) (h : ps ≠ []) :
    ∃ id, (ps.foldl Pkg.SetThumbnail st).getRelationshipsByType [] RelationTypeThumbnail =
      [{ id := id, relType := RelationTypeThumbnail,
         target := pathFromUri (ps.getLast h).uri, targetMode := str "Internal" }] := by
  induction ps generalizing st with
  | nil => exact absurd rfl h
  | cons p rest ih =>
    cases rest with
    | nil => exact ⟨relIdFor st.nextRelID, setThumbnail_bucket st p⟩
    | cons q rest' =>
      have hne : (q :: rest') ≠ [] := List.cons_ne_nil q rest'
      have hx := ih (st.SetThumbnail p) hne
      simp only [List.foldl_cons] at hx ⊢
      rwa [List.getLast_cons hne]

/-- C5 witness: two successive `SetThumbnail` calls on a concrete package. -/
theorem setThumbnail_lastWins_witness :
    ∃ id, ([exSupplPut.1, exThumbPut.1].foldl Pkg.SetThumbnail exPkgSpec).getRelationshipsByType
        [] RelationTypeThumbnail =
      [{ id := id, relType := RelationTypeThumbnail,
         target := pathFromUri (([exSupplPut.1, exThumbPut.1].getLast (by simp)).uri),
         targetMode := str "Internal" }] :=
  setThumbnail_lastWins exPkgSpec [exSupplPut.1, exThumbPut.1] (by simp)

/-! ### C7: case-insensitive canonical identity -/

theorem splitChar_ne_nil (c : Char) (l : JStr) : splitChar c l ≠ [] := by
  cases l with
  | nil => simp [splitChar]
  | cons x xs =>
    simp only [splitChar]
    cases h : splitChar c xs with
    | nil => simp
    | cons r rs =>
      by_cases hx : x = c <;> simp [hx]

theorem toLower_slash_self : ('/').toLower = '/' := by decide

theorem startsWithSlash_toLowerJS (u : JStr) : startsWithSlash (toLowerJS u) = startsWithSlash u := by
  cases u with
  | nil => rfl
  | cons c rest =>
    by_cases hc : c = '/'
    · simp [toLowerJS, hc, startsWithSlash, toLower_slash_self]
    · have hl : c.toLower ≠ '/' := fun h => hc (toLower_slash h)
      simp [toLowerJS, startsWithSlash, hc, hl]

theorem splitChar_toLowerJS (u : JStr) :
    splitChar '/' (toLowerJS u) = (splitChar '/' u).map toLowerJS := by
  induction u with
  | nil => rfl
  | cons x xs ih =>
    cases hsp : splitChar '/' xs with
    | nil => exact absurd hsp (splitChar_ne_nil '/' xs)
    | cons r rs =>
      simp only [toLowerJS, List.map_cons] at ih ⊢
      simp only [splitChar, ih, hsp, List.map_cons]
      by_cases hx : x = '/'
      · rw [if_pos (by rw [hx]; exact toLower_slash_self), if_pos hx]
        rfl
      · rw [if_neg (fun h => hx (toLower_slash h)), if_neg hx]
        rfl

theorem toLowerJS_eq_nil {s : JStr} : toLowerJS s = [] ↔ s = [] := by
  simp [toLowerJS]

theorem toLowerJS_eq_dot {s : JStr} : toLowerJS s = str "." ↔ s = str "." := by
  constructor
  · intro h
    cases s with
    | nil => simp [toLowerJS, str] at h
    | cons c rest =>
      cases rest with
      | nil =>
        simp only [toLowerJS, List.map_cons, List.map_nil, str] at h ⊢
        have hc : c.toLower = '.' := by
          have := congrArg (fun l => l.headI) h
          simpa using this
        simp [toLower_fix (by decide) c hc, str]
      | cons d rest' => simp [toLowerJS, str] at h
  · intro h
    rw [h]
    decide

theorem toLowerJS_eq_dotdot {s : JStr} : toLowerJS s = str ".." ↔ s = str ".." := by
  constructor
  · intro h
    cases s with
    | nil => simp [toLowerJS, str] at h
    | cons c rest =>
      cases rest with
      | nil => simp [toLowerJS, str] at h
      | cons d rest' =>
        cases rest' with
        | nil =>
          simp only [toLowerJS, List.map_cons, List.map_nil, str] at h ⊢
          have hc : c.toLower = '.' ∧ d.toLower = '.' := by
            constructor
            · have := congrArg (fun l => l.headI) h
              simpa using this
            · have := congrArg (fun l => l.tail.headI) h
              simpa using this
          simp [toLower_fix (by decide) c hc.1, toLower_fix (by decide) d hc.2, str]
        | cons e rest'' => simp [toLowerJS, str] at h
  · intro h
    rw [h]
    decide

theorem joinSlash_toLowerJS (l : List JStr) :
    toLowerJS (joinSlash l) = joinSlash (l.map toLowerJS) := by
  induction l with
  | nil => rfl
  | cons s rest ih =>
    cases rest with
    | nil => rfl
    | cons t rest' =>
      simp only [joinSlash, List.map_cons] at ih ⊢
      rw [toLowerJS_append]
      have hcons : toLowerJS ('/' :: joinSlash (t :: rest')) =
          '/' :: toLowerJS (joinSlash (t :: rest')) := by
        simp [toLowerJS, toLower_slash_self]
      rw [hcons, ih]

theorem normalizeStack_toLowerJS (segs : List JStr) (acc : List JStr) :
    (segs.map toLowerJS).foldl
        (fun st seg =>
          if seg = [] ∨ seg = str "." then st
          else if seg = str ".." then st.dropLast
          else st ++ [seg]) (acc.map toLowerJS) =
      (segs.foldl
        (fun st seg =>
          if seg = [] ∨ seg = str "." then st
          else if seg = str ".." then st.dropLast
          else st ++ [seg]) acc).map toLowerJS := by
  induction segs generalizing acc with
  | nil => rfl
  | cons seg rest ih =>
    simp only [List.map_cons, List.foldl_cons]
    by_cases h1 : seg = [] ∨ seg = str "."
    · rw [if_pos, if_pos h1]
      · exact ih acc
      · rcases h1 with h | h
        · left; rw [h]; rfl
        · right; rw [h]; decide
    · rw [if_neg, if_neg h1]
      · by_cases h2 : seg = str ".."
        · rw [if_pos, if_pos h2]
          · rw [← List.map_dropLast]
            exact ih acc.dropLast
          · rw [h2]; decide
        · rw [if_neg, if_neg h2]
          · have hmap : List.map toLowerJS acc ++ [toLowerJS seg] =
                List.map toLowerJS (acc ++ [seg]) := by simp
            rw [hmap]
            exact ih (acc ++ [seg])
          · intro hc
            exact h2 (toLowerJS_eq_dotdot.mp hc)
      · intro hc
        rcases hc with hc | hc
        · exact h1 (Or.inl (toLowerJS_eq_nil.mp hc))
        · exact h1 (Or.inr (toLowerJS_eq_dot.mp hc))

theorem normalizePath_toLowerJS (u : JStr) :
    normalizePath (toLowerJS u) = toLowerJS (normalizePath u) := by
  simp only [normalizePath, splitChar_toLowerJS]
  have hstack := normalizeStack_toLowerJS (splitChar '/' u) []
  simp only [List.map_nil] at hstack
  rw [hstack]
  have hcons : toLowerJS ('/' :: joinSlash (List.foldl
      (fun st seg =>
        if seg = [] ∨ seg = str "." then st
        else if seg = str ".." then st.dropLast
        else st ++ [seg]) [] (splitChar '/' u))) =
    '/' :: toLowerJS (joinSlash (List.foldl
      (fun st seg =>
        if seg = [] ∨ seg = str "." then st
        else if seg = str ".." then st.dropLast
        else st ++ [seg]) [] (splitChar '/' u))) := by
    simp [toLowerJS, toLower_slash_self]
  rw [hcons, joinSlash_toLowerJS]

theorem normalizePathForMap_congr_lower {u1 u2 : JStr} (h : toLowerJS u1 = toLowerJS u2) :
    normalizePathForMap u1 = normalizePathForMap u2 := by
  by_cases h1 : u1 = []
  · have h2 : u2 = [] := by
      rw [h1] at h
      exact toLowerJS_eq_nil.mp h.symm
    rw [h1, h2]
  · have h2 : u2 ≠ [] := by
      intro hc
      rw [hc] at h
      exact h1 (toLowerJS_eq_nil.mp h)
    have key : toLowerJS (ensureLeadingSlash u1) = toLowerJS (ensureLeadingSlash u2) := by
      have hs : startsWithSlash u1 = startsWithSlash u2 := by
        rw [← startsWithSlash_toLowerJS u1, ← startsWithSlash_toLowerJS u2, h]
      simp only [ensureLeadingSlash]
      by_cases hsw : startsWithSlash u1 = true
      · rw [if_pos hsw, if_pos (hs ▸ hsw)]
        exact h
      · rw [if_neg hsw, if_neg (by rw [← hs]; exact hsw)]
        simpa [toLowerJS, toLower_slash_self] using h
    simp only [normalizePathForMap]
    rw [if_neg h1, if_neg h2]
    calc toLowerJS (normalizePath (ensureLeadingSlash u1))
        = normalizePath (toLowerJS (ensureLeadingSlash u1)) := (normalizePath_toLowerJS _).symm
      _ = normalizePath (toLowerJS (ensureLeadingSlash u2)) := by rw [key]
      _ = toLowerJS (normalizePath (ensureLeadingSlash u2)) := normalizePath_toLowerJS _

theorem normalizeURI_congr_lower {u1 u2 : JStr} (h : toLowerJS u1 = toLowerJS u2) :
    normalizeURI u1 = normalizeURI u2 := by
  simp only [normalizeURI, pathFromUri]
  have hs : startsWithSlash u1 = startsWithSlash u2 := by
    rw [← startsWithSlash_toLowerJS u1, ← startsWithSlash_toLowerJS u2, h]
  by_cases hsw : startsWithSlash u1 = true
  · rw [if_pos hsw, if_pos (hs ▸ hsw)]
    exact normalizePathForMap_congr_lower h
  · rw [if_neg hsw, if_neg (by rw [← hs]; exact hsw)]
    apply normalizePathForMap_congr_lower
    simpa [toLowerJS, toLower_slash_self] using h

theorem mapSet_keys_of_get_some {m : List (JStr × α)} {k : JStr} {v0 : α}
    (h : mapGet m k = some v0) (v : α) :
    (mapSet m k v).map Prod.fst = m.map Prod.fst := by
  induction m with
  | nil => simp [mapGet] at h
  | cons p rest ih =>
    simp only [mapGet] at h
    by_cases hp : p.1 = k
    · simp [mapSet, hp]
    · rw [if_neg hp] at h
      simp [mapSet, hp, ih h]

/-- C7: part identity is the canonical path. Case-variant URIs address the
same part (`PutPart` then `FindPart` under the other spelling returns it);
`PutPart` over an existing canonical path replaces content type and bytes in
place, keeping the stored URI and the key set unchanged; `PutPart` is total. -/
theorem putPart_canonicalIdentity :
    (∀ (st : Pkg) (u1 u2 ct : JStr) (c : List Nat), toLowerJS u1 = toLowerJS u2 →
      (st.PutPart u1 ct c).2.FindPart u2 = some (st.PutPart u1 ct c).1) ∧
    (∀ (st : Pkg) (u ct : JStr) (c : List Nat) (old : Part),
      mapGet st.parts (normalizeURI u) = some old →
      (st.PutPart u ct c).1 = { old with contentType := ct, content := .raw c } ∧
      (st.PutPart u ct c).2.parts =
        mapSet st.parts (normalizeURI u) { old with contentType := ct, content := .raw c } ∧
      (st.PutPart u ct c).2.parts.map Prod.fst = st.parts.map Prod.fst) := by
  constructor
  · intro st u1 u2 ct c h
    have hkey : normalizeURI u2 = normalizeURI u1 := normalizeURI_congr_lower h.symm
    simp only [Pkg.PutPart, Pkg.FindPart]
    cases hget : mapGet st.parts (normalizeURI u1) <;>
      simp [hget, hkey, mapGet_set_self]
  · intro st u ct c old hget
    refine ⟨?_, ?_, ?_⟩
    · simp [Pkg.PutPart, hget]
    · simp [Pkg.PutPart, hget]
    · simp only [Pkg.PutPart, hget]
      exact mapSet_keys_of_get_some hget _

/-- C7 witness: a case-variant put/find pair and an in-place replacement. -/
theorem putPart_canonicalIdentity_witness :
    (exSpecPut.2.PutPart (str "/AASX/Spec.AAS.XML") (str "text/plain") [1]).2.FindPart
        (str "/aasx/spec.aas.xml") =
      some (exSpecPut.2.PutPart (str "/AASX/Spec.AAS.XML") (str "text/plain") [1]).1 ∧
    ((exSpecPut.2.PutPart (str "/aasx/SPEC.aas.xml") (str "text/plain") [2]).1 =
        { exSpecPut.1 with contentType := str "text/plain", content := .raw [2] } ∧
      (exSpecPut.2.PutPart (str "/aasx/SPEC.aas.xml") (str "text/plain") [2]).2.parts =
        mapSet exSpecPut.2.parts (normalizeURI (str "/aasx/SPEC.aas.xml"))
          { exSpecPut.1 with contentType := str "text/plain", content := .raw [2] } ∧
      (exSpecPut.2.PutPart (str "/aasx/SPEC.aas.xml") (str "text/plain") [2]).2.parts.map Prod.fst =
        exSpecPut.2.parts.map Prod.fst) :=
  ⟨putPart_canonicalIdentity.1 exSpecPut.2 (str "/AASX/Spec.AAS.XML") (str "/aasx/spec.aas.xml")
      (str "text/plain") [1] (by decide),
   putPart_canonicalIdentity.2 exSpecPut.2 (str "/aasx/SPEC.aas.xml") (str "text/plain") [2]
      exSpecPut.1 (by decide)⟩

/-! ### C9: relationship-id allocation -/

theorem hexVal_digitChar {d : Nat} (h : d < 16) : hexVal (Nat.digitChar d) = d := by
  interval_cases d <;> decide

theorem digitChar_toNat_mono_fin :
    ∀ d1 d2 : Fin 16, d1.val < d2.val →
      (Nat.digitChar d1.val).toNat < (Nat.digitChar d2.val).toNat := by decide

theorem digitChar_inj_fin :
    ∀ d1 d2 : Fin 16, Nat.digitChar d1.val = Nat.digitChar d2.val → d1 = d2 := by decide

theorem decodeHex_go (a : Nat) (l : JStr) :
    l.foldl (fun x c => x * 16 + hexVal c) a = a * 16 ^ l.length + decodeHex l := by
  induction l generalizing a with
  | nil => simp [decodeHex]
  | cons c r ih =>
    simp only [List.foldl_cons, decodeHex, List.length_cons]
    rw [ih (a * 16 + hexVal c), ih (0 * 16 + hexVal c)]
    ring

theorem decodeHex_cons (c : Char) (r : JStr) :
    decodeHex (c :: r) = hexVal c * 16 ^ r.length + decodeHex r := by
  simp only [decodeHex, List.foldl_cons]
  rw [decodeHex_go]
  ring_nf
  rw [decodeHex_go 0 r]
  ring

theorem decodeHex_lt {l : JStr} (h : ∀ c ∈ l, ∃ d, d < 16 ∧ c = Nat.digitChar d) :
    decodeHex l < 16 ^ l.length := by
  induction l with
  | nil => simp [decodeHex]
  | cons c r ih =>
    rcases h c (List.mem_cons_self c r) with ⟨d, hd, hc⟩
    have hv : hexVal c = d := hc ▸ hexVal_digitChar hd
    have hr := ih (fun x hx => h x (List.mem_cons_of_mem c hx))
    rw [decodeHex_cons, List.length_cons, hv, pow_succ]
    calc d * 16 ^ r.length + decodeHex r < d * 16 ^ r.length + 16 ^ r.length := by omega
      _ = (d + 1) * 16 ^ r.length := by ring
      _ ≤ 16 * 16 ^ r.length := by
          have : d + 1 ≤ 16 := by omega
          exact Nat.mul_le_mul_right _ this
      _ = 16 ^ r.length * 16 := by ring

theorem decodeHex_zeros (k : Nat) (l : JStr) :
    decodeHex (List.replicate k '0' ++ l) = decodeHex l := by
  induction k with
  | zero => rfl
  | succ k ih =>
    simp only [List.replicate_succ, List.cons_append, decodeHex, List.foldl_cons]
    have : (0 : Nat) * 16 + hexVal '0' = 0 := by decide
    rw [this]
    exact ih

theorem toHexCharsAux_decode : ∀ fuel n, n < 16 ^ fuel → decodeHex (toHexCharsAux fuel n) = n := by
  intro fuel
  induction fuel with
  | zero =>
    intro n hn
    interval_cases n
    rfl
  | succ fuel ih =>
    intro n hn
    simp only [toHexCharsAux]
    by_cases h : n < 16
    · rw [if_pos h]
      have : decodeHex [Nat.digitChar n] = hexVal (Nat.digitChar n) := by
        simp [decodeHex]
      rw [this, hexVal_digitChar h]
    · rw [if_neg h]
      have hdiv : n / 16 < 16 ^ fuel := by
        rw [pow_succ] at hn
        omega
      simp only [decodeHex, List.foldl_append, List.foldl_cons, List.foldl_nil]
      have hfold : (toHexCharsAux fuel (n / 16)).foldl (fun a c => a * 16 + hexVal c) 0 =
          n / 16 := ih (n / 16) hdiv
      show (toHexCharsAux fuel (n / 16)).foldl (fun a c => a * 16 + hexVal c) 0 * 16 +
          hexVal (Nat.digitChar (n % 16)) = n
      rw [hfold, hexVal_digitChar (Nat.mod_lt n (by omega))]
      omega

theorem toHexCharsAux_digits : ∀ fuel n c, c ∈ toHexCharsAux fuel n →
    ∃ d, d < 16 ∧ c = Nat.digitChar d := by
  intro fuel
  induction fuel with
  | zero => intro n c hc; simp [toHexCharsAux] at hc
  | succ fuel ih =>
    intro n c hc
    simp only [toHexCharsAux] at hc
    by_cases h : n < 16
    · rw [if_pos h] at hc
      simp at hc
      exact ⟨n, h, hc⟩
    · rw [if_neg h] at hc
      rcases List.mem_append.mp hc with hm | hm
      · exact ih (n / 16) c hm
      · simp at hm
        exact ⟨n % 16, Nat.mod_lt n (by omega), hm⟩

theorem toHexCharsAux_len : ∀ fuel n, (toHexCharsAux fuel n).length ≤ fuel := by
  intro fuel
  induction fuel with
  | zero => intro n; simp [toHexCharsAux]
  | succ fuel ih =>
    intro n
    simp only [toHexCharsAux]
    by_cases h : n < 16
    · rw [if_pos h]; simp
    · rw [if_neg h]
      simp only [List.length_append, List.length_cons, List.length_nil]
      have := ih (n / 16)
      omega

theorem toHexCharsAux_irrel : ∀ f1 f2 n, 1 ≤ f1 → 1 ≤ f2 → n < 16 ^ f1 → n < 16 ^ f2 →
    toHexCharsAux f1 n = toHexCharsAux f2 n := by
  intro f1
  induction f1 with
  | zero => intro f2 n h1; omega
  | succ f1 ih =>
    intro f2 n _ h2 hn1 hn2
    cases f2 with
    | zero => omega
    | succ f2 =>
      simp only [toHexCharsAux]
      by_cases h : n < 16
      · rw [if_pos h, if_pos h]
      · rw [if_neg h, if_neg h]
        have hd1 : n / 16 < 16 ^ f1 := by rw [pow_succ] at hn1; omega
        have hd2 : n / 16 < 16 ^ f2 := by rw [pow_succ] at hn2; omega
        have hf1 : 1 ≤ f1 := by
          by_contra hc
          have : f1 = 0 := by omega
          rw [this] at hd1
          simp at hd1
          omega
        have hf2 : 1 ≤ f2 := by
          by_contra hc
          have : f2 = 0 := by omega
          rw [this] at hd2
          simp at hd2
          omega
        rw [ih f2 (n / 16) hf1 hf2 hd1 hd2]

theorem lt_pow16_succ (n : Nat) : n < 16 ^ (n + 1) := by
  have h1 : n < 16 ^ n := Nat.lt_pow_self (by omega) n
  have h2 : 16 ^ n ≤ 16 ^ (n + 1) := Nat.pow_le_pow_right (by omega) (by omega)
  omega

theorem decodeHex_toHexChars (n : Nat) : decodeHex (toHexChars n) = n :=
  toHexCharsAux_decode (n + 1) n (lt_pow16_succ n)

theorem decodeHex_padStart (l : JStr) : decodeHex (padStartZero l 8) = decodeHex l :=
  decodeHex_zeros _ l

theorem relIdFor_inj {m n : Nat} (h : relIdFor m = relIdFor n) : m = n := by
  have hp : padStartZero (toHexChars m) 8 = padStartZero (toHexChars n) 8 := by
    simpa [relIdFor] using h
  have := congrArg decodeHex hp
  rw [decodeHex_padStart, decodeHex_padStart, decodeHex_toHexChars, decodeHex_toHexChars] at this
  exact this

/-- On equal-length hexadecimal digit strings, value order is ordinal string
order. -/
theorem jstrLe_of_decode_lt : ∀ l1 l2 : JStr, l1.length = l2.length →
    (∀ c ∈ l1, ∃ d, d < 16 ∧ c = Nat.digitChar d) →
    (∀ c ∈ l2, ∃ d, d < 16 ∧ c = Nat.digitChar d) →
    decodeHex l1 < decodeHex l2 → jstrLe l1 l2 = true ∧ l1 ≠ l2 := by
  intro l1
  induction l1 with
  | nil =>
    intro l2 hlen _ _ hlt
    rw [List.length_nil] at hlen
    rw [List.eq_nil_of_length_eq_zero hlen.symm] at hlt
    simp [decodeHex] at hlt
  | cons c1 r1 ih =>
    intro l2 hlen hd1 hd2 hlt
    cases l2 with
    | nil => simp at hlen
    | cons c2 r2 =>
      simp only [List.length_cons, Nat.succ.injEq] at hlen
      rcases hd1 c1 (List.mem_cons_self c1 r1) with ⟨d1, hd1v, hc1⟩
      rcases hd2 c2 (List.mem_cons_self c2 r2) with ⟨d2, hd2v, hc2⟩
      have hv1 : hexVal c1 = d1 := hc1 ▸ hexVal_digitChar hd1v
      have hv2 : hexVal c2 = d2 := hc2 ▸ hexVal_digitChar hd2v
      rw [decodeHex_cons, decodeHex_cons, hv1, hv2, hlen] at hlt
      rcases Nat.lt_trichotomy d1 d2 with hd | hd | hd
      · have hmono := digitChar_toNat_mono_fin ⟨d1, hd1v⟩ ⟨d2, hd2v⟩ hd
        rw [← hc1, ← hc2] at hmono
        constructor
        · simp [jstrLe, hmono]
        · intro hc
          injection hc with h1 _
          rw [h1] at hmono
          omega
      · have hc12 : c1 = c2 := by rw [hc1, hc2, hd]
        have hr : decodeHex r1 < decodeHex r2 := by
          rw [hd] at hlt
          omega
        have hrec := ih r2 hlen (fun c hc => hd1 c (List.mem_cons_of_mem _ hc))
          (fun c hc => hd2 c (List.mem_cons_of_mem _ hc)) hr
        constructor
        · rw [hc12]
          simp only [jstrLe]
          rw [if_neg (by omega), if_neg (by omega)]
          exact hrec.1
        · intro hc
          injection hc with _ h2
          exact hrec.2 h2
      · exfalso
        have hb2 : decodeHex r2 < 16 ^ r2.length :=
          decodeHex_lt (fun c hc => hd2 c (List.mem_cons_of_mem _ hc))
        have : d2 * 16 ^ r2.length + decodeHex r2 < (d2 + 1) * 16 ^ r2.length := by
          have := hb2
          ring_nf
          omega
        have hge : (d2 + 1) * 16 ^ r2.length ≤ d1 * 16 ^ r2.length :=
          Nat.mul_le_mul_right _ (by omega)
        omega

/-- The digit characters of a padded counter rendering. -/
theorem padded_digits (n : Nat) :
    ∀ c ∈ padStartZero (toHexChars n) 8, ∃ d, d < 16 ∧ c = Nat.digitChar d := by
  intro c hc
  rcases List.mem_append.mp hc with hm | hm
  · have : c = '0' := List.eq_of_mem_replicate hm
    exact ⟨0, by omega, by rw [this]; rfl⟩
  · exact toHexCharsAux_digits (n + 1) n c hm

theorem padded_length {n : Nat} (h : n < 16 ^ 8) :
    (padStartZero (toHexChars n) 8).length = 8 := by
  have hhex : toHexChars n = toHexCharsAux 8 n :=
    toHexCharsAux_irrel (n + 1) 8 n (by omega) (by omega) (lt_pow16_succ n) h
  have hlen : (toHexChars n).length ≤ 8 := by
    rw [hhex]
    exact toHexCharsAux_len 8 n
  simp only [padStartZero, List.length_append, List.length_replicate]
  omega

/-- Ids minted for increasing counter values below `16^8` are ordinally
increasing (and in particular distinct). -/
theorem relIdFor_lt {m n : Nat} (hm : m < n) (hn : n < 16 ^ 8) :
    jstrLe (relIdFor m) (relIdFor n) = true ∧ relIdFor m ≠ relIdFor n := by
  have hm8 : m < 16 ^ 8 := by omega
  have hlex := jstrLe_of_decode_lt (padStartZero (toHexChars m) 8)
    (padStartZero (toHexChars n) 8)
    (by rw [padded_length hm8, padded_length hn])
    (padded_digits m) (padded_digits n)
    (by rw [decodeHex_padStart, decodeHex_padStart, decodeHex_toHexChars, decodeHex_toHexChars]
        exact hm)
  constructor
  · simp only [relIdFor, jstrLe]
    rw [if_neg (by omega), if_neg (by omega)]
    exact hlex.1
  · intro hc
    injection hc with _ h2
    exact hlex.2 h2

theorem processRelFiles_nextRelID : ∀ (entries : List (JStr × FileData)) (st pkg : Pkg),
    processRelFiles st entries = .ok pkg → pkg.nextRelID = st.nextRelID := by
  intro entries
  induction entries with
  | nil =>
    intro st pkg h
    simp only [processRelFiles] at h
    cases h
    rfl
  | cons e rest ih =>
    intro st pkg h
    simp only [processRelFiles] at h
    by_cases hname : (containsSeq (str "_rels/") e.1 && (str ".rels").isSuffixOf e.1) = true
    · rw [if_pos hname] at h
      simp only [bind, Except.bind] at h
      cases hx : parseXmlData e.2 with
      | error er => rw [hx] at h; cases h
      | ok doc =>
        rw [hx] at h
        have := ih _ pkg h
        rw [this]
        have : ∀ (rels : List Rel) (s : Pkg) (src : JStr),
            (applyRelsDoc src rels s).nextRelID = s.nextRelID := by
          intro rels
          induction rels with
          | nil => intro s src; rfl
          | cons r rrest ihr =>
            intro s src
            simp only [applyRelsDoc, List.foldl_cons] at ihr ⊢
            rw [ihr]
            by_cases hor : r.relType = RelationTypeAasxOrigin ∧ src = [] <;> simp [hor] <;> rfl
        exact this _ _ _
    · rw [if_neg hname] at h
      exact ih _ pkg h

/-- C9: `Add` mints `R` + 8 zero-padded lowercase hex digits of the counter and
increments it; ids from increasing counter values below `16^8` are distinct
and ordinally increasing; the counter starts at 1 on a fresh `PackageBase` and
stays 1 through `openFromBytes` (load uses only `AddWithId`, which keeps the
document id and never touches the counter). -/
theorem relationshipIdAllocation :
    (∀ (st : Pkg) (s t ty : JStr),
      (st.addRelationship s t ty).1 = relIdFor st.nextRelID ∧
      (st.addRelationship s t ty).2.nextRelID = st.nextRelID + 1) ∧
    (∀ (st : Pkg) (s t ty id : JStr),
      (st.addRelationshipWithID s t ty id).nextRelID = st.nextRelID ∧
      mapGet (st.addRelationshipWithID s t ty id).relationships (normalizePathForMap s) =
        some ((mapGet st.relationships (normalizePathForMap s)).getD [] ++
          [{ id := id, relType := ty, target := t, targetMode := str "Internal" }])) ∧
    emptyBase.nextRelID = 1 ∧
    relIdFor 1 = str "R00000001" ∧
    (∀ (bytes : ZipBytes) (pkg : Pkg), openFromBytes bytes = .ok pkg → pkg.nextRelID = 1) ∧
    (∀ m n : Nat, m < n → n < 16 ^ 8 →
      jstrLe (relIdFor m) (relIdFor n) = true ∧ relIdFor m ≠ relIdFor n) := by
  refine ⟨?_, ?_, rfl, by decide, ?_, fun m n hm hn => relIdFor_lt hm hn⟩
  · intro st s t ty
    exact ⟨rfl, rfl⟩
  · intro st s t ty id
    exact ⟨rfl, by simp [Pkg.addRelationshipWithID, mapGet_set_self]⟩
  · intro bytes pkg h
    cases bytes with
    | invalid bs => simp [openFromBytes, unzipSync] at h
    | archive entries =>
      simp only [openFromBytes, unzipSync] at h
      cases hc : openFromBytesCore entries with
      | error e =>
        simp only [hc] at h
        by_cases he : e = ErrNoOriginPart <;> simp [he] at h
      | ok pkg' =>
        simp only [hc, Except.ok.injEq] at h
        subst h
        simp only [openFromBytesCore, bind, Except.bind] at hc
        cases hl : loadContentTypes entries with
        | error e => simp only [hl] at hc; cases hc
        | ok tables =>
          simp only [hl] at hc
          cases hp : processRelFiles emptyBase entries with
          | error e => simp only [hp] at hc; cases hc
          | ok st1 =>
            simp only [hp] at hc
            by_cases ho : st1.originURI = []
            · rw [if_pos ho] at hc
              cases hc
            · rw [if_neg ho] at hc
              cases hc
              have h1 := processRelFiles_nextRelID entries emptyBase st1 hp
              have h2 : ∀ (es : List (JStr × FileData)) (s : Pkg),
                  (es.foldl (fun acc e => registerPart tables.1 tables.2 acc e.1 e.2) s).nextRelID
                    = s.nextRelID := by
                intro es
                induction es with
                | nil => intro s; rfl
                | cons e rest ihe =>
                  intro s
                  simp only [List.foldl_cons]
                  rw [ihe]
                  simp only [registerPart]
                  by_cases hskip : e.1 = contentTypePath ∨ containsSeq (str "_rels/") e.1 = true ∨
                      e.1.getLast? = some '/'
                  · rw [if_pos hskip]
                  · rw [if_neg hskip]
              rw [h2, h1]
              rfl

/-- C9 witness: a concrete archive loads with the counter still at 1, and the
ids for counters 1 and 2 are ordered and distinct. -/
theorem relationshipIdAllocation_witness :
    exOpenedPkg.nextRelID = 1 ∧
      (jstrLe (relIdFor 1) (relIdFor 2) = true ∧ relIdFor 1 ≠ relIdFor 2) :=
  ⟨relationshipIdAllocation.2.2.2.2.1 (.archive exArchive) exOpenedPkg rfl,
   relationshipIdAllocation.2.2.2.2.2 1 2 (by omega) (by norm_num)⟩

/-! ### C8: content-type document construction -/

theorem jstrLe_trans : ∀ a b c : JStr, jstrLe a b = true → jstrLe b c = true → jstrLe a c = true := by
  intro a
  induction a with
  | nil => intro b c _ _; rfl
  | cons x xs ih =>
    intro b c h1 h2
    cases b with
    | nil => simp [jstrLe] at h1
    | cons y ys =>
      cases c with
      | nil => simp [jstrLe] at h2
      | cons z zs =>
        simp only [jstrLe] at h1 h2 ⊢
        by_cases hxy : x.toNat < y.toNat
        · have hyz : ¬ z.toNat < y.toNat := by
            intro hc
            rw [if_neg (by omega), if_pos hc] at h2
            cases h2
          rw [if_pos (by omega)]
        · by_cases hyx : y.toNat < x.toNat
          · rw [if_neg hxy, if_pos hyx] at h1
            cases h1
          · have hxe : x.toNat = y.toNat := by omega
            rw [if_neg hxy, if_neg hyx] at h1
            by_cases hyz : y.toNat < z.toNat
            · rw [if_pos (by omega)]
            · by_cases hzy : z.toNat < y.toNat
              · rw [if_neg hyz, if_pos hzy] at h2
                cases h2
              · rw [if_neg hyz, if_neg hzy] at h2
                rw [if_neg (by omega), if_neg (by omega)]
                exact ih ys zs h1 h2

theorem jstrLe_total : ∀ a b : JStr, jstrLe a b = true ∨ jstrLe b a = true := by
  intro a
  induction a with
  | nil => intro b; left; rfl
  | cons x xs ih =>
    intro b
    cases b with
    | nil => right; rfl
    | cons y ys =>
      simp only [jstrLe]
      by_cases hxy : x.toNat < y.toNat
      · left; rw [if_pos hxy]
      · by_cases hyx : y.toNat < x.toNat
        · right; rw [if_pos hyx]
        · rw [if_neg hxy, if_neg hyx, if_neg hyx, if_neg hxy]
          exact ih ys

theorem insertLe_perm (le : α → α → Bool) (x : α) (l : List α) :
    (insertLe le x l).Perm (x :: l) := by
  induction l with
  | nil => exact List.Perm.refl _
  | cons y ys ih =>
    simp only [insertLe]
    by_cases h : le y x = true
    · rw [if_pos h]
      exact (ih.cons y).trans (List.Perm.swap x y ys)
    · rw [if_neg h]

theorem foldl_insertLe_perm (le : α → α → Bool) (l acc : List α) :
    (l.foldl (fun a x => insertLe le x a) acc).Perm (acc ++ l) := by
  induction l generalizing acc with
  | nil => simp
  | cons x xs ih =>
    simp only [List.foldl_cons]
    have h1 := ih (insertLe le x acc)
    have h2 : (insertLe le x acc ++ xs).Perm ((x :: acc) ++ xs) :=
      (insertLe_perm le x acc).append_right xs
    exact h1.trans (h2.trans List.perm_middle.symm)

theorem sortJS_perm (le : α → α → Bool) (l : List α) : (sortJS le l).Perm l := by
  simpa using foldl_insertLe_perm le l []

theorem insertLe_pairwise (le : α → α → Bool)
    (htrans : ∀ a b c, le a b = true → le b c = true → le a c = true)
    (htotal : ∀ a b, le a b = true ∨ le b a = true)
    (x : α) (l : List α) (h : l.Pairwise (le · · = true)) :
    (insertLe le x l).Pairwise (le · · = true) := by
  induction l with
  | nil => simp [insertLe]
  | cons y ys ih =>
    rcases List.pairwise_cons.mp h with ⟨hy, hys⟩
    simp only [insertLe]
    by_cases hle : le y x = true
    · rw [if_pos hle]
      refine List.pairwise_cons.mpr ⟨?_, ih hys⟩
      intro z hz
      have hmem := (insertLe_perm le x ys).mem_iff.mp hz
      rcases List.mem_cons.mp hmem with he | hm
      · rw [he]; exact hle
      · exact hy z hm
    · rw [if_neg hle]
      have hxy : le x y = true := (htotal x y).resolve_right (fun hc => hle hc)
      refine List.pairwise_cons.mpr ⟨?_, h⟩
      intro z hz
      rcases List.mem_cons.mp hz with he | hm
      · rw [he]; exact hxy
      · exact htrans x y z hxy (hy z hm)

theorem sortJS_pairwise (le : α → α → Bool)
    (htrans : ∀ a b c, le a b = true → le b c = true → le a c = true)
    (htotal : ∀ a b, le a b = true ∨ le b a = true) (l : List α) :
    (sortJS le l).Pairwise (le · · = true) := by
  have key : ∀ (xs acc : List α), acc.Pairwise (le · · = true) →
      (xs.foldl (fun a x => insertLe le x a) acc).Pairwise (le · · = true) := by
    intro xs
    induction xs with
    | nil => intro acc h; exact h
    | cons x rest ih =>
      intro acc h
      simp only [List.foldl_cons]
      exact ih _ (insertLe_pairwise le htrans htotal x acc h)
  exact key l [] List.Pairwise.nil

/-- The extension-grouping pass satisfies the first-wins/demote description
whenever all content types are non-empty and part URIs are distinct. -/
theorem groupContentTypes_spec : ∀ parts : List (JStr × Part),
    (∀ b ∈ parts, b.2.contentType ≠ []) →
    ((parts.map (fun b => b.2.uri)).Nodup) →
    (∀ e : JStr, e ≠ [] →
      mapGet (groupContentTypes parts).1 e =
        (parts.find? (fun b => extOf b.2 = e)).map (fun b => b.2.contentType)) ∧
    mapGet (groupContentTypes parts).1 [] = none ∧
    (∀ path, mapGet (groupContentTypes parts).2 path ≠ none →
      path ∈ parts.map (fun b => b.2.uri)) ∧
    (∀ b ∈ parts,
      (extOf b.2 = [] →
        mapGet (groupContentTypes parts).2 b.2.uri = some b.2.contentType) ∧
      (extOf b.2 ≠ [] → ∀ q, parts.find? (fun x => extOf x.2 = extOf b.2) = some q →
        (q.2.contentType = b.2.contentType →
          mapGet (groupContentTypes parts).2 b.2.uri = none) ∧
        (q.2.contentType ≠ b.2.contentType →
          mapGet (groupContentTypes parts).2 b.2.uri = some b.2.contentType))) := by
  intro parts
  induction parts using List.reverseRecOn with
  | nil =>
    intro _ _
    refine ⟨?_, ?_, ?_, ?_⟩ <;> simp [groupContentTypes, mapGet]
  | append_singleton l bs ih =>
    intro h_ne h_uris
    have h_ne' : ∀ b ∈ l, b.2.contentType ≠ [] :=
      fun b hb => h_ne b (List.mem_append_left _ hb)
    have h_uris' : (l.map (fun b => b.2.uri)).Nodup := by
      rw [List.map_append] at h_uris
      exact h_uris.of_append_left
    have hnotin : bs.2.uri ∉ l.map (fun b => b.2.uri) := by
      rw [List.map_append] at h_uris
      have hdisj := (List.nodup_append.mp h_uris).2.2
      intro hc
      exact hdisj hc (by simp)
    have hne_uri : ∀ b ∈ l, b.2.uri ≠ bs.2.uri :=
      fun b hb he => hnotin (he ▸ List.mem_map_of_mem _ hb)
    rcases ih h_ne' h_uris' with ⟨ih1, ih2, ih3, ih4⟩
    have hfold : groupContentTypes (l ++ [bs]) =
        contentTypeStep (groupContentTypes l) bs.2 := by
      simp [groupContentTypes, List.foldl_append]
    have hnone_bs : mapGet (groupContentTypes l).2 bs.2.uri = none := by
      by_contra hc
      exact hnotin (ih3 _ hc)
    have transfer_find : ∀ e : JStr,
        (l.find? (fun b => extOf b.2 = e) ≠ none ∨ extOf bs.2 ≠ e) →
        (l ++ [bs]).find? (fun b => extOf b.2 = e) = l.find? (fun b => extOf b.2 = e) := by
      intro e he
      rw [List.find?_append]
      cases hf : l.find? (fun b => extOf b.2 = e) with
      | some q => rfl
      | none =>
        rcases he with h | h
        · exact absurd hf h
        · simp [List.find?, h]
    by_cases hempty : extOf bs.2 = []
    · -- extensionless: always an override
      have hstep : groupContentTypes (l ++ [bs]) =
          ((groupContentTypes l).1,
            mapSet (groupContentTypes l).2 (pathFromUri bs.2.uri) bs.2.contentType) := by
        rw [hfold]
        simp only [contentTypeStep]
        rw [if_pos hempty]
      rw [hstep]
      refine ⟨?_, ih2, ?_, ?_⟩
      · intro e he
        rw [ih1 e he, transfer_find e (Or.inr (fun hc => he (hc ▸ hempty)))]
      · intro path hp
        by_cases hpe : path = pathFromUri bs.2.uri
        · subst hpe
          rw [List.map_append]
          exact List.mem_append_right _ (List.mem_singleton.mpr rfl)
        · rw [mapGet_set_ne _ _ _ _ hpe] at hp
          rw [List.map_append]
          exact List.mem_append_left _ (ih3 path hp)
      · intro b hb
        rcases List.mem_append.mp hb with hbl | hbs
        · have hfb : ∀ (hne : extOf b.2 ≠ []),
              (l ++ [bs]).find? (fun x => extOf x.2 = extOf b.2) =
                l.find? (fun x => extOf x.2 = extOf b.2) := by
            intro hne
            exact transfer_find _ (Or.inr (fun hc => hne (hc ▸ hempty)))
          have hbne : b.2.uri ≠ pathFromUri bs.2.uri := hne_uri b hbl
          constructor
          · intro hb0
            rw [mapGet_set_ne _ _ _ _ hbne]
            exact (ih4 b hbl).1 hb0
          · intro hb0 q hq
            rw [hfb hb0] at hq
            rw [mapGet_set_ne _ _ _ _ hbne]
            exact (ih4 b hbl).2 hb0 q hq
        · have hbb : b = bs := by simpa using hbs
          subst hbb
          exact ⟨fun _ => mapGet_set_self _ _ _, fun hb0 => absurd hempty hb0⟩
    · -- has an extension
      cases hget : mapGet (groupContentTypes l).1 (extOf bs.2) with
      | none =>
        have hfind_none : l.find? (fun b => extOf b.2 = extOf bs.2) = none := by
          have := ih1 (extOf bs.2) hempty
          rw [hget] at this
          exact Option.map_eq_none'.mp this.symm
        have hstep : groupContentTypes (l ++ [bs]) =
            (mapSet (groupContentTypes l).1 (extOf bs.2) bs.2.contentType,
              (groupContentTypes l).2) := by
          rw [hfold]
          simp only [contentTypeStep]
          rw [if_neg hempty, hget]
        rw [hstep]
        have hfind_new : (l ++ [bs]).find? (fun b => extOf b.2 = extOf bs.2) = some bs := by
          rw [List.find?_append, hfind_none]
          simp [List.find?]
        refine ⟨?_, ?_, ?_, ?_⟩
        · intro e he
          by_cases he0 : e = extOf bs.2
          · subst he0
            rw [mapGet_set_self, hfind_new]
            rfl
          · rw [mapGet_set_ne _ _ _ _ he0, ih1 e he,
              transfer_find e (Or.inr (fun hc => he0 hc.symm))]
        · rw [mapGet_set_ne _ _ _ _ (fun hc => hempty hc.symm)]
          exact ih2
        · intro path hp
          rw [List.map_append]
          exact List.mem_append_left _ (ih3 path hp)
        · intro b hb
          rcases List.mem_append.mp hb with hbl | hbs
          · have hbext : extOf b.2 ≠ extOf bs.2 := by
              intro hc
              have : ¬ (fun x => decide (extOf x.2 = extOf bs.2)) b = true := by
                have := List.find?_eq_none.mp hfind_none b hbl
                simpa using this
              simp [hc] at this
            constructor
            · intro hb0
              exact (ih4 b hbl).1 hb0
            · intro hb0 q hq
              rw [transfer_find _ (Or.inr (fun hc => hbext hc.symm))] at hq
              exact (ih4 b hbl).2 hb0 q hq
          · have hbb : b = bs := by simpa using hbs
            subst hbb
            refine ⟨fun hc => absurd hc hempty, fun _ q hq => ?_⟩
            rw [hfind_new] at hq
            cases hq
            exact ⟨fun _ => hnone_bs, fun hc => absurd rfl hc⟩
      | some existing =>
        have hq0 : ∃ q0, l.find? (fun b => extOf b.2 = extOf bs.2) = some q0 ∧
            q0.2.contentType = existing := by
          have := ih1 (extOf bs.2) hempty
          rw [hget] at this
          rcases Option.map_eq_some'.mp this.symm with ⟨q0, hq0f, hq0c⟩
          exact ⟨q0, hq0f, hq0c⟩
        rcases hq0 with ⟨q0, hq0f, hq0c⟩
        have hq0mem := List.mem_of_find?_eq_some hq0f
        have hexist_ne : existing ≠ [] := hq0c ▸ h_ne' q0 hq0mem
        have hfind_keep : (l ++ [bs]).find? (fun b => extOf b.2 = extOf bs.2) = some q0 := by
          rw [transfer_find _ (Or.inl (by rw [hq0f]; exact fun hc => Option.noConfusion hc))]
          exact hq0f
        by_cases hdiff : existing = bs.2.contentType
        · -- same content type as the first part: no change at all
          have hstep : groupContentTypes (l ++ [bs]) = groupContentTypes l := by
            rw [hfold]
            simp only [contentTypeStep]
            rw [if_neg hempty, hget]
            simp only [if_neg (by simp [hdiff] : ¬(existing ≠ [] ∧ existing ≠ bs.2.contentType)),
              if_neg hexist_ne]
          rw [hstep]
          refine ⟨?_, ih2, ?_, ?_⟩
          · intro e he
            by_cases he0 : e = extOf bs.2
            · subst he0
              rw [transfer_find _ (Or.inl (by rw [hq0f]; exact fun hc => Option.noConfusion hc))]
              exact ih1 _ he
            · rw [transfer_find e (Or.inr (fun hc => he0 hc.symm))]
              exact ih1 e he
          · intro path hp
            rw [List.map_append]
            exact List.mem_append_left _ (ih3 path hp)
          · intro b hb
            rcases List.mem_append.mp hb with hbl | hbs
            · constructor
              · intro hb0
                exact (ih4 b hbl).1 hb0
              · intro hb0 q hq
                by_cases hbext : extOf b.2 = extOf bs.2
                · rw [hbext, hfind_keep] at hq
                  cases hq
                  rw [← hbext] at hq0f
                  exact (ih4 b hbl).2 hb0 q0 hq0f
                · rw [transfer_find _ (Or.inr (fun hc => hbext hc.symm))] at hq
                  exact (ih4 b hbl).2 hb0 q hq
            · have hbb : b = bs := by simpa using hbs
              subst hbb
              refine ⟨fun hc => absurd hc hempty, fun _ q hq => ?_⟩
              rw [hfind_keep] at hq
              cases hq
              have hctq : q0.2.contentType = b.2.contentType := by rw [hq0c, hdiff]
              exact ⟨fun _ => hnone_bs, fun hc => absurd hctq hc⟩
        · -- different content type: demoted to an override
          have hstep : groupContentTypes (l ++ [bs]) =
              ((groupContentTypes l).1,
                mapSet (groupContentTypes l).2 (pathFromUri bs.2.uri) bs.2.contentType) := by
            rw [hfold]
            simp only [contentTypeStep]
            rw [if_neg hempty, hget]
            simp only [if_pos (⟨hexist_ne, fun hc => hdiff hc⟩ :
              existing ≠ [] ∧ existing ≠ bs.2.contentType)]
          rw [hstep]
          refine ⟨?_, ih2, ?_, ?_⟩
          · intro e he
            by_cases he0 : e = extOf bs.2
            · subst he0
              rw [transfer_find _ (Or.inl (by rw [hq0f]; exact fun hc => Option.noConfusion hc))]
              exact ih1 _ he
            · rw [transfer_find e (Or.inr (fun hc => he0 hc.symm))]
              exact ih1 e he
          · intro path hp
            by_cases hpe : path = pathFromUri bs.2.uri
            · subst hpe
              rw [List.map_append]
              exact List.mem_append_right _ (List.mem_singleton.mpr rfl)
            · rw [mapGet_set_ne _ _ _ _ hpe] at hp
              rw [List.map_append]
              exact List.mem_append_left _ (ih3 path hp)
          · intro b hb
            rcases List.mem_append.mp hb with hbl | hbs
            · have hbne : b.2.uri ≠ pathFromUri bs.2.uri := hne_uri b hbl
              constructor
              · intro hb0
                rw [mapGet_set_ne _ _ _ _ hbne]
                exact (ih4 b hbl).1 hb0
              · intro hb0 q hq
                rw [mapGet_set_ne _ _ _ _ hbne]
                by_cases hbext : extOf b.2 = extOf bs.2
                · rw [hbext, hfind_keep] at hq
                  cases hq
                  rw [← hbext] at hq0f
                  exact (ih4 b hbl).2 hb0 q0 hq0f
                · rw [transfer_find _ (Or.inr (fun hc => hbext hc.symm))] at hq
                  exact (ih4 b hbl).2 hb0 q hq
            · have hbb : b = bs := by simpa using hbs
              subst hbb
              refine ⟨fun hc => absurd hc hempty, fun _ q hq => ?_⟩
              rw [hfind_keep] at hq
              cases hq
              have hctq : q0.2.contentType ≠ b.2.contentType := by
                rw [hq0c]
                exact hdiff
              exact ⟨fun hc => absurd hc hctq, fun _ => mapGet_set_self _ _ _⟩

/-- C8 counterexample: two parts share extension `x`; the first carries the
empty content type and the second a different, non-empty one — the later part
is not demoted to an override (none is emitted) and the extension's default is
replaced by the later part's type. -/
theorem contentTypes_emptyDefault_cex :
    extOf cexCtPartA = extOf cexCtPartB ∧
    cexCtPartA.contentType ≠ cexCtPartB.contentType ∧
    (groupContentTypes cexCtParts).2 = [] ∧
    mapGet (groupContentTypes cexCtParts).1 (str "x") = some cexCtPartB.contentType := by
  decide

/-- C8 amended: the first-wins/demote grouping and the fixed-then-sorted
document layout hold for registries whose content types are all non-empty
(JavaScript truthiness lets a later part overwrite an empty default). -/
theorem contentTypes_document_amended (parts : List (JStr × Part))
    (h_ne : ∀ b ∈ parts, b.2.contentType ≠ [])
    (h_uris : (parts.map (fun b => b.2.uri)).Nodup) :
    ContentTypesGroupingSpec parts := by
  rcases groupContentTypes_spec parts h_ne h_uris with ⟨h1, h2, h3, h4⟩
  refine ⟨h1, h2, h3, h4,
    sortJS (fun l r => jstrLe l.1 r.1) (groupContentTypes parts).1,
    sortJS (fun l r => jstrLe l.1 r.1) (groupContentTypes parts).2,
    rfl, sortJS_perm _ _, sortJS_perm _ _, ?_, ?_⟩
  · exact sortJS_pairwise (fun l r : JStr × JStr => jstrLe l.1 r.1)
      (fun a b c hab hbc => jstrLe_trans a.1 b.1 c.1 hab hbc)
      (fun a b => jstrLe_total a.1 b.1) _
  · exact sortJS_pairwise (fun l r : JStr × JStr => jstrLe l.1 r.1)
      (fun a b c hab hbc => jstrLe_trans a.1 b.1 c.1 hab hbc)
      (fun a b => jstrLe_total a.1 b.1) _

/-- C8 witness: the three-part example registry. -/
theorem contentTypes_document_amended_witness : ContentTypesGroupingSpec exCtParts :=
  contentTypes_document_amended exCtParts (by decide) (by decide)

/-! ### C1: canonical-path structure lemmas -/

theorem splitChar_no_sep {c : Char} : ∀ {l : JStr} {s : JStr}, s ∈ splitChar c l → ¬ c ∈ s := by
  intro l
  induction l with
  | nil =>
    intro s hs
    simp [splitChar] at hs
    simp [hs]
  | cons x xs ih =>
    intro s hs
    simp only [splitChar] at hs
    cases hr : splitChar c xs with
    | nil => exact absurd hr (splitChar_ne_nil c xs)
    | cons r rs =>
      simp only [hr] at hs
      by_cases hx : x = c
      · rw [if_pos hx] at hs
        rcases List.mem_cons.mp hs with he | hm
        · simp [he]
        · exact ih (hr ▸ hm)
      · rw [if_neg hx] at hs
        rcases List.mem_cons.mp hs with he | hm
        · subst he
          intro hc
          rcases List.mem_cons.mp hc with he' | hm'
          · exact hx he'.symm
          · have hrm : r ∈ splitChar c xs := by rw [hr]; exact List.mem_cons_self r rs
            exact ih hrm hm'
        · exact ih (hr ▸ List.mem_cons_of_mem r hm)

theorem splitChar_of_not_mem {c : Char} : ∀ {l : JStr}, ¬ c ∈ l → splitChar c l = [l] := by
  intro l
  induction l with
  | nil => intro _; rfl
  | cons x xs ih =>
    intro h
    have hx : x ≠ c := fun hc => h (hc ▸ List.mem_cons_self x xs)
    have hxs : ¬ c ∈ xs := fun hc => h (List.mem_cons_of_mem x hc)
    simp only [splitChar, ih hxs]
    rw [if_neg hx]

theorem splitChar_cons_sep (c : Char) (t : JStr) :
    splitChar c (c :: t) = [] :: splitChar c t := by
  simp only [splitChar]
  cases hr : splitChar c t with
  | nil => exact absurd hr (splitChar_ne_nil c t)
  | cons r rs =>
    simp [hr]

theorem splitChar_append_sep {c : Char} {a : JStr} (ha : ¬ c ∈ a) (t : JStr) :
    splitChar c (a ++ c :: t) = a :: splitChar c t := by
  induction a with
  | nil => simpa using splitChar_cons_sep c t
  | cons x xs ih =>
    have hx : x ≠ c := fun hc => ha (hc ▸ List.mem_cons_self x xs)
    have hxs : ¬ c ∈ xs := fun hc => ha (List.mem_cons_of_mem x hc)
    simp only [List.cons_append, splitChar]
    cases hr : splitChar c (xs ++ c :: t) with
    | nil => exact absurd hr (splitChar_ne_nil _ _)
    | cons r rs =>
      simp only [hr]
      rw [if_neg hx]
      have hih := ih hxs
      rw [hr] at hih
      injection hih with h1 h2
      rw [h1, h2]

theorem joinSlash_cons_cons (s t : JStr) (rest : List JStr) :
    joinSlash (s :: t :: rest) = s ++ '/' :: joinSlash (t :: rest) := rfl

theorem joinSlash_append_single (ds : List JStr) (b : JStr) :
    joinSlash (ds ++ [b]) = if ds = [] then b else joinSlash ds ++ '/' :: b := by
  induction ds with
  | nil => rfl
  | cons d rest ih =>
    rw [if_neg (List.cons_ne_nil d rest)]
    cases rest with
    | nil => rfl
    | cons e rest' =>
      simp only [List.cons_append] at ih ⊢
      simp only [joinSlash_cons_cons]
      rw [ih, if_neg (List.cons_ne_nil e rest')]
      simp

theorem splitChar_joinSlash : ∀ segs : List JStr, segs ≠ [] →
    (∀ g ∈ segs, ¬ '/' ∈ g) → splitChar '/' (joinSlash segs) = segs := by
  intro segs
  induction segs with
  | nil => intro h; exact absurd rfl h
  | cons s rest ih =>
    intro _ hall
    cases rest with
    | nil =>
      simp only [joinSlash]
      exact splitChar_of_not_mem (hall s (List.mem_cons_self s []))
    | cons t rest' =>
      rw [joinSlash_cons_cons,
        splitChar_append_sep (hall s (List.mem_cons_self s _)) (joinSlash (t :: rest')),
        ih (List.cons_ne_nil t rest') (fun g hg => hall g (List.mem_cons_of_mem s hg))]

theorem normalizeStack_append (segs : List JStr) (acc : List JStr)
    (h : ∀ g ∈ segs, IsSegStr g) :
    segs.foldl
      (fun st seg =>
        if seg = [] ∨ seg = str "." then st
        else if seg = str ".." then st.dropLast
        else st ++ [seg]) acc = acc ++ segs := by
  induction segs generalizing acc with
  | nil => simp
  | cons s rest ih =>
    rcases h s (List.mem_cons_self s rest) with ⟨h1, h2, h3, _⟩
    simp only [List.foldl_cons]
    rw [if_neg (by simp [h1, h2]), if_neg h3,
      ih (acc ++ [s]) (fun g hg => h g (List.mem_cons_of_mem s hg))]
    simp

/-- Every output of `normalizePath` is a leading slash before normalized
segments. -/
theorem normalizePath_shape (input : JStr) :
    ∃ stack : List JStr, (∀ g ∈ stack, IsSegStr g) ∧
      normalizePath input = '/' :: joinSlash stack := by
  simp only [normalizePath]
  refine ⟨_, ?_, rfl⟩
  have key : ∀ (segs : List JStr) (acc : List JStr),
      (∀ g ∈ segs, ¬ '/' ∈ g) → (∀ g ∈ acc, IsSegStr g) →
      ∀ g ∈ segs.foldl
        (fun st seg =>
          if seg = [] ∨ seg = str "." then st
          else if seg = str ".." then st.dropLast
          else st ++ [seg]) acc, IsSegStr g := by
    intro segs
    induction segs with
    | nil => intro acc _ hacc g hg; exact hacc g hg
    | cons s rest ih =>
      intro acc hsegs hacc g hg
      simp only [List.foldl_cons] at hg
      by_cases h1 : s = [] ∨ s = str "."
      · rw [if_pos h1] at hg
        exact ih acc (fun x hx => hsegs x (List.mem_cons_of_mem s hx)) hacc g hg
      · rw [if_neg h1] at hg
        by_cases h2 : s = str ".."
        · rw [if_pos h2] at hg
          exact ih acc.dropLast (fun x hx => hsegs x (List.mem_cons_of_mem s hx))
            (fun x hx => hacc x (List.dropLast_subset _ hx)) g hg
        · rw [if_neg h2] at hg
          refine ih (acc ++ [s]) (fun x hx => hsegs x (List.mem_cons_of_mem s hx)) ?_ g hg
          intro x hx
          rcases List.mem_append.mp hx with hm | hm
          · exact hacc x hm
          · have hxs : x = s := by simpa using hm
            subst hxs
            push_neg at h1
            exact ⟨h1.1, h1.2, h2, hsegs x (List.mem_cons_self x rest)⟩
  exact key _ [] (fun g hg => splitChar_no_sep hg) (by simp)

/-- Canonical, already-lower-cased paths are fixed by `normalizePathForMap`. -/
theorem normalizePathForMap_canonical {s : JStr} (hc : CanonicalNE s)
    (hl : toLowerJS s = s) : normalizePathForMap s = s := by
  rcases hc with ⟨segs, hne, hsegs, hs⟩
  have hnil : s ≠ [] := by rw [hs]; simp
  have hstart : startsWithSlash s = true := by rw [hs]; rfl
  simp only [normalizePathForMap]
  rw [if_neg hnil]
  simp only [ensureLeadingSlash, hstart, if_pos]
  have hsplit : splitChar '/' s = [] :: segs := by
    rw [hs, splitChar_cons_sep, splitChar_joinSlash segs hne
      (fun g hg => (hsegs g hg).2.2.2)]
  have hfold : (splitChar '/' s).foldl
      (fun st seg =>
        if seg = [] ∨ seg = str "." then st
        else if seg = str ".." then st.dropLast
        else st ++ [seg]) [] = segs := by
    rw [hsplit]
    simp only [List.foldl_cons]
    rw [if_pos (Or.inl trivial)]
    rw [normalizeStack_append segs [] hsegs]
    simp
  simp only [normalizePath]
  rw [hfold, ← hs]
  exact hl

theorem lastIndexOf_of_not_mem {c : Char} : ∀ {l : JStr}, ¬ c ∈ l → lastIndexOf c l = none := by
  intro l
  induction l with
  | nil => intro _; rfl
  | cons x xs ih =>
    intro h
    simp only [lastIndexOf]
    rw [ih (fun hc => h (List.mem_cons_of_mem x hc))]
    rw [if_neg (fun hc => h (List.mem_cons.mpr (Or.inl hc.symm)))]

theorem lastIndexOf_append_not_mem {c : Char} {l2 : JStr} (h : ¬ c ∈ l2) :
    ∀ l1 : JStr, lastIndexOf c (l1 ++ l2) = lastIndexOf c l1 := by
  intro l1
  induction l1 with
  | nil => simpa using lastIndexOf_of_not_mem h
  | cons x xs ih =>
    have ih2 : lastIndexOf c (List.append xs l2) = lastIndexOf c xs := ih
    simp only [List.cons_append, lastIndexOf]
    rw [ih2]

theorem lastIndexOf_append_cons_not_mem {c : Char} {l2 : JStr} (h : ¬ c ∈ l2) :
    ∀ l1 : JStr, lastIndexOf c (l1 ++ c :: l2) = some l1.length := by
  intro l1
  induction l1 with
  | nil =>
    simp only [List.nil_append, lastIndexOf, lastIndexOf_of_not_mem h]
    simp
  | cons x xs ih =>
    have ih2 : lastIndexOf c (List.append xs (c :: l2)) = some xs.length := ih
    simp only [List.cons_append, lastIndexOf]
    rw [ih2]
    rfl

/-! ### C1: association-list and search toolbox -/

theorem mapGet_eq_none_iff {m : List (JStr × α)} {k : JStr} :
    mapGet m k = none ↔ k ∉ m.map Prod.fst := by
  induction m with
  | nil => simp [mapGet]
  | cons p rest ih =>
    simp only [mapGet, List.map_cons, List.mem_cons]
    by_cases hp : p.1 = k
    · rw [if_pos hp]
      constructor
      · intro h
        exact absurd h (Option.some_ne_none p.2)
      · intro h
        exact absurd (Or.inl hp.symm) h
    · rw [if_neg hp, ih]
      constructor
      · intro h hc
        rcases hc with he | hm
        · exact hp he.symm
        · exact h hm
      · intro h hm
        exact h (Or.inr hm)

theorem mapGet_ne_none_of_mem {m : List (JStr × α)} {b : JStr × α} (h : b ∈ m) :
    mapGet m b.1 ≠ none := by
  induction m with
  | nil => exact absurd h (List.not_mem_nil b)
  | cons p rest ih =>
    simp only [mapGet]
    by_cases hp : p.1 = b.1
    · rw [if_pos hp]
      exact Option.some_ne_none p.2
    · rw [if_neg hp]
      rcases List.mem_cons.mp h with he | hm
      · exact absurd (by rw [he]) hp
      · exact ih hm

theorem mapGet_of_mem_nodup {m : List (JStr × α)} (hd : (m.map Prod.fst).Nodup)
    {b : JStr × α} (h : b ∈ m) : mapGet m b.1 = some b.2 := by
  induction m with
  | nil => exact absurd h (List.not_mem_nil b)
  | cons p rest ih =>
    simp only [List.map_cons, List.nodup_cons] at hd
    rcases List.mem_cons.mp h with he | hm
    · rw [he]
      simp [mapGet]
    · have hne : p.1 ≠ b.1 := by
        intro he
        exact hd.1 (he ▸ List.mem_map_of_mem Prod.fst hm)
      simp only [mapGet, if_neg hne]
      exact ih hd.2 hm

theorem nodup_keys_eq {m : List (JStr × α)} (hd : (m.map Prod.fst).Nodup)
    {b b' : JStr × α} (h : b ∈ m) (h' : b' ∈ m) (he : b.1 = b'.1) : b = b' := by
  have h1 := mapGet_of_mem_nodup hd h
  have h2 := mapGet_of_mem_nodup hd h'
  rw [he, h2] at h1
  injection h1 with hv
  exact Prod.ext he hv.symm

theorem mem_mapSet {m : List (JStr × α)} {k : JStr} {v : α} {b : JStr × α}
    (h : b ∈ mapSet m k v) : b ∈ m ∨ b = (k, v) := by
  induction m with
  | nil => exact Or.inr (List.mem_singleton.mp h)
  | cons p rest ih =>
    simp only [mapSet] at h
    by_cases hp : p.1 = k
    · rw [if_pos hp] at h
      rcases List.mem_cons.mp h with he | hm
      · exact Or.inr he
      · exact Or.inl (List.mem_cons_of_mem p hm)
    · rw [if_neg hp] at h
      rcases List.mem_cons.mp h with he | hm
      · exact Or.inl (List.mem_cons.mpr (Or.inl he))
      · rcases ih hm with hh | hh
        · exact Or.inl (List.mem_cons_of_mem p hh)
        · exact Or.inr hh

theorem mapSet_keys_of_none {m : List (JStr × α)} {k : JStr} (h : mapGet m k = none)
    (v : α) : mapSet m k v = m ++ [(k, v)] := by
  refine mapHas_false_set m k v ?_
  simp [mapHas, h]

theorem mapSet_keys_nodup {m : List (JStr × α)} (hd : (m.map Prod.fst).Nodup)
    (k : JStr) (v : α) : ((mapSet m k v).map Prod.fst).Nodup := by
  cases hg : mapGet m k with
  | none =>
    rw [mapSet_keys_of_none hg v, List.map_append]
    have hk : k ∉ m.map Prod.fst := mapGet_eq_none_iff.mp hg
    simp [List.nodup_append, hd, hk]
  | some v0 =>
    rw [mapSet_keys_of_get_some hg]
    exact hd

theorem mapGet_set_ne_none {m : List (JStr × α)} {k' : JStr}
    (h : mapGet m k' ≠ none) (k : JStr) (v : α) : mapGet (mapSet m k v) k' ≠ none := by
  by_cases he : k' = k
  · rw [he, mapGet_set_self]
    exact Option.some_ne_none v
  · rw [mapGet_set_ne m k k' v he]
    exact h

theorem mapSet_append_last {m : List (JStr × α)} {k : JStr} (h : mapGet m k = none)
    (cur v : α) : mapSet (m ++ [(k, cur)]) k v = m ++ [(k, v)] := by
  induction m with
  | nil => simp [mapSet]
  | cons p rest ih =>
    simp only [mapGet] at h
    by_cases hp : p.1 = k
    · rw [if_pos hp] at h
      exact absurd h (Option.some_ne_none p.2)
    · rw [if_neg hp] at h
      have ih2 : mapSet (List.append rest [(k, cur)]) k v = rest ++ [(k, v)] := ih h
      simp only [List.cons_append, mapSet, if_neg hp]
      rw [ih2]

theorem mapGet_foldl_mapSet (f : β → JStr) (g : β → α) :
    ∀ (l : List β) (m0 : List (JStr × α)) (k : JStr),
    mapGet (l.foldl (fun m d => mapSet m (f d) (g d)) m0) k =
      ((l.reverse.find? (fun d => f d = k)).map g).or (mapGet m0 k) := by
  intro l
  induction l using List.reverseRecOn with
  | nil => simp
  | append_singleton l d ih =>
    intro m0 k
    rw [List.foldl_append, List.foldl_cons, List.foldl_nil, List.reverse_append,
      List.reverse_singleton, List.singleton_append]
    by_cases hk : f d = k
    · rw [List.find?_cons_of_pos _ (by simp [hk]), ← hk, mapGet_set_self]
      rfl
    · rw [List.find?_cons_of_neg _ (by simp [hk]),
        mapGet_set_ne _ _ _ _ (fun he => hk he.symm)]
      exact ih m0 k

theorem find?_unique {p : α → Bool} {x : α} : ∀ {l : List α}, x ∈ l → p x = true →
    (∀ y ∈ l, p y = true → y = x) → l.find? p = some x := by
  intro l
  induction l with
  | nil => intro h _ _; exact absurd h (List.not_mem_nil x)
  | cons a rest ih =>
    intro hm hp hu
    rcases List.mem_cons.mp hm with he | hm'
    · subst he
      exact List.find?_cons_of_pos _ hp
    · by_cases ha : p a = true
      · have hax := hu a (List.mem_cons_self a rest) ha
        subst hax
        exact List.find?_cons_of_pos _ hp
      · rw [List.find?_cons_of_neg _ ha]
        exact ih hm' hp (fun y hy => hu y (List.mem_cons_of_mem a hy))

/-! ### C1: substring containment and suffix lemmas -/

theorem containsSeq_iff (pat : JStr) : ∀ l : JStr,
    containsSeq pat l = true ↔ ∃ l1 l2 : JStr, l = l1 ++ (pat ++ l2) := by
  intro l
  induction l with
  | nil =>
    simp only [containsSeq, List.isEmpty_iff]
    constructor
    · intro h
      exact ⟨[], [], by simp [h]⟩
    · rintro ⟨l1, l2, h⟩
      rcases List.append_eq_nil.mp h.symm with ⟨_, h2⟩
      rcases List.append_eq_nil.mp h2 with ⟨h3, _⟩
      exact h3
  | cons c rest ih =>
    simp only [containsSeq, Bool.or_eq_true]
    constructor
    · intro h
      rcases h with h | h
      · rcases List.isPrefixOf_iff_prefix.mp h with ⟨t, ht⟩
        exact ⟨[], t, by rw [List.nil_append, ht]⟩
      · rcases ih.mp h with ⟨l1, l2, he⟩
        exact ⟨c :: l1, l2, by rw [List.cons_append, he]⟩
    · rintro ⟨l1, l2, he⟩
      cases l1 with
      | nil =>
        left
        simp only [List.nil_append] at he
        exact List.isPrefixOf_iff_prefix.mpr ⟨l2, he.symm⟩
      | cons x xs =>
        right
        simp only [List.cons_append] at he
        injection he with h1 h2
        exact ih.mpr ⟨xs, l2, h2⟩

theorem containsSeq_of_shape (pat l1 l2 : JStr) :
    containsSeq pat (l1 ++ (pat ++ l2)) = true :=
  (containsSeq_iff pat _).mpr ⟨l1, l2, rfl⟩

theorem containsSeq_false_of_toLower {pat l : JStr} (hp : toLowerJS pat = pat)
    (h : containsSeq pat (toLowerJS l) = false) : containsSeq pat l = false := by
  cases hc : containsSeq pat l with
  | false => rfl
  | true =>
    exfalso
    rcases (containsSeq_iff pat l).mp hc with ⟨l1, l2, he⟩
    have hcl : containsSeq pat (toLowerJS l) = true := by
      refine (containsSeq_iff pat _).mpr ⟨toLowerJS l1, toLowerJS l2, ?_⟩
      rw [he, toLowerJS_append, toLowerJS_append, hp]
    rw [hcl] at h
    exact absurd h (by decide)

theorem containsSeq_false_cons {pat : JStr} {c : Char} {l : JStr}
    (h : containsSeq pat (c :: l) = false) : containsSeq pat l = false := by
  cases hx : containsSeq pat l with
  | false => rfl
  | true =>
    simp only [containsSeq, hx, Bool.or_true] at h
    exact absurd h (by decide)

theorem isSuffixOf_append_self (s x : JStr) : s.isSuffixOf (x ++ s) = true :=
  List.isSuffixOf_iff_suffix.mpr ⟨x, rfl⟩

theorem stripSuffixJS_append (x s : JStr) : stripSuffixJS (x ++ s) s = x := by
  simp only [stripSuffixJS, isSuffixOf_append_self, if_pos]
  rw [List.length_append, Nat.add_sub_cancel]
  exact List.take_left x s

/-! ### C1: canonical segments and the rels-path inverse -/

theorem joinSlash_ne_nil {ds : List JStr} (hne : ds ≠ [])
    (h : ∀ g ∈ ds, IsSegStr g) : joinSlash ds ≠ [] := by
  cases ds with
  | nil => exact absurd rfl hne
  | cons d rest =>
    cases rest with
    | nil => exact (h d (List.mem_cons_self d [])).1
    | cons e rest' =>
      rw [joinSlash_cons_cons]
      intro hc
      rcases List.append_eq_nil.mp hc with ⟨_, h2⟩
      exact absurd h2 (List.cons_ne_nil _ _)

theorem joinSlash_ne_dot {ds : List JStr} (hne : ds ≠ [])
    (h : ∀ g ∈ ds, IsSegStr g) : joinSlash ds ≠ str "." := by
  cases ds with
  | nil => exact absurd rfl hne
  | cons d rest =>
    cases rest with
    | nil => exact (h d (List.mem_cons_self d [])).2.1
    | cons e rest' =>
      rw [joinSlash_cons_cons]
      intro hc
      have hd : d ≠ [] := (h d (List.mem_cons_self d _)).1
      have hdl : 1 ≤ d.length := List.length_pos.mpr hd
      have hlen := congrArg List.length hc
      rw [List.length_append] at hlen
      have h1 : (str ".").length = 1 := rfl
      rw [h1] at hlen
      simp only [List.length_cons] at hlen
      omega

theorem joinSlash_startsWithSlash {ds : List JStr} (hne : ds ≠ [])
    (h : ∀ g ∈ ds, IsSegStr g) : startsWithSlash (joinSlash ds) = false := by
  cases ds with
  | nil => exact absurd rfl hne
  | cons d rest =>
    have hd := h d (List.mem_cons_self d rest)
    have hd1 : d ≠ [] := hd.1
    have hd4 : ¬ '/' ∈ d := hd.2.2.2
    cases d with
    | nil => exact absurd rfl hd1
    | cons c cs =>
      have hca : c ≠ '/' := fun he => hd4 (he ▸ List.mem_cons_self c cs)
      cases rest with
      | nil => simp [joinSlash, startsWithSlash, hca]
      | cons e rest' =>
        rw [joinSlash_cons_cons, List.cons_append]
        simp [startsWithSlash, hca]

theorem startsWithSlash_of_seg {b : JStr} (h : IsSegStr b) : startsWithSlash b = false := by
  cases b with
  | nil => rfl
  | cons c cs =>
    have hc : c ≠ '/' := fun he => h.2.2.2 (he ▸ List.mem_cons_self c cs)
    simp [startsWithSlash, hc]

theorem ensureLeadingSlash_of_false {l : JStr} (h : startsWithSlash l = false) :
    ensureLeadingSlash l = '/' :: l := by
  simp [ensureLeadingSlash, h]

theorem trimLeadingSlash_no_slash {l : JStr} (h : startsWithSlash l = false) :
    trimLeadingSlash l = l := by
  cases l with
  | nil => rfl
  | cons c cs =>
    have hc : c ≠ '/' := by
      intro he
      simp [startsWithSlash, he] at h
    simp only [trimLeadingSlash]
    split
    · rename_i rest heq
      injection heq with h1 _
      exact absurd h1 hc
    · rfl

theorem trimLeadingSlash_cons_slash (l : JStr) : trimLeadingSlash ('/' :: l) = l := rfl

theorem dirName_baseName_concat (d b : JStr) (hb : b ≠ []) (hbs : ¬ '/' ∈ b) :
    dirName (d ++ '/' :: b) = (if d = [] then str "/" else d) ∧
    baseName (d ++ '/' :: b) = b := by
  have hshape : d ++ '/' :: b = (d ++ ['/']) ++ b := by simp
  have htrim : trimTrailingSlash (d ++ '/' :: b) = d ++ '/' :: b := by
    rw [trimTrailingSlash, if_neg]
    intro hcon
    have hg := hcon.2
    rw [hshape, List.getLast?_append_of_ne_nil _ hb] at hg
    exact hbs (List.mem_of_mem_getLast? hg)
  have hli : lastIndexOf '/' (d ++ '/' :: b) = some d.length :=
    lastIndexOf_append_cons_not_mem hbs d
  constructor
  · simp only [dirName]
    rw [htrim, hli]
    by_cases hd : d = []
    · subst hd
      simp
    · rw [if_neg hd]
      have hdl : ¬ List.length d = 0 := fun h0 => hd (List.length_eq_zero.mp h0)
      show (if List.length d = 0 then str "/" else List.take (List.length d) (d ++ '/' :: b)) = d
      rw [if_neg hdl]
      exact List.take_left d _
  · simp only [baseName]
    rw [htrim, hli]
    show List.drop (List.length d + 1) (d ++ '/' :: b) = b
    rw [hshape]
    have hl : List.length (d ++ ['/']) = List.length d + 1 := by simp
    rw [← hl]
    exact List.drop_left _ _

theorem startsWithSlash_append {l1 : JStr} (h1 : l1 ≠ []) (l2 : JStr) :
    startsWithSlash (l1 ++ l2) = startsWithSlash l1 := by
  cases l1 with
  | nil => exact absurd rfl h1
  | cons c cs => rfl

/-- The full inverse: the archive member name written for a canonical non-root
bucket key contains `_rels/`, ends in `.rels`, and maps back to the key. -/
theorem relsName_canonical {s : JStr} (hc : CanonicalNE s) (hl : toLowerJS s = s)
    (hnr : containsSeq (str "_rels/") s = false) :
    containsSeq (str "_rels/") (trimLeadingSlash (getRelsPath s)) = true ∧
    (str ".rels").isSuffixOf (trimLeadingSlash (getRelsPath s)) = true ∧
    getSourcePathFromRelsPath (trimLeadingSlash (getRelsPath s)) = s := by
  rcases hc with ⟨segs, hne, hsegs, hs⟩
  have hnorm : normalizePathForMap s = s :=
    normalizePathForMap_canonical ⟨segs, hne, hsegs, hs⟩ hl
  rcases List.eq_nil_or_concat segs with hnil | ⟨ds, b, hconcat⟩
  · exact absurd hnil hne
  rw [List.concat_eq_append] at hconcat
  subst hconcat
  have hds : ∀ g ∈ ds, IsSegStr g := fun g hg => hsegs g (List.mem_append_left _ hg)
  have hbseg : IsSegStr b := hsegs b (List.mem_append_right _ (List.mem_singleton.mpr rfl))
  have hb1 : b ≠ [] := hbseg.1
  have hb4 : ¬ '/' ∈ b := hbseg.2.2.2
  have hsnil : s ≠ [] := by
    rw [hs]
    exact List.cons_ne_nil _ _
  have hnosl_rels : ¬ '/' ∈ (b ++ str ".rels") := by
    intro hm
    rcases List.mem_append.mp hm with hm | hm
    · exact hb4 hm
    · exact absurd hm (by decide)
  have hbrne : b ++ str ".rels" ≠ [] := by
    intro hx
    rcases List.append_eq_nil.mp hx with ⟨_, h2⟩
    exact absurd h2 (by decide)
  by_cases hdsnil : ds = []
  · subst hdsnil
    have hsb : s = [] ++ '/' :: b := by
      rw [hs]
      rfl
    have hdir := dirName_baseName_concat [] b hb1 hb4
    have hgr : getRelsPath s = str "/_rels/" ++ b ++ str ".rels" := by
      simp only [getRelsPath, hnorm]
      rw [if_neg hsnil, hsb, hdir.1, hdir.2, if_pos rfl, if_pos (Or.inr rfl)]
    have hname : trimLeadingSlash (getRelsPath s) = (str "_rels/" ++ b) ++ str ".rels" := by
      have hcons : str "/_rels/" = '/' :: str "_rels/" := rfl
      rw [hgr, hcons, List.cons_append, List.cons_append, trimLeadingSlash_cons_slash]
    refine ⟨?_, ?_, ?_⟩
    · rw [hname]
      have hsh : (str "_rels/" ++ b) ++ str ".rels" =
          [] ++ (str "_rels/" ++ (b ++ str ".rels")) := by
        simp
      rw [hsh]
      exact containsSeq_of_shape _ _ _
    · rw [hname]
      exact isSuffixOf_append_self _ _
    · rw [hname]
      have hswn : startsWithSlash ((str "_rels/" ++ b) ++ str ".rels") = false := rfl
      have hclean := trimLeadingSlash_no_slash hswn
      have hne11 : ((str "_rels/" ++ b) ++ str ".rels") ≠ str "_rels/.rels" := by
        intro hcx
        have hlen := congrArg List.length hcx
        rw [List.length_append, List.length_append] at hlen
        have e1 : (str "_rels/").length = 6 := rfl
        have e2 : (str ".rels").length = 5 := rfl
        have e3 : (str "_rels/.rels").length = 11 := rfl
        rw [e1, e2, e3] at hlen
        have hbl : 1 ≤ b.length := List.length_pos.mpr hb1
        omega
      have hshape2 : (str "_rels/" ++ b) ++ str ".rels" =
          str "_rels" ++ '/' :: (b ++ str ".rels") := by
        have hrels5 : str "_rels/" = str "_rels" ++ ['/'] := rfl
        rw [hrels5]
        simp [List.append_assoc]
      have hdir2 := dirName_baseName_concat (str "_rels") (b ++ str ".rels") hbrne hnosl_rels
      simp only [getSourcePathFromRelsPath]
      rw [hclean, if_neg hne11, hshape2, hdir2.1, hdir2.2]
      rw [if_neg (show ¬ (str "_rels" = ([] : JStr)) by decide)]
      have e4 : stripSuffixJS (str "_rels") (str "/_rels") = str "_rels" := by decide
      rw [e4, if_pos rfl, stripSuffixJS_append, if_pos (Or.inl rfl),
        ensureLeadingSlash_of_false (startsWithSlash_of_seg hbseg), hs]
      rfl
  · have hJne : joinSlash ds ≠ [] := joinSlash_ne_nil hdsnil hds
    have hJdot : joinSlash ds ≠ str "." := joinSlash_ne_dot hdsnil hds
    have hJsw : startsWithSlash (joinSlash ds) = false := joinSlash_startsWithSlash hdsnil hds
    have hsb : s = ('/' :: joinSlash ds) ++ '/' :: b := by
      rw [hs, joinSlash_append_single, if_neg hdsnil]
      rfl
    have hdir := dirName_baseName_concat ('/' :: joinSlash ds) b hb1 hb4
    have hnotor : ¬('/' :: joinSlash ds = [] ∨ '/' :: joinSlash ds = str "/") := by
      rintro (h | h)
      · exact List.cons_ne_nil _ _ h
      · have hsl : str "/" = '/' :: ([] : JStr) := rfl
        rw [hsl] at h
        injection h with _ h2
        exact hJne h2
    have hgr : getRelsPath s =
        ('/' :: joinSlash ds) ++ str "/_rels/" ++ b ++ str ".rels" := by
      simp only [getRelsPath, hnorm]
      rw [if_neg hsnil, hsb, hdir.1, hdir.2, if_neg (List.cons_ne_nil '/' (joinSlash ds)),
        if_neg hnotor]
    have hname : trimLeadingSlash (getRelsPath s) =
        ((joinSlash ds ++ str "/_rels/") ++ b) ++ str ".rels" := by
      rw [hgr, List.cons_append, List.cons_append, List.cons_append, trimLeadingSlash_cons_slash]
    refine ⟨?_, ?_, ?_⟩
    · rw [hname]
      have hsh : ((joinSlash ds ++ str "/_rels/") ++ b) ++ str ".rels" =
          (joinSlash ds ++ ['/']) ++ (str "_rels/" ++ (b ++ str ".rels")) := by
        have hre : str "/_rels/" = ['/'] ++ str "_rels/" := rfl
        rw [hre]
        simp [List.append_assoc]
      rw [hsh]
      exact containsSeq_of_shape _ _ _
    · rw [hname]
      exact isSuffixOf_append_self _ _
    · rw [hname]
      have hflat : ((joinSlash ds ++ str "/_rels/") ++ b) ++ str ".rels" =
          joinSlash ds ++ (str "/_rels/" ++ (b ++ str ".rels")) := by
        simp [List.append_assoc]
      have hswn : startsWithSlash (((joinSlash ds ++ str "/_rels/") ++ b) ++ str ".rels") = false := by
        rw [hflat, startsWithSlash_append hJne, hJsw]
      have hclean := trimLeadingSlash_no_slash hswn
      have hne11 : (((joinSlash ds ++ str "/_rels/") ++ b) ++ str ".rels") ≠ str "_rels/.rels" := by
        intro hcx
        have hlen := congrArg List.length hcx
        rw [List.length_append, List.length_append, List.length_append] at hlen
        have e1 : (str "/_rels/").length = 7 := rfl
        have e2 : (str ".rels").length = 5 := rfl
        have e3 : (str "_rels/.rels").length = 11 := rfl
        rw [e1, e2, e3] at hlen
        have hbl : 1 ≤ b.length := List.length_pos.mpr hb1
        omega
      have hshape2 : (((joinSlash ds ++ str "/_rels/") ++ b) ++ str ".rels") =
          (joinSlash ds ++ str "/_rels") ++ '/' :: (b ++ str ".rels") := by
        have hre2 : str "/_rels/" = str "/_rels" ++ ['/'] := rfl
        rw [hre2]
        simp [List.append_assoc]
      have hd'ne : joinSlash ds ++ str "/_rels" ≠ [] := by
        intro hx
        rcases List.append_eq_nil.mp hx with ⟨_, h2⟩
        exact absurd h2 (by decide)
      have hdir2 := dirName_baseName_concat (joinSlash ds ++ str "/_rels") (b ++ str ".rels")
        hbrne hnosl_rels
      have hJrels : joinSlash ds ≠ str "_rels" := by
        intro hJ
        have hshape3 : s = ['/'] ++ (str "_rels/" ++ b) := by
          rw [hsb, hJ]
          rfl
        have hcs := containsSeq_of_shape (str "_rels/") ['/'] b
        rw [← hshape3] at hcs
        rw [hcs] at hnr
        exact absurd hnr (by decide)
      simp only [getSourcePathFromRelsPath]
      rw [hclean, if_neg hne11, hshape2, hdir2.1, hdir2.2, if_neg hd'ne,
        stripSuffixJS_append, if_neg hJrels, stripSuffixJS_append,
        if_neg (show ¬(joinSlash ds = [] ∨ joinSlash ds = str ".") from
          fun hor => hor.elim hJne hJdot),
        ensureLeadingSlash_of_false (by rw [startsWithSlash_append hJne, hJsw]), hsb]
      rfl

/-! ### C1: document build/parse round-trips -/

theorem filterMap_self {f : α → Option α} : ∀ {l : List α}, (∀ a ∈ l, f a = some a) →
    l.filterMap f = l := by
  intro l
  induction l with
  | nil => intro _; rfl
  | cons a rest ih =>
    intro h
    rw [List.filterMap_cons, h a (List.mem_cons_self a rest),
      ih (fun x hx => h x (List.mem_cons_of_mem a hx))]

theorem parse_build_rels (rels : List Rel)
    (h : ∀ r ∈ rels, r.id ≠ [] ∧ r.relType ≠ [] ∧ r.target ≠ [] ∧
      r.targetMode = str "Internal") :
    parseRelationshipsXml (buildRelationshipsXml rels) = rels := by
  simp only [parseRelationshipsXml, buildRelationshipsXml]
  rw [if_neg (not_not_intro rfl), List.filterMap_map]
  apply filterMap_self
  intro r hr
  rcases h r hr with ⟨h1, h2, h3, h4⟩
  simp only [Function.comp_apply, h4]
  rw [if_neg (show ¬(str "Internal" ≠ ([] : JStr) ∧ str "Internal" ≠ str "Internal") from
    fun hx => hx.2 rfl)]
  show (if r.id = [] ∨ r.relType = [] ∨ r.target = [] then none
    else some { id := r.id, relType := r.relType, target := r.target,
                targetMode := str "Internal" }) = some r
  rw [if_neg (by simp [h1, h2, h3]), ← h4]

theorem foldl_ct_steps (f : CtParsed → XmlChild → CtParsed)
    (hdstep : ∀ (acc : CtParsed) (d : JStr × JStr), d.1 ≠ [] → d.2 ≠ [] →
      f acc (mkDefaultElem d) = ⟨acc.defaults ++ [d], acc.overrides⟩)
    (hostep : ∀ (acc : CtParsed) (o : JStr × JStr), o.1 ≠ [] → o.2 ≠ [] →
      f acc (mkOverrideElem o) = ⟨acc.defaults, acc.overrides ++ [o]⟩) :
    ∀ (ds os : List (JStr × JStr)) (acc : CtParsed),
    (∀ d ∈ ds, d.1 ≠ [] ∧ d.2 ≠ []) → (∀ o ∈ os, o.1 ≠ [] ∧ o.2 ≠ []) →
    (ds.map mkDefaultElem ++ os.map mkOverrideElem).foldl f acc =
      ⟨acc.defaults ++ ds, acc.overrides ++ os⟩ := by
  have aux : ∀ (os : List (JStr × JStr)) (acc : CtParsed),
      (∀ o ∈ os, o.1 ≠ [] ∧ o.2 ≠ []) →
      (os.map mkOverrideElem).foldl f acc = ⟨acc.defaults, acc.overrides ++ os⟩ := by
    intro os
    induction os with
    | nil =>
      intro acc _
      rw [List.map_nil, List.foldl_nil, List.append_nil]
    | cons o rest ih =>
      intro acc h
      rw [List.map_cons, List.foldl_cons,
        hostep acc o (h o (List.mem_cons_self o rest)).1 (h o (List.mem_cons_self o rest)).2,
        ih _ (fun x hx => h x (List.mem_cons_of_mem o hx))]
      simp
  intro ds
  induction ds with
  | nil =>
    intro os acc _ hos
    rw [List.map_nil, List.nil_append, List.append_nil]
    exact aux os acc hos
  | cons d rest ih =>
    intro os acc hds hos
    rw [List.map_cons, List.cons_append, List.foldl_cons,
      hdstep acc d (hds d (List.mem_cons_self d rest)).1 (hds d (List.mem_cons_self d rest)).2,
      ih os _ (fun x hx => hds x (List.mem_cons_of_mem d hx)) hos]
    simp

theorem parse_build_ct (parts : List (JStr × Part))
    (hds : ∀ d ∈ sortJS (fun l r : JStr × JStr => jstrLe l.1 r.1) (groupContentTypes parts).1,
      d.1 ≠ [] ∧ d.2 ≠ [])
    (hos : ∀ o ∈ sortJS (fun l r : JStr × JStr => jstrLe l.1 r.1) (groupContentTypes parts).2,
      o.1 ≠ [] ∧ o.2 ≠ []) :
    parseContentTypesXml (buildContentTypesXml parts) =
      ⟨relsDefaultPair :: sortJS (fun l r : JStr × JStr => jstrLe l.1 r.1) (groupContentTypes parts).1,
       sortJS (fun l r : JStr × JStr => jstrLe l.1 r.1) (groupContentTypes parts).2⟩ := by
  simp only [parseContentTypesXml, buildContentTypesXml]
  rw [if_neg (not_not_intro rfl)]
  refine Eq.trans (foldl_ct_steps _ ?_ ?_
    (relsDefaultPair :: sortJS (fun l r : JStr × JStr => jstrLe l.1 r.1) (groupContentTypes parts).1)
    (sortJS (fun l r : JStr × JStr => jstrLe l.1 r.1) (groupContentTypes parts).2)
    ⟨[], []⟩ ?_ ?_) ?_
  · intro acc d h1 h2
    show (if d.1 ≠ [] ∧ d.2 ≠ [] then
        (⟨acc.defaults ++ [(d.1, d.2)], acc.overrides⟩ : CtParsed) else acc) =
      ⟨acc.defaults ++ [d], acc.overrides⟩
    rw [if_pos ⟨h1, h2⟩]
  · intro acc o h1 h2
    show (if o.1 ≠ [] ∧ o.2 ≠ [] then
        (⟨acc.defaults, acc.overrides ++ [(o.1, o.2)]⟩ : CtParsed) else acc) =
      ⟨acc.defaults, acc.overrides ++ [o]⟩
    rw [if_pos ⟨h1, h2⟩]
  · intro d hd
    rcases List.mem_cons.mp hd with he | hm
    · rw [he]
      exact ⟨by decide, by decide⟩
    · exact hds d hm
  · exact hos
  · simp

theorem groupContentTypes_provenance : ∀ parts : List (JStr × Part),
    (∀ kv ∈ (groupContentTypes parts).1, ∃ b ∈ parts, kv.2 = b.2.contentType) ∧
    (∀ kv ∈ (groupContentTypes parts).2, ∃ b ∈ parts, kv.1 = b.2.uri ∧
      kv.2 = b.2.contentType) := by
  intro parts
  induction parts using List.reverseRecOn with
  | nil =>
    constructor <;> intro kv hkv <;> simp [groupContentTypes] at hkv
  | append_singleton l bs ih =>
    have hfold : groupContentTypes (l ++ [bs]) = contentTypeStep (groupContentTypes l) bs.2 := by
      simp [groupContentTypes, List.foldl_append]
    rcases ih with ⟨ih1, ih2⟩
    have hlift1 : ∀ kv, kv ∈ (groupContentTypes l).1 → ∃ b ∈ l ++ [bs], kv.2 = b.2.contentType :=
      fun kv hkv => (ih1 kv hkv).elim (fun b hb => ⟨b, List.mem_append_left _ hb.1, hb.2⟩)
    have hlift2 : ∀ kv, kv ∈ (groupContentTypes l).2 →
        ∃ b ∈ l ++ [bs], kv.1 = b.2.uri ∧ kv.2 = b.2.contentType :=
      fun kv hkv => (ih2 kv hkv).elim (fun b hb => ⟨b, List.mem_append_left _ hb.1, hb.2⟩)
    have hbs : bs ∈ l ++ [bs] := List.mem_append_right _ (List.mem_singleton.mpr rfl)
    rw [hfold]
    simp only [contentTypeStep]
    by_cases hext : extOf bs.2 = []
    · rw [if_pos hext]
      refine ⟨hlift1, ?_⟩
      intro kv hkv
      rcases mem_mapSet hkv with hm | he
      · exact hlift2 kv hm
      · rw [he]
        exact ⟨bs, hbs, rfl, rfl⟩
    · rw [if_neg hext]
      cases hg : mapGet (groupContentTypes l).1 (extOf bs.2) with
      | some existing =>
        dsimp only
        by_cases hcond : existing ≠ [] ∧ existing ≠ bs.2.contentType
        · rw [if_pos hcond]
          refine ⟨hlift1, ?_⟩
          intro kv hkv
          rcases mem_mapSet hkv with hm | he
          · exact hlift2 kv hm
          · rw [he]
            exact ⟨bs, hbs, rfl, rfl⟩
        · rw [if_neg hcond]
          by_cases hemp : existing = []
          · rw [if_pos hemp]
            refine ⟨?_, hlift2⟩
            intro kv hkv
            rcases mem_mapSet hkv with hm | he
            · exact hlift1 kv hm
            · rw [he]
              exact ⟨bs, hbs, rfl⟩
          · rw [if_neg hemp]
            exact ⟨hlift1, hlift2⟩
      | none =>
        dsimp only
        refine ⟨?_, hlift2⟩
        intro kv hkv
        rcases mem_mapSet hkv with hm | he
        · exact hlift1 kv hm
        · rw [he]
          exact ⟨bs, hbs, rfl⟩

theorem groupContentTypes_keys_nodup : ∀ parts : List (JStr × Part),
    ((groupContentTypes parts).1.map Prod.fst).Nodup ∧
    ((groupContentTypes parts).2.map Prod.fst).Nodup := by
  intro parts
  induction parts using List.reverseRecOn with
  | nil => constructor <;> simp [groupContentTypes]
  | append_singleton l bs ih =>
    have hfold : groupContentTypes (l ++ [bs]) = contentTypeStep (groupContentTypes l) bs.2 := by
      simp [groupContentTypes, List.foldl_append]
    rw [hfold]
    simp only [contentTypeStep]
    by_cases hext : extOf bs.2 = []
    · rw [if_pos hext]
      exact ⟨ih.1, mapSet_keys_nodup ih.2 _ _⟩
    · rw [if_neg hext]
      cases hg : mapGet (groupContentTypes l).1 (extOf bs.2) with
      | some existing =>
        dsimp only
        by_cases hcond : existing ≠ [] ∧ existing ≠ bs.2.contentType
        · rw [if_pos hcond]
          exact ⟨ih.1, mapSet_keys_nodup ih.2 _ _⟩
        · rw [if_neg hcond]
          by_cases hemp : existing = []
          · rw [if_pos hemp]
            exact ⟨mapSet_keys_nodup ih.1 _ _, ih.2⟩
          · rw [if_neg hemp]
            exact ih
      | none =>
        dsimp only
        exact ⟨mapSet_keys_nodup ih.1 _ _, ih.2⟩

/-! ### C1: loading relationship documents -/

theorem startsWithSlash_ne_nil {t : JStr} (h : startsWithSlash t = true) : t ≠ [] := by
  cases t with
  | nil => exact absurd h (by decide)
  | cons c cs => exact List.cons_ne_nil c cs

theorem map_backslash_id : ∀ {t : JStr}, ¬ '\\' ∈ t →
    t.map (fun c => if c = '\\' then '/' else c) = t := by
  intro t
  induction t with
  | nil => intro _; rfl
  | cons c cs ih =>
    intro h
    rw [List.map_cons,
      if_neg (fun he : c = '\\' => h (List.mem_cons.mpr (Or.inl he.symm))),
      ih (fun hm => h (List.mem_cons_of_mem c hm))]

theorem resolveRelativeURI_abs {t : JStr} (hsw : startsWithSlash t = true)
    (hbs : ¬ '\\' ∈ t) (s : JStr) : resolveRelativeURI s t = t := by
  simp only [resolveRelativeURI]
  rw [map_backslash_id hbs, if_pos hsw]

theorem applyRelsDoc_cons (source : JStr) (r : Rel) (rest : List Rel) (st : Pkg) :
    applyRelsDoc source (r :: rest) st = applyRelsDoc source rest
      (if r.relType = RelationTypeAasxOrigin ∧ source = [] then
        { (st.addRelationshipWithID source (resolveRelativeURI source r.target) r.relType r.id) with originURI := normalizePathForMap (resolveRelativeURI source r.target) }
      else st.addRelationshipWithID source (resolveRelativeURI source r.target) r.relType r.id) :=
  rfl

theorem applyRelsDoc_grow (source : JStr) :
    ∀ (rels : List Rel) (m : List (JStr × List Rel)) (cur : List Rel) (st : Pkg),
    st.relationships = m ++ [(normalizePathForMap source, cur)] →
    mapGet m (normalizePathForMap source) = none →
    (∀ r ∈ rels, startsWithSlash r.target = true ∧ ¬ '\\' ∈ r.target ∧
      r.targetMode = str "Internal" ∧ ¬(r.relType = RelationTypeAasxOrigin ∧ source = [])) →
    applyRelsDoc source rels st =
      { st with relationships := m ++ [(normalizePathForMap source, cur ++ rels)] } := by
  intro rels
  induction rels with
  | nil =>
    intro m cur st hshape hfresh _
    simp only [applyRelsDoc, List.foldl_nil, List.append_nil]
    rw [← hshape]
  | cons r rest ih =>
    intro m cur st hshape hfresh hr
    rcases hr r (List.mem_cons_self r rest) with ⟨hr1, hr2, hr3, hr4⟩
    rw [applyRelsDoc_cons, resolveRelativeURI_abs hr1 hr2, if_neg hr4]
    have hget : mapGet st.relationships (normalizePathForMap source) = some cur := by
      rw [hshape, mapGet_append, hfresh]
      simp [mapGet]
    have heta : ({ id := r.id, relType := r.relType, target := r.target,
                   targetMode := str "Internal" } : Rel) = r := by
      rw [← hr3]
    have hrel1 : (st.addRelationshipWithID source r.target r.relType r.id).relationships =
        m ++ [(normalizePathForMap source, cur ++ [r])] := by
      simp only [Pkg.addRelationshipWithID]
      rw [hget, Option.getD_some, hshape, mapSet_append_last hfresh, heta]
    rw [ih m (cur ++ [r]) _ hrel1 hfresh (fun x hx => hr x (List.mem_cons_of_mem r hx))]
    rw [List.append_assoc, List.singleton_append]
    rfl

theorem applyRelsDoc_fresh (source : JStr) (rels : List Rel) (st : Pkg)
    (hfresh : mapGet st.relationships (normalizePathForMap source) = none)
    (hrels : rels ≠ [])
    (hr : ∀ r ∈ rels, startsWithSlash r.target = true ∧ ¬ '\\' ∈ r.target ∧
      r.targetMode = str "Internal" ∧ ¬(r.relType = RelationTypeAasxOrigin ∧ source = [])) :
    applyRelsDoc source rels st =
      { st with relationships := st.relationships ++ [(normalizePathForMap source, rels)] } := by
  cases rels with
  | nil => exact absurd rfl hrels
  | cons r rest =>
    rcases hr r (List.mem_cons_self r rest) with ⟨hr1, hr2, hr3, hr4⟩
    rw [applyRelsDoc_cons, resolveRelativeURI_abs hr1 hr2, if_neg hr4]
    have heta : ({ id := r.id, relType := r.relType, target := r.target,
                   targetMode := str "Internal" } : Rel) = r := by
      rw [← hr3]
    have hrel1 : (st.addRelationshipWithID source r.target r.relType r.id).relationships =
        st.relationships ++ [(normalizePathForMap source, [r])] := by
      simp only [Pkg.addRelationshipWithID]
      rw [hfresh, Option.getD_none, List.nil_append, mapSet_keys_of_none hfresh, heta]
    rw [applyRelsDoc_grow source rest st.relationships [r] _ hrel1 hfresh
      (fun x hx => hr x (List.mem_cons_of_mem r hx))]
    rw [List.singleton_append]
    rfl

theorem applyRelsDoc_root (r0 : Rel) (thumbs : List Rel) (st : Pkg)
    (hfresh : mapGet st.relationships [] = none)
    (h0 : r0.relType = RelationTypeAasxOrigin)
    (h0t : startsWithSlash r0.target = true ∧ ¬ '\\' ∈ r0.target ∧
      r0.targetMode = str "Internal")
    (hth : ∀ r ∈ thumbs, startsWithSlash r.target = true ∧ ¬ '\\' ∈ r.target ∧
      r.targetMode = str "Internal" ∧ r.relType = RelationTypeThumbnail) :
    applyRelsDoc [] (r0 :: thumbs) st =
      { st with relationships := st.relationships ++ [([], r0 :: thumbs)],
                originURI := normalizePathForMap r0.target } := by
  have hnil : normalizePathForMap ([] : JStr) = [] := rfl
  rw [applyRelsDoc_cons, resolveRelativeURI_abs h0t.1 h0t.2.1, if_pos ⟨h0, rfl⟩]
  have heta : ({ id := r0.id, relType := r0.relType, target := r0.target,
                 targetMode := str "Internal" } : Rel) = r0 := by
    rw [← h0t.2.2]
  have hfresh' : mapGet st.relationships (normalizePathForMap ([] : JStr)) = none := by
    rw [hnil]
    exact hfresh
  have hrel1 : ({ (st.addRelationshipWithID [] r0.target r0.relType r0.id) with originURI := normalizePathForMap r0.target } : Pkg).relationships =
      st.relationships ++ [(normalizePathForMap ([] : JStr), [r0])] := by
    show (st.addRelationshipWithID [] r0.target r0.relType r0.id).relationships =
      st.relationships ++ [(normalizePathForMap ([] : JStr), [r0])]
    simp only [Pkg.addRelationshipWithID]
    rw [hfresh', Option.getD_none, List.nil_append, mapSet_keys_of_none hfresh', heta]
  have hno : ∀ r ∈ thumbs, startsWithSlash r.target = true ∧ ¬ '\\' ∈ r.target ∧
      r.targetMode = str "Internal" ∧
      ¬(r.relType = RelationTypeAasxOrigin ∧ ([] : JStr) = []) := by
    intro r hrm
    rcases hth r hrm with ⟨a, b, c, d⟩
    refine ⟨a, b, c, fun hx => ?_⟩
    rw [d] at hx
    exact absurd hx.1 (by decide)
  rw [applyRelsDoc_grow [] thumbs st.relationships [r0] _ hrel1 hfresh' hno]
  rw [List.singleton_append, hnil]
  rfl

theorem processRelFiles_skip {name : JStr} (hc : containsSeq (str "_rels/") name = false)
    (data : FileData) (st : Pkg) (rest : List (JStr × FileData)) :
    processRelFiles st ((name, data) :: rest) = processRelFiles st rest := by
  simp only [processRelFiles]
  rw [hc, Bool.false_and]
  rfl

theorem processRelFiles_rels_step {name : JStr} (hc : containsSeq (str "_rels/") name = true)
    (hsuf : (str ".rels").isSuffixOf name = true) (doc : XmlDoc) (st : Pkg)
    (rest : List (JStr × FileData)) :
    processRelFiles st ((name, FileData.xmlDoc doc) :: rest) =
      processRelFiles
        (applyRelsDoc (getSourcePathFromRelsPath name) (parseRelationshipsXml doc) st) rest := by
  simp only [processRelFiles]
  rw [hc, hsuf]
  rfl

theorem processRelFiles_all_skip : ∀ (l : List (JStr × FileData)) (st : Pkg),
    (∀ e ∈ l, containsSeq (str "_rels/") e.1 = false) →
    processRelFiles st l = .ok st := by
  intro l
  induction l with
  | nil => intro st _; rfl
  | cons e rest ih =>
    intro st h
    cases e with
    | mk name data =>
      rw [processRelFiles_skip (h (name, data) (List.mem_cons_self _ _)) data st rest]
      exact ih st (fun x hx => h x (List.mem_cons_of_mem _ hx))

theorem canonicalNE_ne_nil {s : JStr} (h : CanonicalNE s) : s ≠ [] := by
  rcases h with ⟨segs, _, _, hs⟩
  rw [hs]
  exact List.cons_ne_nil _ _

/-- Processing the written relationship documents rebuilds exactly the bucket
list and recovers the origin from the root document. -/
theorem processRelFiles_buckets :
    ∀ (buckets : List (JStr × List Rel)) (st : Pkg) (rest : List (JStr × FileData)),
    (∀ bu ∈ buckets, BucketOk bu) →
    (∀ bu ∈ buckets, mapGet st.relationships bu.1 = none) →
    ((buckets.map Prod.fst).Nodup) →
    processRelFiles st (buckets.map (fun bu =>
        (trimLeadingSlash (getRelsPath bu.1), FileData.xmlDoc (buildRelationshipsXml bu.2))) ++ rest) =
      processRelFiles
        { st with relationships := st.relationships ++ buckets,
                  originURI := if buckets.any (fun bu => bu.1 = []) then str "/aasx/aasx-origin" else st.originURI }
        rest := by
  intro buckets
  induction buckets with
  | nil =>
    intro st rest _ _ _
    rw [List.map_nil, List.nil_append]
    have h1 : ({ st with relationships := st.relationships ++ [], originURI := if ([] : List (JStr × List Rel)).any (fun bu => bu.1 = []) then str "/aasx/aasx-origin" else st.originURI } : Pkg) = st := by
      rw [List.append_nil]
      rfl
    rw [h1]
  | cons bu buckets' ih =>
    intro st rest hok hfresh hnd
    obtain ⟨k, rels⟩ := bu
    rcases hok (k, rels) (List.mem_cons_self _ _) with ⟨hkey, hne, hredge, hroot⟩
    have hok' : ∀ b ∈ buckets', BucketOk b := fun b hb => hok b (List.mem_cons_of_mem _ hb)
    have hnd' : (buckets'.map Prod.fst).Nodup := by
      rw [List.map_cons] at hnd
      exact (List.nodup_cons.mp hnd).2
    have hknotin : k ∉ buckets'.map Prod.fst := by
      rw [List.map_cons] at hnd
      exact (List.nodup_cons.mp hnd).1
    have hparse : ∀ r ∈ rels, r.id ≠ [] ∧ r.relType ≠ [] ∧ r.target ≠ [] ∧
        r.targetMode = str "Internal" := by
      intro r hrm
      rcases hredge r hrm with ⟨a, b2, c, _, e⟩
      exact ⟨a, b2, startsWithSlash_ne_nil c, e⟩
    rw [List.map_cons, List.cons_append]
    rcases hkey with hk | ⟨hcan, hlow, hnis⟩
    · subst hk
      have hc : containsSeq (str "_rels/") (trimLeadingSlash (getRelsPath ([] : JStr))) = true := by
        decide
      have hsuf : (str ".rels").isSuffixOf (trimLeadingSlash (getRelsPath ([] : JStr))) = true := by
        decide
      have hsrc : getSourcePathFromRelsPath (trimLeadingSlash (getRelsPath ([] : JStr))) = [] := by
        decide
      rw [processRelFiles_rels_step hc hsuf, parse_build_rels rels hparse, hsrc]
      rcases hroot rfl with ⟨r0, thumbs, hsplit, h0, h0n, hth⟩
      subst hsplit
      have h0f := hredge r0 (List.mem_cons_self _ _)
      have hthf : ∀ r ∈ thumbs, startsWithSlash r.target = true ∧ ¬ '\\' ∈ r.target ∧
          r.targetMode = str "Internal" ∧ r.relType = RelationTypeThumbnail := by
        intro r hrm
        rcases hredge r (List.mem_cons_of_mem _ hrm) with ⟨_, _, c, d, e⟩
        exact ⟨c, d, e, hth r hrm⟩
      rw [applyRelsDoc_root r0 thumbs st (hfresh ([], r0 :: thumbs) (List.mem_cons_self _ _)) h0
        ⟨h0f.2.2.1, h0f.2.2.2.1, h0f.2.2.2.2⟩ hthf, h0n]
      have hstep2 := ih ({ st with relationships := st.relationships ++ [([], r0 :: thumbs)], originURI := str "/aasx/aasx-origin" } : Pkg) rest hok' (by
        intro b hb
        show mapGet (st.relationships ++ [([], r0 :: thumbs)]) b.1 = none
        rw [mapGet_append, hfresh b (List.mem_cons_of_mem _ hb)]
        have hbne : ¬ ([] : JStr) = b.1 := by
          intro he
          exact hknotin (by rw [he]; exact List.mem_map_of_mem Prod.fst hb)
        simp [mapGet, hbne]) hnd'
      rw [hstep2]
      show processRelFiles { st with relationships := (st.relationships ++ [([], r0 :: thumbs)]) ++ buckets', originURI := if buckets'.any (fun bu => bu.1 = []) then str "/aasx/aasx-origin" else str "/aasx/aasx-origin" } rest = processRelFiles { st with relationships := st.relationships ++ (([], r0 :: thumbs) :: buckets'), originURI := str "/aasx/aasx-origin" } rest
      rw [ite_self, List.append_assoc, List.singleton_append]
    · have hcanfacts := relsName_canonical hcan hlow hnis
      have hnormk : normalizePathForMap k = k := normalizePathForMap_canonical hcan hlow
      have hkne : k ≠ [] := canonicalNE_ne_nil hcan
      rw [processRelFiles_rels_step hcanfacts.1 hcanfacts.2.1, parse_build_rels rels hparse,
        hcanfacts.2.2]
      have hfreshk : mapGet st.relationships (normalizePathForMap k) = none := by
        rw [hnormk]
        exact hfresh (k, rels) (List.mem_cons_self _ _)
      have hnoroot : ∀ r ∈ rels, startsWithSlash r.target = true ∧ ¬ '\\' ∈ r.target ∧
          r.targetMode = str "Internal" ∧ ¬(r.relType = RelationTypeAasxOrigin ∧ k = []) := by
        intro r hrm
        rcases hredge r hrm with ⟨_, _, c, d, e⟩
        exact ⟨c, d, e, fun hx => hkne hx.2⟩
      rw [applyRelsDoc_fresh k rels st hfreshk hne hnoroot, hnormk]
      have hstep2 := ih ({ st with relationships := st.relationships ++ [(k, rels)] } : Pkg)
        rest hok' (by
        intro b hb
        show mapGet (st.relationships ++ [(k, rels)]) b.1 = none
        rw [mapGet_append, hfresh b (List.mem_cons_of_mem _ hb)]
        have hbne : ¬ k = b.1 := by
          intro he
          exact hknotin (by rw [he]; exact List.mem_map_of_mem Prod.fst hb)
        simp [mapGet, hbne]) hnd'
      rw [hstep2]
      have hanyc : (((k, rels) :: buckets').any (fun bu => bu.1 = [])) =
          buckets'.any (fun bu => bu.1 = []) := by
        simp [hkne]
      show processRelFiles { st with relationships := (st.relationships ++ [(k, rels)]) ++ buckets', originURI := if buckets'.any (fun bu => bu.1 = []) then str "/aasx/aasx-origin" else st.originURI } rest = processRelFiles { st with relationships := st.relationships ++ ((k, rels) :: buckets'), originURI := if ((k, rels) :: buckets').any (fun bu => bu.1 = []) then str "/aasx/aasx-origin" else st.originURI } rest
      rw [hanyc, List.append_assoc, List.singleton_append]

/-! ### C1: the written archive's entry table -/

theorem writeRels_fold : ∀ (buckets : List (JStr × List Rel)) (acc : List (JStr × FileData)),
    (∀ bu ∈ buckets, bu.2 ≠ []) →
    (∀ bu ∈ buckets, mapGet acc (trimLeadingSlash (getRelsPath bu.1)) = none) →
    ((buckets.map (fun bu => trimLeadingSlash (getRelsPath bu.1))).Nodup) →
    buckets.foldl (fun fs b =>
      if b.2 = [] then fs
      else mapSet fs (trimLeadingSlash (getRelsPath b.1))
        (FileData.xmlDoc (buildRelationshipsXml b.2))) acc =
      acc ++ buckets.map (fun bu =>
        (trimLeadingSlash (getRelsPath bu.1), FileData.xmlDoc (buildRelationshipsXml bu.2))) := by
  intro buckets
  induction buckets with
  | nil =>
    intro acc _ _ _
    rw [List.foldl_nil, List.map_nil, List.append_nil]
  | cons bu rest ih =>
    intro acc hne hfr hnd
    rw [List.map_cons] at hnd
    have hnotin := (List.nodup_cons.mp hnd).1
    rw [List.foldl_cons, if_neg (hne bu (List.mem_cons_self _ _)),
      mapSet_keys_of_none (hfr bu (List.mem_cons_self _ _)),
      ih (acc ++ [(trimLeadingSlash (getRelsPath bu.1),
          FileData.xmlDoc (buildRelationshipsXml bu.2))])
        (fun b hb => hne b (List.mem_cons_of_mem _ hb))
        (by
          intro b hb
          rw [mapGet_append, hfr b (List.mem_cons_of_mem _ hb)]
          have hne2 : ¬ trimLeadingSlash (getRelsPath bu.1) = trimLeadingSlash (getRelsPath b.1) := by
            intro he
            exact hnotin (by rw [he]; exact List.mem_map_of_mem _ hb)
          simp [mapGet, hne2])
        (List.nodup_cons.mp hnd).2,
      List.map_cons, List.append_assoc, List.singleton_append]

theorem writeParts_fold : ∀ (parts : List (JStr × Part)) (acc : List (JStr × FileData)),
    (∀ b ∈ parts, mapGet acc (trimLeadingSlash (pathFromUri b.2.uri)) = none) →
    ((parts.map (fun b => trimLeadingSlash (pathFromUri b.2.uri))).Nodup) →
    parts.foldl (fun fs p => mapSet fs (trimLeadingSlash (pathFromUri p.2.uri)) p.2.content) acc =
      acc ++ parts.map (fun b => (trimLeadingSlash (pathFromUri b.2.uri), b.2.content)) := by
  intro parts
  induction parts with
  | nil =>
    intro acc _ _
    rw [List.foldl_nil, List.map_nil, List.append_nil]
  | cons b rest ih =>
    intro acc hfr hnd
    rw [List.map_cons] at hnd
    have hnotin := (List.nodup_cons.mp hnd).1
    rw [List.foldl_cons, mapSet_keys_of_none (hfr b (List.mem_cons_self _ _)),
      ih (acc ++ [(trimLeadingSlash (pathFromUri b.2.uri), b.2.content)])
        (by
          intro x hx
          rw [mapGet_append, hfr x (List.mem_cons_of_mem _ hx)]
          have hne2 : ¬ trimLeadingSlash (pathFromUri b.2.uri) =
              trimLeadingSlash (pathFromUri x.2.uri) := by
            intro he
            exact hnotin (by rw [he]; exact List.mem_map_of_mem _ hx)
          simp [mapGet, hne2])
        (List.nodup_cons.mp hnd).2,
      List.map_cons, List.append_assoc, List.singleton_append]

/-- With pairwise-distinct member names, `writeToBytes` produces exactly the
content-types entry, one entry per bucket, and one entry per part. -/
theorem writeToBytes_entries (st : Pkg)
    (hrelsne : ∀ bu ∈ st.relationships, bu.2 ≠ [])
    (hrnodup : (st.relationships.map (fun bu => trimLeadingSlash (getRelsPath bu.1))).Nodup)
    (hrct : ∀ bu ∈ st.relationships, trimLeadingSlash (getRelsPath bu.1) ≠ contentTypePath)
    (hpnodup : (st.parts.map (fun b => trimLeadingSlash (pathFromUri b.2.uri))).Nodup)
    (hpct : ∀ b ∈ st.parts, trimLeadingSlash (pathFromUri b.2.uri) ≠ contentTypePath)
    (hpr : ∀ b ∈ st.parts, ∀ bu ∈ st.relationships,
      trimLeadingSlash (pathFromUri b.2.uri) ≠ trimLeadingSlash (getRelsPath bu.1)) :
    st.writeToBytes = ZipBytes.archive
      ((contentTypePath, FileData.xmlDoc (buildContentTypesXml st.parts)) ::
        (st.relationships.map (fun bu =>
          (trimLeadingSlash (getRelsPath bu.1), FileData.xmlDoc (buildRelationshipsXml bu.2))) ++
         st.parts.map (fun b => (trimLeadingSlash (pathFromUri b.2.uri), b.2.content)))) := by
  simp only [Pkg.writeToBytes]
  have h0 : mapSet ([] : List (JStr × FileData)) contentTypePath
      (FileData.xmlDoc (buildContentTypesXml st.parts)) =
      [(contentTypePath, FileData.xmlDoc (buildContentTypesXml st.parts))] := rfl
  rw [h0, writeRels_fold st.relationships
    [(contentTypePath, FileData.xmlDoc (buildContentTypesXml st.parts))] hrelsne
    (by
      intro bu hbu
      show mapGet [(contentTypePath, FileData.xmlDoc (buildContentTypesXml st.parts))]
        (trimLeadingSlash (getRelsPath bu.1)) = none
      have hne3 : ¬ contentTypePath = trimLeadingSlash (getRelsPath bu.1) :=
        fun he => hrct bu hbu he.symm
      simp [mapGet, hne3])
    hrnodup,
    writeParts_fold st.parts _
    (by
      intro b hb
      rw [mapGet_append]
      have hct : mapGet [(contentTypePath, FileData.xmlDoc (buildContentTypesXml st.parts))]
          (trimLeadingSlash (pathFromUri b.2.uri)) = none := by
        have hne3 : ¬ contentTypePath = trimLeadingSlash (pathFromUri b.2.uri) :=
          fun he => hpct b hb he.symm
        simp [mapGet, hne3]
      rw [hct]
      have hrels : mapGet (st.relationships.map (fun bu =>
          (trimLeadingSlash (getRelsPath bu.1), FileData.xmlDoc (buildRelationshipsXml bu.2))))
          (trimLeadingSlash (pathFromUri b.2.uri)) = none := by
        rw [mapGet_eq_none_iff, List.map_map]
        intro hmem
        rcases List.mem_map.mp hmem with ⟨bu, hbu, he⟩
        exact hpr b hb bu hbu he.symm
      rw [hrels]
      rfl)
    hpnodup,
    List.append_assoc, List.singleton_append]
  rfl

/-! ### C1: part-name and extension lemmas -/

theorem normalizeURI_slash {u : JStr} (h : startsWithSlash u = true) :
    normalizeURI u = normalizePathForMap u := by
  simp only [normalizeURI, pathFromUri]
  rw [if_pos h]

theorem exists_cons_of_slash {u : JStr} (h : startsWithSlash u = true) :
    u = '/' :: trimLeadingSlash u := by
  cases u with
  | nil => exact absurd h (by decide)
  | cons c cs =>
    have hc : c = '/' := by simpa [startsWithSlash] using h
    rw [hc]
    rfl

theorem ensureLeadingSlash_trim {u : JStr} (hsw : startsWithSlash u = true)
    (hnd : startsWithSlash (trimLeadingSlash u) = false) :
    ensureLeadingSlash (trimLeadingSlash u) = u := by
  rw [ensureLeadingSlash_of_false hnd, ← exists_cons_of_slash hsw]

theorem getLast?_trim {u : JStr} (hsw : startsWithSlash u = true)
    (hl : u.getLast? ≠ some '/') : (trimLeadingSlash u).getLast? ≠ some '/' := by
  have hu := exists_cons_of_slash hsw
  cases htr : trimLeadingSlash u with
  | nil => simp
  | cons d ds =>
    rw [htr] at hu
    intro hcon
    apply hl
    rw [hu]
    have hsh : ('/' :: d :: ds : JStr) = ['/'] ++ d :: ds := rfl
    rw [hsh, List.getLast?_append_of_ne_nil _ (List.cons_ne_nil d ds)]
    exact hcon

theorem containsSeq_trim {u : JStr} (hsw : startsWithSlash u = true)
    (h : containsSeq (str "_rels/") u = false) :
    containsSeq (str "_rels/") (trimLeadingSlash u) = false := by
  have hu := exists_cons_of_slash hsw
  rw [hu] at h
  exact containsSeq_false_cons h

theorem baseName_cons_slash {t : JStr} (ht : t ≠ []) (hl : t.getLast? ≠ some '/') :
    baseName ('/' :: t) = baseName t := by
  have hsh : ('/' :: t : JStr) = ['/'] ++ t := rfl
  have hgl : ('/' :: t : JStr).getLast? = t.getLast? := by
    rw [hsh, List.getLast?_append_of_ne_nil _ ht]
  have htt_u : trimTrailingSlash ('/' :: t) = '/' :: t := by
    rw [trimTrailingSlash, if_neg]
    intro hcon
    apply hl
    rw [← hgl]
    exact hcon.2
  have htt_t : trimTrailingSlash t = t := by
    rw [trimTrailingSlash, if_neg]
    intro hcon
    exact hl hcon.2
  simp only [baseName]
  rw [htt_u, htt_t]
  cases hli : lastIndexOf '/' t with
  | none =>
    have hcomp : lastIndexOf '/' ('/' :: t) = some 0 := by
      simp only [lastIndexOf, hli]
      simp
    rw [hcomp]
    rfl
  | some i =>
    have hcomp : lastIndexOf '/' ('/' :: t) = some (i + 1) := by
      simp only [lastIndexOf, hli]
    rw [hcomp]
    rfl

theorem extName_trim {u : JStr} (hsw : startsWithSlash u = true)
    (hl : u.getLast? ≠ some '/') : extName (trimLeadingSlash u) = extName u := by
  have hu := exists_cons_of_slash hsw
  have hrest : trimLeadingSlash u ≠ [] := by
    intro hnil
    apply hl
    rw [hu, hnil]
    rfl
  have hlt : (trimLeadingSlash u).getLast? ≠ some '/' := getLast?_trim hsw hl
  simp only [extName]
  rw [show baseName u = baseName (trimLeadingSlash u) from by
    conv_lhs => rw [hu]
    exact baseName_cons_slash hrest hlt]

/-! ### C1: content-type resolution on reopen -/

theorem ct_resolution (parts : List (JStr × Part))
    (hwf : ∀ b ∈ parts, b.1 = normalizeURI b.2.uri ∧ startsWithSlash b.2.uri = true ∧
      b.2.uri.getLast? ≠ some '/' ∧ b.2.contentType ≠ [])
    (hnodup : (parts.map Prod.fst).Nodup)
    (b : JStr × Part) (hb : b ∈ parts) :
    (if ((mapGet (writtenOverrides parts) (normalizePathForMap b.2.uri)).getD []) = [] then
       (mapGet (writtenDefaultTypes parts)
         (toLowerJS (removeFirstDot (extName (trimLeadingSlash (pathFromUri b.2.uri)))))).getD
         (str "application/octet-stream")
     else ((mapGet (writtenOverrides parts) (normalizePathForMap b.2.uri)).getD [])) =
      b.2.contentType := by
  simp only [pathFromUri]
  rcases hwf b hb with ⟨hbkey, hbsw, hblast, hbct⟩
  have hcts : ∀ x ∈ parts, x.2.contentType ≠ [] := fun x hx => (hwf x hx).2.2.2
  have hparts_nodup : parts.Nodup := List.Nodup.of_map _ hnodup
  have huris_nodup : (parts.map (fun x => x.2.uri)).Nodup := by
    refine List.Nodup.map_on ?_ hparts_nodup
    intro x hx y hy he
    exact nodup_keys_eq hnodup hx hy (by rw [(hwf x hx).1, (hwf y hy).1, he])
  rcases groupContentTypes_spec parts hcts huris_nodup with ⟨hs1, hs2, hs3, hs4⟩
  have hkn := groupContentTypes_keys_nodup parts
  have hnorm_inj : ∀ x ∈ parts, ∀ y ∈ parts,
      normalizePathForMap x.2.uri = normalizePathForMap y.2.uri → x = y := by
    intro x hx y hy he
    refine nodup_keys_eq hnodup hx hy ?_
    rw [(hwf x hx).1, (hwf y hy).1, normalizeURI_slash (hwf x hx).2.1,
      normalizeURI_slash (hwf y hy).2.1, he]
  have hover_mem : ∀ y ∈ (groupContentTypes parts).2, ∃ z ∈ parts, y.1 = z.2.uri := by
    intro y hy
    rcases List.mem_map.mp (hs3 y.1 (mapGet_ne_none_of_mem hy)) with ⟨z, hz, hzy⟩
    exact ⟨z, hz, hzy.symm⟩
  have hos_mem : ∀ y : JStr × JStr,
      y ∈ (sortJS (fun l r : JStr × JStr => jstrLe l.1 r.1) (groupContentTypes parts).2).reverse ↔
      y ∈ (groupContentTypes parts).2 := by
    intro y
    rw [List.mem_reverse]
    exact (sortJS_perm _ _).mem_iff
  have hcT_eq : ∀ k, mapGet (writtenOverrides parts) k =
      (((sortJS (fun l r : JStr × JStr => jstrLe l.1 r.1) (groupContentTypes parts).2).reverse.find?
        (fun o => normalizePathForMap o.1 = k)).map (fun o => o.2)) := by
    intro k
    simp only [writtenOverrides]
    rw [mapGet_foldl_mapSet]
    simp only [mapGet, Option.or_none]
  have hcT_some : ∀ hover : mapGet (groupContentTypes parts).2 b.2.uri = some b.2.contentType,
      mapGet (writtenOverrides parts) (normalizePathForMap b.2.uri) = some b.2.contentType := by
    intro hover
    rw [hcT_eq]
    have hmemr : ((b.2.uri, b.2.contentType) : JStr × JStr) ∈
        (sortJS (fun l r : JStr × JStr => jstrLe l.1 r.1) (groupContentTypes parts).2).reverse :=
      (hos_mem _).mpr (mapGet_eq_some_mem hover)
    have huniq : ∀ y ∈ (sortJS (fun l r : JStr × JStr => jstrLe l.1 r.1)
        (groupContentTypes parts).2).reverse,
        (fun o : JStr × JStr => decide (normalizePathForMap o.1 = normalizePathForMap b.2.uri)) y
          = true → y = (b.2.uri, b.2.contentType) := by
      intro y hy hpy
      have hyG : y ∈ (groupContentTypes parts).2 := (hos_mem y).mp hy
      have hpy' : normalizePathForMap y.1 = normalizePathForMap b.2.uri := of_decide_eq_true hpy
      rcases hover_mem y hyG with ⟨z, hz, hzy⟩
      have hzb : z = b := hnorm_inj z hz b hb (by rw [← hzy]; exact hpy')
      have hy1 : y.1 = b.2.uri := by rw [hzy, hzb]
      have hyget := mapGet_of_mem_nodup hkn.2 hyG
      rw [hy1, hover] at hyget
      injection hyget with hv
      exact Prod.ext hy1 hv.symm
    have hfind := @find?_unique (JStr × JStr)
      (fun o : JStr × JStr => decide (normalizePathForMap o.1 = normalizePathForMap b.2.uri))
      (b.2.uri, b.2.contentType)
      ((sortJS (fun l r : JStr × JStr => jstrLe l.1 r.1) (groupContentTypes parts).2).reverse)
      hmemr (by simp) huniq
    rw [hfind]
    rfl
  have hcT_none : mapGet (groupContentTypes parts).2 b.2.uri = none →
      mapGet (writtenOverrides parts) (normalizePathForMap b.2.uri) = none := by
    intro hnone
    rw [hcT_eq]
    have hnofind : ∀ y ∈ (sortJS (fun l r : JStr × JStr => jstrLe l.1 r.1)
        (groupContentTypes parts).2).reverse,
        ¬ ((fun o : JStr × JStr => decide (normalizePathForMap o.1 = normalizePathForMap b.2.uri)) y
          = true) := by
      intro y hy hpy
      have hyG : y ∈ (groupContentTypes parts).2 := (hos_mem y).mp hy
      have hpy' : normalizePathForMap y.1 = normalizePathForMap b.2.uri := of_decide_eq_true hpy
      rcases hover_mem y hyG with ⟨z, hz, hzy⟩
      have hzb : z = b := hnorm_inj z hz b hb (by rw [← hzy]; exact hpy')
      have hmg : mapGet (groupContentTypes parts).2 y.1 ≠ none := mapGet_ne_none_of_mem hyG
      rw [hzy, hzb, hnone] at hmg
      exact hmg rfl
    rw [List.find?_eq_none.mpr hnofind]
    rfl
  have hdT_eq : ∀ k, mapGet (writtenDefaultTypes parts) k =
      ((((sortJS (fun l r : JStr × JStr => jstrLe l.1 r.1) (groupContentTypes parts).1).reverse ++
        [relsDefaultPair]).find? (fun d => toLowerJS d.1 = k)).map (fun d => d.2)) := by
    intro k
    simp only [writtenDefaultTypes]
    rw [mapGet_foldl_mapSet, List.reverse_cons]
    simp only [mapGet, Option.or_none]
  have hkeyfix : ∀ y ∈ (groupContentTypes parts).1, toLowerJS y.1 = y.1 := by
    intro y hy
    have hne := mapGet_ne_none_of_mem hy
    have hy1ne : y.1 ≠ [] := by
      intro hnil
      rw [hnil] at hne
      exact hne hs2
    rw [hs1 y.1 hy1ne] at hne
    cases hf : parts.find? (fun x => extOf x.2 = y.1) with
    | none =>
      rw [hf] at hne
      exact absurd rfl hne
    | some w =>
      have hw0 := List.find?_some hf
      have hw' : extOf w.2 = y.1 := of_decide_eq_true hw0
      rw [← hw']
      simp only [extOf]
      rw [toLowerJS_idem]
  have hdT_some : ∀ ct', mapGet (groupContentTypes parts).1 (extOf b.2) = some ct' →
      mapGet (writtenDefaultTypes parts) (extOf b.2) = some ct' := by
    intro ct' hG1
    rw [hdT_eq]
    have hplow : toLowerJS (extOf b.2) = extOf b.2 := by
      simp only [extOf]
      rw [toLowerJS_idem]
    have hmemr : ((extOf b.2, ct') : JStr × JStr) ∈
        (sortJS (fun l r : JStr × JStr => jstrLe l.1 r.1) (groupContentTypes parts).1).reverse := by
      rw [List.mem_reverse]
      exact ((sortJS_perm _ _).mem_iff).mpr (mapGet_eq_some_mem hG1)
    have huniq : ∀ y ∈ (sortJS (fun l r : JStr × JStr => jstrLe l.1 r.1)
        (groupContentTypes parts).1).reverse,
        (fun d : JStr × JStr => decide (toLowerJS d.1 = extOf b.2)) y = true →
        y = (extOf b.2, ct') := by
      intro y hy hpy
      have hyG : y ∈ (groupContentTypes parts).1 := by
        rw [List.mem_reverse] at hy
        exact ((sortJS_perm _ _).mem_iff).mp hy
      have hpy' : toLowerJS y.1 = extOf b.2 := of_decide_eq_true hpy
      have hy1 : y.1 = extOf b.2 := by
        rw [← hkeyfix y hyG]
        exact hpy'
      have hyget := mapGet_of_mem_nodup hkn.1 hyG
      rw [hy1, hG1] at hyget
      injection hyget with hv
      exact Prod.ext hy1 hv.symm
    have hfind := @find?_unique (JStr × JStr)
      (fun d : JStr × JStr => decide (toLowerJS d.1 = extOf b.2))
      (extOf b.2, ct')
      ((sortJS (fun l r : JStr × JStr => jstrLe l.1 r.1) (groupContentTypes parts).1).reverse)
      hmemr (by simp [hplow]) huniq
    rw [List.find?_append, hfind]
    rfl
  by_cases hext : extOf b.2 = []
  · have hover := (hs4 b hb).1 hext
    rw [hcT_some hover, Option.getD_some, if_neg hbct]
  · cases hfq : parts.find? (fun x => extOf x.2 = extOf b.2) with
    | none =>
      exfalso
      exact (List.find?_eq_none.mp hfq b hb) (by simp)
    | some q =>
      by_cases hqb : q.2.contentType = b.2.contentType
      · have hnone := ((hs4 b hb).2 hext q hfq).1 hqb
        rw [hcT_none hnone, Option.getD_none, if_pos rfl, extName_trim hbsw hblast]
        have hterm : toLowerJS (removeFirstDot (extName b.2.uri)) = extOf b.2 := rfl
        rw [hterm]
        have hG1 : mapGet (groupContentTypes parts).1 (extOf b.2) = some q.2.contentType := by
          rw [hs1 (extOf b.2) hext, hfq]
          rfl
        rw [hdT_some _ hG1, Option.getD_some, hqb]
      · have hsome2 := ((hs4 b hb).2 hext q hfq).2 hqb
        rw [hcT_some hsome2, Option.getD_some, if_neg hbct]

/-! ### C1: re-registering the written parts -/

theorem registerPart_skip (dT cT : List (JStr × JStr)) (s : Pkg) (name : JStr) (data : FileData)
    (h : name = contentTypePath ∨ containsSeq (str "_rels/") name = true ∨
      name.getLast? = some '/') :
    registerPart dT cT s name data = s := by
  simp only [registerPart]
  rw [if_pos h]

theorem registerPart_store (dT cT : List (JStr × JStr)) (s : Pkg) (name : JStr) (p : Part)
    (hnotct : name ≠ contentTypePath)
    (hnorels : containsSeq (str "_rels/") name = false)
    (hnoslash : name.getLast? ≠ some '/')
    (hpath : ensureLeadingSlash name = p.uri)
    (hres : (if ((mapGet cT (normalizePathForMap p.uri)).getD []) = [] then
        (mapGet dT (toLowerJS (removeFirstDot (extName name)))).getD
          (str "application/octet-stream")
      else ((mapGet cT (normalizePathForMap p.uri)).getD [])) = p.contentType) :
    registerPart dT cT s name p.content =
      { s with parts := mapSet s.parts (normalizePathForMap p.uri) p } := by
  simp only [registerPart]
  rw [if_neg (by
    rintro (h | h | h)
    · exact hnotct h
    · rw [hnorels] at h
      exact absurd h (by decide)
    · exact hnoslash h)]
  rw [hpath, hres]

theorem registerFold_skip (dT cT : List (JStr × JStr)) :
    ∀ (l : List (JStr × FileData)) (s : Pkg),
    (∀ e ∈ l, containsSeq (str "_rels/") e.1 = true) →
    l.foldl (fun s e => registerPart dT cT s e.1 e.2) s = s := by
  intro l
  induction l with
  | nil => intro s _; rfl
  | cons e rest ih =>
    intro s h
    rw [List.foldl_cons, registerPart_skip dT cT s e.1 e.2
      (Or.inr (Or.inl (h e (List.mem_cons_self _ _))))]
    exact ih s (fun x hx => h x (List.mem_cons_of_mem _ hx))

theorem registerFold_parts (dT cT : List (JStr × JStr)) :
    ∀ (parts : List (JStr × Part)) (s : Pkg),
    (∀ b ∈ parts,
      trimLeadingSlash (pathFromUri b.2.uri) ≠ contentTypePath ∧
      containsSeq (str "_rels/") (trimLeadingSlash (pathFromUri b.2.uri)) = false ∧
      (trimLeadingSlash (pathFromUri b.2.uri)).getLast? ≠ some '/' ∧
      ensureLeadingSlash (trimLeadingSlash (pathFromUri b.2.uri)) = b.2.uri ∧
      normalizePathForMap b.2.uri = b.1 ∧
      (if ((mapGet cT (normalizePathForMap b.2.uri)).getD []) = [] then
        (mapGet dT (toLowerJS (removeFirstDot (extName (trimLeadingSlash (pathFromUri b.2.uri)))))).getD
          (str "application/octet-stream")
      else ((mapGet cT (normalizePathForMap b.2.uri)).getD [])) = b.2.contentType) →
    (∀ b ∈ parts, mapGet s.parts b.1 = none) →
    ((parts.map Prod.fst).Nodup) →
    (parts.map (fun b => (trimLeadingSlash (pathFromUri b.2.uri), b.2.content))).foldl
      (fun s e => registerPart dT cT s e.1 e.2) s =
      { s with parts := s.parts ++ parts } := by
  intro parts
  induction parts with
  | nil =>
    intro s _ _ _
    rw [List.map_nil, List.foldl_nil, List.append_nil]
  | cons b rest ih =>
    intro s hfacts hfresh hnd
    rcases hfacts b (List.mem_cons_self _ _) with ⟨h1, h2, h3, h4, h5, h6⟩
    rw [List.map_cons] at hnd
    rw [List.map_cons, List.foldl_cons,
      registerPart_store dT cT s _ b.2 h1 h2 h3 h4 h6, h5,
      mapSet_keys_of_none (hfresh b (List.mem_cons_self _ _)),
      ih _ (fun x hx => hfacts x (List.mem_cons_of_mem _ hx))
        (by
          intro x hx
          show mapGet (s.parts ++ [(b.1, b.2)]) x.1 = none
          rw [mapGet_append, hfresh x (List.mem_cons_of_mem _ hx)]
          have hne2 : ¬ b.1 = x.1 := by
            intro he
            exact (List.nodup_cons.mp hnd).1 (by rw [he]; exact List.mem_map_of_mem _ hx)
          simp [mapGet, hne2])
        (List.nodup_cons.mp hnd).2,
      List.append_assoc, List.singleton_append]

/-! ### C1: consequences of the invariant -/

theorem key_canonical {st : Pkg} (hinv : Inv st) {b : JStr × Part} (hb : b ∈ st.parts) :
    CanonicalNE b.1 ∧ toLowerJS b.1 = b.1 := by
  rcases hinv.parts_wf b hb with ⟨hkey, hsw, _, _, _, _, _, hroot, _, _⟩
  have hkey2 : b.1 = toLowerJS (normalizePath (ensureLeadingSlash b.2.uri)) := by
    rw [hkey, normalizeURI_slash hsw]
    simp only [normalizePathForMap]
    rw [if_neg (startsWithSlash_ne_nil hsw)]
  rcases normalizePath_shape (ensureLeadingSlash b.2.uri) with ⟨stack, hstack, hshape⟩
  constructor
  · refine ⟨stack.map toLowerJS, ?_, ?_, ?_⟩
    · intro hnil
      have hstacknil : stack = [] := by simpa using hnil
      apply hroot
      rw [hkey2, hshape, hstacknil]
      decide
    · intro g hg
      rcases List.mem_map.mp hg with ⟨g0, hg0, hge⟩
      rcases hstack g0 hg0 with ⟨hg1, hg2, hg3, hg4⟩
      refine ⟨?_, ?_, ?_, ?_⟩
      · rw [← hge]
        exact fun hx => hg1 (toLowerJS_eq_nil.mp hx)
      · rw [← hge]
        exact fun hx => hg2 (toLowerJS_eq_dot.mp hx)
      · rw [← hge]
        exact fun hx => hg3 (toLowerJS_eq_dotdot.mp hx)
      · rw [← hge]
        intro hx
        rcases List.mem_map.mp hx with ⟨c, hc, hlc⟩
        refine hg4 ?_
        rw [← toLower_slash hlc]
        exact hc
    · rw [hkey2, hshape]
      show toLowerJS ('/' :: joinSlash stack) = '/' :: joinSlash (stack.map toLowerJS)
      simp only [toLowerJS, List.map_cons]
      rw [toLower_slash_self]
      have hjs := joinSlash_toLowerJS stack
      simp only [toLowerJS] at hjs
      rw [hjs]
  · rw [hkey2]
    exact toLowerJS_idem _

theorem relsName_retract {st : Pkg} (hinv : Inv st) {bu : JStr × List Rel}
    (hbu : bu ∈ st.relationships) :
    getSourcePathFromRelsPath (trimLeadingSlash (getRelsPath bu.1)) = bu.1 := by
  rcases (hinv.rels_wf bu hbu).1 with hk | ⟨hc, hl, hn⟩
  · rw [hk]
    decide
  · exact (relsName_canonical hc hl hn).2.2

theorem relsName_contains {st : Pkg} (hinv : Inv st) {bu : JStr × List Rel}
    (hbu : bu ∈ st.relationships) :
    containsSeq (str "_rels/") (trimLeadingSlash (getRelsPath bu.1)) = true := by
  rcases (hinv.rels_wf bu hbu).1 with hk | ⟨hc, hl, hn⟩
  · rw [hk]
    decide
  · exact (relsName_canonical hc hl hn).1

theorem relsNames_nodup {st : Pkg} (hinv : Inv st) :
    (st.relationships.map (fun bu => trimLeadingSlash (getRelsPath bu.1))).Nodup := by
  refine List.Nodup.map_on ?_ (List.Nodup.of_map _ hinv.rels_nodup)
  intro x hx y hy he
  have hkeq : x.1 = y.1 := by
    rw [← relsName_retract hinv hx, ← relsName_retract hinv hy, he]
  exact nodup_keys_eq hinv.rels_nodup hx hy hkeq

theorem bucketOk_of_inv {st : Pkg} (hinv : Inv st) : ∀ bu ∈ st.relationships, BucketOk bu := by
  intro bu hbu
  rcases hinv.rels_wf bu hbu with ⟨hkey, hne, hredge⟩
  refine ⟨hkey, hne, ?_, ?_⟩
  · intro r hr
    rcases hredge r hr with ⟨htm, hid, hty, hsw, hbs, _⟩
    exact ⟨hid, hty, hsw, hbs, htm⟩
  · intro hknil
    have hget : mapGet st.relationships [] = some bu.2 := by
      rw [← hknil]
      exact mapGet_of_mem_nodup hinv.rels_nodup hbu
    exact hinv.root_bucket bu.2 hget

theorem any_root_of_get {m : List (JStr × List Rel)} (h : mapGet m [] ≠ none) :
    (m.any (fun bu => bu.1 = [])) = true := by
  rw [List.any_eq_true]
  have hmem : ([] : JStr) ∈ m.map Prod.fst := by
    by_contra hc
    exact h (mapGet_eq_none_iff.mpr hc)
  rcases List.mem_map.mp hmem with ⟨bu, hbu, hk⟩
  exact ⟨bu, hbu, by simp [hk]⟩

theorem partTrimNames_nodup {st : Pkg} (hinv : Inv st) :
    (st.parts.map (fun b => trimLeadingSlash (pathFromUri b.2.uri))).Nodup := by
  refine List.Nodup.map_on ?_ (List.Nodup.of_map _ hinv.parts_nodup)
  intro x hx y hy he
  have hux : x.2.uri = y.2.uri := by
    rw [exists_cons_of_slash (hinv.parts_wf x hx).2.1,
      exists_cons_of_slash (hinv.parts_wf y hy).2.1]
    simp only [pathFromUri] at he
    rw [he]
  refine nodup_keys_eq hinv.parts_nodup hx hy ?_
  rw [(hinv.parts_wf x hx).1, (hinv.parts_wf y hy).1, hux]

/-! ### C1: the reconstruction theorem -/

/-- Re-opening the bytes written for an invariant-satisfying package restores
every field except the relationship-id counter. -/
theorem openFromBytes_writeToBytes (st : Pkg) (hinv : Inv st) :
    openFromBytes st.writeToBytes = Except.ok { st with nextRelID := 1 } := by
  have hpw := hinv.parts_wf
  have hcts : ∀ x ∈ st.parts, x.2.contentType ≠ [] :=
    fun x hx => (hpw x hx).2.2.2.2.2.2.2.2.2
  have huris_nodup : (st.parts.map (fun x => x.2.uri)).Nodup := by
    refine List.Nodup.map_on ?_ (List.Nodup.of_map _ hinv.parts_nodup)
    intro x hx y hy he
    exact nodup_keys_eq hinv.parts_nodup hx hy (by rw [(hpw x hx).1, (hpw y hy).1, he])
  have hs2 := (groupContentTypes_spec st.parts hcts huris_nodup).2.1
  have hprov := groupContentTypes_provenance st.parts
  have hds : ∀ d ∈ sortJS (fun l r : JStr × JStr => jstrLe l.1 r.1)
      (groupContentTypes st.parts).1, d.1 ≠ [] ∧ d.2 ≠ [] := by
    intro d hd
    have hdG : d ∈ (groupContentTypes st.parts).1 := ((sortJS_perm _ _).mem_iff).mp hd
    constructor
    · intro hnil
      have hmg := mapGet_ne_none_of_mem hdG
      rw [hnil] at hmg
      exact hmg hs2
    · rcases hprov.1 d hdG with ⟨bb, hbb, hval⟩
      rw [hval]
      exact hcts bb hbb
  have hos : ∀ o ∈ sortJS (fun l r : JStr × JStr => jstrLe l.1 r.1)
      (groupContentTypes st.parts).2, o.1 ≠ [] ∧ o.2 ≠ [] := by
    intro o ho
    have hoG : o ∈ (groupContentTypes st.parts).2 := ((sortJS_perm _ _).mem_iff).mp ho
    rcases hprov.2 o hoG with ⟨bb, hbb, hk, hval⟩
    constructor
    · rw [hk]
      exact startsWithSlash_ne_nil (hpw bb hbb).2.1
    · rw [hval]
      exact hcts bb hbb
  have hpcontains : ∀ b ∈ st.parts,
      containsSeq (str "_rels/") (trimLeadingSlash (pathFromUri b.2.uri)) = false := by
    intro b hb
    exact containsSeq_trim (hpw b hb).2.1
      (containsSeq_false_of_toLower (by decide) (hpw b hb).2.2.2.2.1)
  have hwrite := writeToBytes_entries st
    (fun bu hbu => (hinv.rels_wf bu hbu).2.1)
    (relsNames_nodup hinv)
    (by
      intro bu hbu he
      have hcontains := relsName_contains hinv hbu
      rw [he] at hcontains
      exact absurd hcontains (by decide))
    (partTrimNames_nodup hinv)
    (fun b hb => (hpw b hb).2.2.2.2.2.2.1)
    (by
      intro b hb bu hbu he
      have hcontains := relsName_contains hinv hbu
      rw [← he, hpcontains b hb] at hcontains
      exact absurd hcontains (by decide))
  have hmg : mapGet ((contentTypePath, FileData.xmlDoc (buildContentTypesXml st.parts)) :: (st.relationships.map (fun bu => (trimLeadingSlash (getRelsPath bu.1), FileData.xmlDoc (buildRelationshipsXml bu.2))) ++ st.parts.map (fun b => (trimLeadingSlash (pathFromUri b.2.uri), b.2.content)))) contentTypePath =
      some (FileData.xmlDoc (buildContentTypesXml st.parts)) := by
    simp [mapGet]
  have hload : loadContentTypes ((contentTypePath, FileData.xmlDoc (buildContentTypesXml st.parts)) :: (st.relationships.map (fun bu => (trimLeadingSlash (getRelsPath bu.1), FileData.xmlDoc (buildRelationshipsXml bu.2))) ++ st.parts.map (fun b => (trimLeadingSlash (pathFromUri b.2.uri), b.2.content)))) =
      Except.ok (writtenDefaultTypes st.parts, writtenOverrides st.parts) := by
    simp only [loadContentTypes]
    rw [hmg]
    show Except.ok ((parseContentTypesXml (buildContentTypesXml st.parts)).defaults.foldl (fun m d => mapSet m (toLowerJS d.1) d.2) [], (parseContentTypesXml (buildContentTypesXml st.parts)).overrides.foldl (fun m o => mapSet m (normalizePathForMap o.1) o.2) []) = Except.ok (writtenDefaultTypes st.parts, writtenOverrides st.parts)
    rw [parse_build_ct st.parts hds hos]
    rfl
  have hprocess : processRelFiles emptyBase ((contentTypePath, FileData.xmlDoc (buildContentTypesXml st.parts)) :: (st.relationships.map (fun bu => (trimLeadingSlash (getRelsPath bu.1), FileData.xmlDoc (buildRelationshipsXml bu.2))) ++ st.parts.map (fun b => (trimLeadingSlash (pathFromUri b.2.uri), b.2.content)))) = Except.ok ({ emptyBase with relationships := emptyBase.relationships ++ st.relationships, originURI := if st.relationships.any (fun bu => bu.1 = []) then str "/aasx/aasx-origin" else emptyBase.originURI } : Pkg) := by
    rw [processRelFiles_skip (by decide : containsSeq (str "_rels/") contentTypePath = false)]
    rw [processRelFiles_buckets st.relationships emptyBase
      (st.parts.map (fun b => (trimLeadingSlash (pathFromUri b.2.uri), b.2.content)))
      (bucketOk_of_inv hinv) (fun bu _ => rfl) hinv.rels_nodup]
    exact processRelFiles_all_skip _ _ (by
      intro e he
      rcases List.mem_map.mp he with ⟨b, hb, hbe⟩
      rw [← hbe]
      exact hpcontains b hb)
  have hfacts : ∀ b ∈ st.parts,
      trimLeadingSlash (pathFromUri b.2.uri) ≠ contentTypePath ∧
      containsSeq (str "_rels/") (trimLeadingSlash (pathFromUri b.2.uri)) = false ∧
      (trimLeadingSlash (pathFromUri b.2.uri)).getLast? ≠ some '/' ∧
      ensureLeadingSlash (trimLeadingSlash (pathFromUri b.2.uri)) = b.2.uri ∧
      normalizePathForMap b.2.uri = b.1 ∧
      (if ((mapGet (writtenOverrides st.parts) (normalizePathForMap b.2.uri)).getD []) = [] then
        (mapGet (writtenDefaultTypes st.parts) (toLowerJS (removeFirstDot (extName (trimLeadingSlash (pathFromUri b.2.uri)))))).getD
          (str "application/octet-stream")
      else ((mapGet (writtenOverrides st.parts) (normalizePathForMap b.2.uri)).getD [])) =
        b.2.contentType := by
    intro b hb
    rcases hpw b hb with ⟨hk, hsw, hswr, hlast, _, _, hctp, _, _, _⟩
    refine ⟨hctp, hpcontains b hb, getLast?_trim hsw hlast, ensureLeadingSlash_trim hsw hswr,
      ?_, ?_⟩
    · rw [hk, normalizeURI_slash hsw]
    · exact ct_resolution st.parts
        (fun x hx => ⟨(hpw x hx).1, (hpw x hx).2.1, (hpw x hx).2.2.2.1,
          (hpw x hx).2.2.2.2.2.2.2.2.2⟩)
        hinv.parts_nodup b hb
  have hcore : openFromBytesCore ((contentTypePath, FileData.xmlDoc (buildContentTypesXml st.parts)) :: (st.relationships.map (fun bu => (trimLeadingSlash (getRelsPath bu.1), FileData.xmlDoc (buildRelationshipsXml bu.2))) ++ st.parts.map (fun b => (trimLeadingSlash (pathFromUri b.2.uri), b.2.content)))) = Except.ok { st with nextRelID := 1 } := by
    simp only [openFromBytesCore]
    rw [hload, hprocess]
    show (if (({ emptyBase with relationships := emptyBase.relationships ++ st.relationships, originURI := if st.relationships.any (fun bu => bu.1 = []) then str "/aasx/aasx-origin" else emptyBase.originURI } : Pkg)).originURI = [] then Except.error ErrNoOriginPart else Except.ok (List.foldl (fun s e => registerPart (writtenDefaultTypes st.parts) (writtenOverrides st.parts) s e.1 e.2) ({ emptyBase with relationships := emptyBase.relationships ++ st.relationships, originURI := if st.relationships.any (fun bu => bu.1 = []) then str "/aasx/aasx-origin" else emptyBase.originURI } : Pkg) ((contentTypePath, FileData.xmlDoc (buildContentTypesXml st.parts)) :: (st.relationships.map (fun bu => (trimLeadingSlash (getRelsPath bu.1), FileData.xmlDoc (buildRelationshipsXml bu.2))) ++ st.parts.map (fun b => (trimLeadingSlash (pathFromUri b.2.uri), b.2.content)))))) = Except.ok { st with nextRelID := 1 }
    have horig : (({ emptyBase with relationships := emptyBase.relationships ++ st.relationships, originURI := if st.relationships.any (fun bu => bu.1 = []) then str "/aasx/aasx-origin" else emptyBase.originURI } : Pkg)).originURI = str "/aasx/aasx-origin" := by
      show (if st.relationships.any (fun bu => bu.1 = []) then str "/aasx/aasx-origin" else emptyBase.originURI) = str "/aasx/aasx-origin"
      rw [any_root_of_get hinv.root_exists]
      rfl
    rw [horig, if_neg (by decide : ¬ (str "/aasx/aasx-origin" = ([] : JStr)))]
    simp only [List.foldl_cons, List.foldl_append]
    rw [registerPart_skip (writtenDefaultTypes st.parts) (writtenOverrides st.parts) ({ emptyBase with relationships := emptyBase.relationships ++ st.relationships, originURI := if st.relationships.any (fun bu => bu.1 = []) then str "/aasx/aasx-origin" else emptyBase.originURI } : Pkg)
      contentTypePath (FileData.xmlDoc (buildContentTypesXml st.parts)) (Or.inl rfl)]
    rw [registerFold_skip (writtenDefaultTypes st.parts) (writtenOverrides st.parts)
      (st.relationships.map (fun bu => (trimLeadingSlash (getRelsPath bu.1), FileData.xmlDoc (buildRelationshipsXml bu.2)))) _ (by
      intro e he
      rcases List.mem_map.mp he with ⟨bu, hbu, hbe⟩
      rw [← hbe]
      exact relsName_contains hinv hbu)]
    rw [registerFold_parts (writtenDefaultTypes st.parts) (writtenOverrides st.parts) st.parts
      ({ emptyBase with relationships := emptyBase.relationships ++ st.relationships, originURI := if st.relationships.any (fun bu => bu.1 = []) then str "/aasx/aasx-origin" else emptyBase.originURI } : Pkg) hfacts (fun b _ => rfl) hinv.parts_nodup]
    have hfinal : ({ ({ emptyBase with relationships := emptyBase.relationships ++ st.relationships, originURI := if st.relationships.any (fun bu => bu.1 = []) then str "/aasx/aasx-origin" else emptyBase.originURI } : Pkg) with parts := (({ emptyBase with relationships := emptyBase.relationships ++ st.relationships, originURI := if st.relationships.any (fun bu => bu.1 = []) then str "/aasx/aasx-origin" else emptyBase.originURI } : Pkg)).parts ++ st.parts } : Pkg) =
        { st with nextRelID := 1 } := by
      show ({ parts := [] ++ st.parts, relationships := [] ++ st.relationships, originURI := if st.relationships.any (fun bu => bu.1 = []) then str "/aasx/aasx-origin" else emptyBase.originURI, nextRelID := 1 } : Pkg) = { st with nextRelID := 1 }
      rw [List.nil_append, List.nil_append, any_root_of_get hinv.root_exists]
      show ({ parts := st.parts, relationships := st.relationships, originURI := str "/aasx/aasx-origin", nextRelID := 1 } : Pkg) = { st with nextRelID := 1 }
      rw [← hinv.origin]
    rw [hfinal]
  rw [hwrite]
  simp only [openFromBytes, unzipSync]
  rw [hcore]

/-! ### C1: establishing and preserving the invariant -/

theorem inv_fresh : Inv freshPkg := by
  refine ⟨?_, ?_, ?_, ?_, ?_, ?_, ?_⟩
  · decide
  · decide
  · decide
  · intro bu hbu
    have hrels : freshPkg.relationships =
        [([], [{ id := str "R00000001", relType := RelationTypeAasxOrigin,
                 target := originPath, targetMode := str "Internal" }])] := by
      decide
    rw [hrels] at hbu
    have hbu2 := List.mem_singleton.mp hbu
    subst hbu2
    refine ⟨Or.inl rfl, by decide, ?_⟩
    intro r hr
    have hr2 := List.mem_singleton.mp hr
    subst hr2
    refine ⟨rfl, by decide, by decide, by decide, by decide, by decide⟩
  · decide
  · intro rels h
    have hrels : mapGet freshPkg.relationships [] =
        some [{ id := str "R00000001", relType := RelationTypeAasxOrigin,
                target := originPath, targetMode := str "Internal" }] := by
      decide
    rw [hrels] at h
    injection h with h2
    refine ⟨_, [], h2.symm, by decide, by decide, ?_⟩
    intro r hr
    exact absurd hr (List.not_mem_nil r)
  · decide

theorem inv_addRelationshipWithID {st : Pkg} (hinv : Inv st) {src tgt ty i : JStr}
    (hK : normalizePathForMap src = [] ∨
      (CanonicalNE (normalizePathForMap src) ∧
       toLowerJS (normalizePathForMap src) = normalizePathForMap src ∧
       containsSeq (str "_rels/") (normalizePathForMap src) = false))
    (hi : i ≠ []) (hty : ty ≠ [])
    (ht : startsWithSlash tgt = true ∧ ¬ '\\' ∈ tgt ∧
      mapGet st.parts (normalizePathForMap tgt) ≠ none)
    (hroot : normalizePathForMap src = [] → ty = RelationTypeThumbnail) :
    Inv (st.addRelationshipWithID src tgt ty i) := by
  refine ⟨hinv.origin, hinv.parts_wf, hinv.parts_nodup, ?_, ?_, ?_, ?_⟩
  · intro bu hbu
    have hbu' : bu ∈ mapSet st.relationships (normalizePathForMap src)
        (((mapGet st.relationships (normalizePathForMap src)).getD []) ++
          [{ id := i, relType := ty, target := tgt, targetMode := str "Internal" }]) := hbu
    rcases mem_mapSet hbu' with hold | hnew
    · rcases hinv.rels_wf bu hold with ⟨h1, h2, h3⟩
      exact ⟨h1, h2, h3⟩
    · subst hnew
      refine ⟨hK, ?_, ?_⟩
      · intro hc
        rcases List.append_eq_nil.mp hc with ⟨_, hc2⟩
        exact absurd hc2 (List.cons_ne_nil _ _)
      · intro r hr
        rcases List.mem_append.mp hr with hro | hrn
        · cases hg : mapGet st.relationships (normalizePathForMap src) with
          | none =>
            rw [hg] at hro
            exact absurd hro (List.not_mem_nil r)
          | some old =>
            rw [hg] at hro
            exact (hinv.rels_wf _ (mapGet_eq_some_mem hg)).2.2 r hro
        · have hr2 := List.mem_singleton.mp hrn
          subst hr2
          exact ⟨rfl, hi, hty, ht.1, ht.2.1, ht.2.2⟩
  · exact mapSet_keys_nodup hinv.rels_nodup _ _
  · intro rels h
    rcases hK with hnil | ⟨hc, _, _⟩
    · have h2 : mapGet (mapSet st.relationships (normalizePathForMap src)
          (((mapGet st.relationships (normalizePathForMap src)).getD []) ++
            [{ id := i, relType := ty, target := tgt, targetMode := str "Internal" }])) []
          = some rels := h
      rw [hnil, mapGet_set_self] at h2
      injection h2 with hx
      cases hg : mapGet st.relationships [] with
      | none => exact absurd hg hinv.root_exists
      | some old =>
        rcases hinv.root_bucket old hg with ⟨r0, thumbs, hsh, h0, h0n, hth⟩
        rw [hg, Option.getD_some, hsh, List.cons_append] at hx
        refine ⟨r0, thumbs ++ [{ id := i, relType := ty, target := tgt, targetMode := str "Internal" }], hx.symm, h0, h0n, ?_⟩
        intro r hr
        rcases List.mem_append.mp hr with hro | hrn
        · exact hth r hro
        · have hr2 := List.mem_singleton.mp hrn
          subst hr2
          exact hroot hnil
    · have hKne : normalizePathForMap src ≠ [] := canonicalNE_ne_nil hc
      have heq : mapGet (mapSet st.relationships (normalizePathForMap src)
          (((mapGet st.relationships (normalizePathForMap src)).getD []) ++
            [{ id := i, relType := ty, target := tgt, targetMode := str "Internal" }])) [] =
          mapGet st.relationships [] :=
        mapGet_set_ne _ _ _ _ (fun he => hKne he.symm)
      have h2 : mapGet (mapSet st.relationships (normalizePathForMap src)
          (((mapGet st.relationships (normalizePathForMap src)).getD []) ++
            [{ id := i, relType := ty, target := tgt, targetMode := str "Internal" }])) []
          = some rels := h
      rw [heq] at h2
      exact hinv.root_bucket rels h2
  · rcases hK with hnil | ⟨hc, _, _⟩
    · show mapGet (mapSet st.relationships (normalizePathForMap src)
        (((mapGet st.relationships (normalizePathForMap src)).getD []) ++
          [{ id := i, relType := ty, target := tgt, targetMode := str "Internal" }])) [] ≠ none
      rw [hnil, mapGet_set_self]
      exact Option.some_ne_none _
    · have hKne : normalizePathForMap src ≠ [] := canonicalNE_ne_nil hc
      show mapGet (mapSet st.relationships (normalizePathForMap src)
        (((mapGet st.relationships (normalizePathForMap src)).getD []) ++
          [{ id := i, relType := ty, target := tgt, targetMode := str "Internal" }])) [] ≠ none
      rw [mapGet_set_ne _ _ _ _ (fun he => hKne he.symm)]
      exact hinv.root_exists

theorem inv_nextRelID {st : Pkg} (hinv : Inv st) (n : Nat) : Inv { st with nextRelID := n } :=
  ⟨hinv.origin, hinv.parts_wf, hinv.parts_nodup, hinv.rels_wf, hinv.rels_nodup,
   hinv.root_bucket, hinv.root_exists⟩

theorem inv_putPart {st : Pkg} (hinv : Inv st) {uri ct : JStr} {content : List Nat}
    (hv : validOp st (Op.putPart uri ct content)) :
    Inv (st.PutPart uri ct content).2 := by
  rcases hv with ⟨hsw, hswr, hlast, hct, hclow, hcnorm, hctp, hnroot, hbs⟩
  simp only [Pkg.PutPart]
  cases hg : mapGet st.parts (normalizeURI uri) with
  | some part0 =>
    dsimp only
    have hold := hinv.parts_wf _ (mapGet_eq_some_mem hg)
    refine ⟨hinv.origin, ?_, mapSet_keys_nodup hinv.parts_nodup _ _, ?_, hinv.rels_nodup,
      hinv.root_bucket, hinv.root_exists⟩
    · intro b hb
      rcases mem_mapSet hb with hbo | hbn
      · exact hinv.parts_wf b hbo
      · subst hbn
        exact ⟨hold.1, hold.2.1, hold.2.2.1, hold.2.2.2.1, hold.2.2.2.2.1, hold.2.2.2.2.2.1,
          hold.2.2.2.2.2.2.1, hold.2.2.2.2.2.2.2.1, hold.2.2.2.2.2.2.2.2.1, hct⟩
    · intro bu hbu
      rcases hinv.rels_wf bu hbu with ⟨k1, k2, k3⟩
      refine ⟨k1, k2, ?_⟩
      intro r hr
      rcases k3 r hr with ⟨m1, m2, m3, m4, m5, m6⟩
      exact ⟨m1, m2, m3, m4, m5, mapGet_set_ne_none m6 _ _⟩
  | none =>
    dsimp only
    refine ⟨hinv.origin, ?_, mapSet_keys_nodup hinv.parts_nodup _ _, ?_, hinv.rels_nodup,
      hinv.root_bucket, hinv.root_exists⟩
    · intro b hb
      rcases mem_mapSet hb with hbo | hbn
      · exact hinv.parts_wf b hbo
      · subst hbn
        exact ⟨rfl, hsw, hswr, hlast, hclow, hcnorm, hctp, hnroot, hbs, hct⟩
    · intro bu hbu
      rcases hinv.rels_wf bu hbu with ⟨k1, k2, k3⟩
      refine ⟨k1, k2, ?_⟩
      intro r hr
      rcases k3 r hr with ⟨m1, m2, m3, m4, m5, m6⟩
      exact ⟨m1, m2, m3, m4, m5, mapGet_set_ne_none m6 _ _⟩

theorem canonical_origin : CanonicalNE (str "/aasx/aasx-origin") ∧
    toLowerJS (str "/aasx/aasx-origin") = str "/aasx/aasx-origin" ∧
    containsSeq (str "_rels/") (str "/aasx/aasx-origin") = false := by
  refine ⟨⟨[str "aasx", str "aasx-origin"], by decide, ?_, by decide⟩, by decide, by decide⟩
  intro g hg
  rcases List.mem_cons.1 hg with h | h
  · subst h
    exact ⟨by decide, by decide, by decide, by decide⟩
  · rcases List.mem_cons.1 h with h2 | h2
    · subst h2
      exact ⟨by decide, by decide, by decide, by decide⟩
    · exact absurd h2 (List.not_mem_nil g)

theorem part_target_facts {st : Pkg} (hinv : Inv st) {uri : JStr} {part : Part}
    (hfind : st.FindPart uri = some part) :
    startsWithSlash part.uri = true ∧ ¬ '\\' ∈ part.uri ∧
      mapGet st.parts (normalizePathForMap part.uri) ≠ none := by
  have hb : ((normalizeURI uri, part) : JStr × Part) ∈ st.parts := mapGet_eq_some_mem hfind
  have hw := hinv.parts_wf _ hb
  have h1 : normalizeURI uri = normalizeURI part.uri := hw.1
  have h2 : startsWithSlash part.uri = true := hw.2.1
  refine ⟨h2, hw.2.2.2.2.2.2.2.2.1, ?_⟩
  rw [← normalizeURI_slash h2, ← h1]
  exact mapGet_ne_none_of_mem hb

theorem spec_key_facts {st : Pkg} (hinv : Inv st) {uri : JStr} {part : Part}
    (hfind : st.FindPart uri = some part) :
    CanonicalNE (normalizePathForMap (pathFromUri part.uri)) ∧
      toLowerJS (normalizePathForMap (pathFromUri part.uri)) =
        normalizePathForMap (pathFromUri part.uri) ∧
      containsSeq (str "_rels/") (normalizePathForMap (pathFromUri part.uri)) = false := by
  have hb : ((normalizeURI uri, part) : JStr × Part) ∈ st.parts := mapGet_eq_some_mem hfind
  have hw := hinv.parts_wf _ hb
  have h1 : normalizeURI uri = normalizeURI part.uri := hw.1
  have h2 : startsWithSlash part.uri = true := hw.2.1
  have hkeyeq : normalizePathForMap (pathFromUri part.uri) = normalizeURI uri := by
    show normalizePathForMap part.uri = normalizeURI uri
    rw [← normalizeURI_slash h2, h1]
  rw [hkeyeq]
  have hcan := key_canonical hinv hb
  exact ⟨hcan.1, hcan.2, hw.2.2.2.2.2.1⟩

theorem relIdFor_ne_nil (n : Nat) : relIdFor n ≠ [] := List.cons_ne_nil 'R' _

theorem inv_makeSpec {st : Pkg} (hinv : Inv st) {uri : JStr} {part : Part}
    (hfind : st.FindPart uri = some part) : Inv (st.MakeSpec part) := by
  simp only [Pkg.MakeSpec]
  by_cases hhas : st.hasRelationship st.originURI (pathFromUri part.uri) RelationTypeAasxSpec
  · rw [if_pos hhas]
    exact hinv
  · rw [if_neg hhas]
    simp only [Pkg.addRelationship]
    have hKey : normalizePathForMap st.originURI = str "/aasx/aasx-origin" := by
      rw [hinv.origin]
      decide
    have hK : CanonicalNE (normalizePathForMap st.originURI) ∧
        toLowerJS (normalizePathForMap st.originURI) = normalizePathForMap st.originURI ∧
        containsSeq (str "_rels/") (normalizePathForMap st.originURI) = false := by
      rw [hKey]
      exact canonical_origin
    exact inv_addRelationshipWithID (inv_nextRelID hinv (st.nextRelID + 1)) (Or.inr hK)
      (relIdFor_ne_nil st.nextRelID) (by decide) (part_target_facts hinv hfind)
      (fun hnil => absurd (hKey ▸ hnil : str "/aasx/aasx-origin" = []) (by decide))

theorem inv_relate {st : Pkg} (hinv : Inv st) {usuppl uspec : JStr} {suppl spec : Part}
    (hfs : st.FindPart usuppl = some suppl) (hfp : st.FindPart uspec = some spec) :
    Inv (match st.RelateSupplementaryToSpec suppl spec with
         | .ok st' => st'
         | .error _ => st) := by
  simp only [Pkg.RelateSupplementaryToSpec]
  by_cases h1 : st.hasRelationship st.originURI (pathFromUri spec.uri) RelationTypeAasxSpec
  · rw [if_pos h1]
    by_cases h2 : st.hasRelationship (pathFromUri spec.uri) (pathFromUri suppl.uri)
        RelationTypeAasxSupplementary
    · rw [if_pos h2]
      exact hinv
    · rw [if_neg h2]
      simp only [Pkg.addRelationship]
      have hK := spec_key_facts hinv hfp
      exact inv_addRelationshipWithID (inv_nextRelID hinv (st.nextRelID + 1)) (Or.inr hK)
        (relIdFor_ne_nil st.nextRelID) (by decide) (part_target_facts hinv hfs)
        (fun hnil => absurd hnil (canonicalNE_ne_nil hK.1))
  · rw [if_neg h1]
    exact hinv

theorem inv_removeThumb {st : Pkg} (hinv : Inv st) (t : JStr) :
    Inv (st.removeRelationship [] t RelationTypeThumbnail) := by
  simp only [Pkg.removeRelationship]
  have hn : normalizePathForMap ([] : JStr) = [] := rfl
  rw [hn]
  cases hg : mapGet st.relationships [] with
  | none => exact absurd hg hinv.root_exists
  | some old =>
    rw [Option.getD_some]
    obtain ⟨r0, thumbs, hsh, hty0, htg0, hth⟩ := hinv.root_bucket old hg
    subst hsh
    have hp0 : ¬(normalizePathForMap r0.target = normalizePathForMap t ∧
        r0.relType = RelationTypeThumbnail) := by
      intro hc
      rw [hty0] at hc
      exact absurd hc.2 (by decide)
    have hp0b : decide (¬(normalizePathForMap r0.target = normalizePathForMap t ∧
        r0.relType = RelationTypeThumbnail)) = true := decide_eq_true hp0
    rw [List.filter_cons, if_pos hp0b]
    have hedges := (hinv.rels_wf ([], r0 :: thumbs) (mapGet_eq_some_mem hg)).2.2
    refine ⟨hinv.origin, hinv.parts_wf, hinv.parts_nodup, ?_,
      mapSet_keys_nodup hinv.rels_nodup _ _, ?_, ?_⟩
    · intro bu hbu
      rcases mem_mapSet hbu with hbo | hbn
      · rcases hinv.rels_wf bu hbo with ⟨k1, k2, k3⟩
        exact ⟨k1, k2, k3⟩
      · subst hbn
        refine ⟨Or.inl rfl, List.cons_ne_nil _ _, ?_⟩
        intro r hr
        rcases List.mem_cons.1 hr with h | h
        · subst h
          exact hedges _ (List.mem_cons_self _ _)
        · exact hedges _ (List.mem_cons_of_mem _ (List.mem_filter.1 h).1)
    · intro rels hgr
      rw [mapGet_set_self] at hgr
      injection hgr with hgr
      subst hgr
      exact ⟨r0, _, rfl, hty0, htg0, fun r hr => hth r (List.mem_filter.1 hr).1⟩
    · rw [mapGet_set_self]
      exact fun hc => Option.noConfusion hc

theorem removeThumbFold_parts : ∀ (rels : List Rel) (st : Pkg),
    (rels.foldl (fun s rel => s.removeRelationship [] rel.target RelationTypeThumbnail)
        st).parts = st.parts ∧
    (rels.foldl (fun s rel => s.removeRelationship [] rel.target RelationTypeThumbnail)
        st).nextRelID = st.nextRelID := by
  intro rels
  induction rels with
  | nil => exact fun st => ⟨rfl, rfl⟩
  | cons r rest ih =>
    intro st
    rw [List.foldl_cons]
    exact ih _

theorem inv_removeThumb_fold : ∀ (rels : List Rel) (st : Pkg), Inv st →
    Inv (rels.foldl (fun s rel => s.removeRelationship [] rel.target RelationTypeThumbnail)
      st) := by
  intro rels
  induction rels with
  | nil => exact fun st h => h
  | cons r rest ih =>
    intro st h
    rw [List.foldl_cons]
    exact ih _ (inv_removeThumb h r.target)

theorem inv_setThumbnail {st : Pkg} (hinv : Inv st) {uri : JStr} {part : Part}
    (hfind : st.FindPart uri = some part) : Inv (st.SetThumbnail part) := by
  have htf := part_target_facts hinv hfind
  simp only [Pkg.SetThumbnail]
  simp only [Pkg.addRelationship]
  have hinvf := inv_removeThumb_fold (st.getRelationshipsByType [] RelationTypeThumbnail)
    st hinv
  have hparts := (removeThumbFold_parts (st.getRelationshipsByType [] RelationTypeThumbnail)
    st).1
  refine inv_addRelationshipWithID (inv_nextRelID hinvf _) (Or.inl rfl) (relIdFor_ne_nil _)
    (by decide) ⟨htf.1, htf.2.1, ?_⟩ (fun _ => rfl)
  show mapGet (List.foldl _ st _).parts (normalizePathForMap (pathFromUri part.uri)) ≠ none
  rw [hparts]
  exact htf.2.2

theorem inv_applyOp {st : Pkg} (hinv : Inv st) {op : Op} (hv : validOp st op) :
    Inv (applyOp st op) := by
  cases op with
  | putPart uri ct content => exact inv_putPart hinv hv
  | makeSpec uri =>
    simp only [applyOp]
    cases hf : st.FindPart uri with
    | none => exact hinv
    | some part => exact inv_makeSpec hinv hf
  | relateSupplementaryToSpec supplUri specUri =>
    simp only [applyOp]
    cases hf1 : st.FindPart supplUri with
    | none => exact hinv
    | some suppl =>
      cases hf2 : st.FindPart specUri with
      | none => exact hinv
      | some spec => exact inv_relate hinv hf1 hf2
  | setThumbnail uri =>
    simp only [applyOp]
    cases hf : st.FindPart uri with
    | none => exact hinv
    | some part => exact inv_setThumbnail hinv hf

theorem inv_applyOps : ∀ (ops : List Op) (st : Pkg), Inv st → validOps st ops →
    Inv (applyOps st ops) := by
  intro ops
  induction ops with
  | nil => exact fun st h _ => h
  | cons op rest ih =>
    intro st h hv
    exact ih (applyOp st op) (inv_applyOp h hv.1) hv.2

/-- C1: round trip. For every sequence of PutPart, MakeSpec,
RelateSupplementaryToSpec and SetThumbnail calls on a fresh package — with each
PutPart giving a hygienic path (leading slash, no `//` start, no trailing
slash, no backslash, no `_rels/` segment in raw, lower-cased or canonical
form, not the reserved content-types member, not canonicalizing to the bare
root) and a NON-EMPTY content type, and the other calls naming registered
parts — flushing to bytes and re-opening yields a package whose `Specs`,
`SupplementaryRelationships` and `Thumbnail` results are literally equal to
the originals. The non-emptiness restriction is necessary: see the
counterexample on an empty content type. -/
theorem roundTrip_amended (ops : List Op) (h : validOps freshPkg ops) :
    ∃ st' : Pkg, openFromBytes (applyOps freshPkg ops).Flush = Except.ok st' ∧
      st'.Specs = (applyOps freshPkg ops).Specs ∧
      st'.SupplementaryRelationships = (applyOps freshPkg ops).SupplementaryRelationships ∧
      st'.Thumbnail = (applyOps freshPkg ops).Thumbnail := by
  have hinv := inv_applyOps ops freshPkg inv_fresh h
  exact ⟨{ applyOps freshPkg ops with nextRelID := 1 },
    openFromBytes_writeToBytes _ hinv, rfl, suppl_nextRelID _ 1, thumb_nextRelID _ 1⟩

/-- Witness: a six-call sequence (two parts, a spec, a supplementary relation,
a thumbnail) satisfies the hygiene conditions and round-trips. -/
theorem roundTrip_amended_witness :
    validOps freshPkg exOps ∧
    (∃ st' : Pkg, openFromBytes (applyOps freshPkg exOps).Flush = Except.ok st' ∧
      st'.Specs = (applyOps freshPkg exOps).Specs ∧
      st'.SupplementaryRelationships = (applyOps freshPkg exOps).SupplementaryRelationships ∧
      st'.Thumbnail = (applyOps freshPkg exOps).Thumbnail) :=
  ⟨by decide, roundTrip_amended exOps (by decide)⟩

/-- C1 counterexample: a PutPart with an EMPTY content type followed by
MakeSpec breaks the unrestricted round trip — the written empty `Default`
entry is dropped by the parse's truthiness filter, so the reopened spec
reports `application/octet-stream` instead of the original empty type. -/
theorem roundTrip_cex :
    (openFromBytes cexEmptyCt.Flush).toOption.map
        (fun st' => st'.Specs.map Part.contentType) =
      some [str "application/octet-stream"] ∧
    cexEmptyCt.Specs.map Part.contentType = [[]] := by
  decide

-- END
